import Mathlib

/-!
Verification of the storage-engine core of a BusTub-style educational DBMS:
the B+ tree index (`src/storage/index/b_plus_tree.cpp`,
`src/storage/page/b_plus_tree_leaf_page.cpp`,
`src/storage/page/b_plus_tree_internal_page.cpp`), the LRU-K replacer
(`src/buffer/lru_k_replacer.cpp`), the two buffer-pool-manager variants
(`src/buffer/buffer_pool_manager.cpp` in both source trees) and the leaf
iterator (`src/storage/index/index_iterator.cpp`).

Keys and record ids are modelled as naturals; the generic `KeyComparator`
is instantiated with the order on `Nat`.  Machine `int` index arithmetic in
the binary searches is mirrored with explicit `Nat` arithmetic (the C++
loops only ever form non-negative indices on the paths the theorems cover).
-/

namespace BusTub

/-! ## Page-level entry lists

A tree page's `array_` is modelled as a `List (Nat × α)`: `α = Nat` (a
record id) for leaf pages and `α = BPage` (the child subtree standing in
for the child `page_id_t`) for internal pages.  The leaf and internal
`Insert`/`Remove(key)` member functions are textually identical in the
source, so they are embedded once, generically in `α`. -/

/-- `KeyAt(i)`: `array_[i].first`.  Out-of-range reads (undefined in the
C++) default to key `0`. -/
def keyAt {α : Type} [Inhabited α] (es : List (Nat × α)) (i : Nat) : Nat :=
  (es.getD i (0, default)).1

/-- `ValueAt(i)`: `array_[i].second`. -/
def valueAt {α : Type} [Inhabited α] (es : List (Nat × α)) (i : Nat) : α :=
  (es.getD i (0, default)).2

/-- The `while (l < r)` loop of `BPlusTreeLeafPage::Insert` /
`BPlusTreeInternalPage::Insert`: lower-bound search that bails out with
`none` when `comparator(KeyAt(mid), key) == 0`. -/
def insLoop {α : Type} [Inhabited α] (es : List (Nat × α)) (key l r : Nat) : Option Nat :=
  if l < r then
    if keyAt es ((l + r) / 2) = key then none
    else if keyAt es ((l + r) / 2) < key then insLoop es key ((l + r) / 2 + 1) r
    else insLoop es key l ((l + r) / 2)
  else some l
termination_by r - l
decreasing_by all_goals omega

/-- Embeds `BPlusTreeLeafPage::Insert` and `BPlusTreeInternalPage::Insert`
(the two bodies are identical).  `none` models the C++ `return false` on a
duplicate key; otherwise the updated entry list is returned. -/
def pageIns {α : Type} [Inhabited α] (es : List (Nat × α)) (key : Nat) (v : α) :
    Option (List (Nat × α)) :=
  if es.length = 0 then some [(key, v)]
  else if keyAt es (es.length - 1) < key then some (es ++ [(key, v)])
  else
    match insLoop es key 0 (es.length - 1) with
    | none => none
    | some l => if keyAt es l = key then none
                else some (es.take l ++ (key, v) :: es.drop l)

/-- The `while (l < r)` lower-bound loop shared by
`BPlusTreeLeafPage::Remove`, `BPlusTreeInternalPage::Remove` and the leaf
branch of `BPlusTree::FindLeafRead`: first index whose key is `≥ key`. -/
def lbLoop {α : Type} [Inhabited α] (es : List (Nat × α)) (key l r : Nat) : Nat :=
  if l < r then
    if keyAt es ((l + r) / 2) < key then lbLoop es key ((l + r) / 2 + 1) r
    else lbLoop es key l ((l + r) / 2)
  else l
termination_by r - l
decreasing_by all_goals omega

/-- In-place removal of the entry at index `l` (the
`IncreaseSize(-1); for (i = l; ...) array_[i] = array_[i+1]` block). -/
def rmAt {α : Type} (es : List (Nat × α)) (l : Nat) : List (Nat × α) :=
  es.take l ++ es.drop (l + 1)

/-- Embeds `BPlusTreeLeafPage::Remove(key)` and
`BPlusTreeInternalPage::Remove(key)` (identical bodies).  `none` models
`return false`. -/
def pageRm {α : Type} [Inhabited α] (es : List (Nat × α)) (key : Nat) :
    Option (List (Nat × α)) :=
  if es.length = 0 then none
  else if keyAt es 0 = key then some (rmAt es 0)
  else if keyAt es (es.length - 1) = key then some (rmAt es (es.length - 1))
  else if keyAt es (lbLoop es key 0 (es.length - 1)) = key then
    some (rmAt es (lbLoop es key 0 (es.length - 1)))
  else none

/-! Reference (specification-side) list operations used to characterise the
binary-search embeddings on sorted entry lists. -/

/-- Sorted insertion of `(key, v)` before the first strictly larger key. -/
def insPair {α : Type} (es : List (Nat × α)) (key : Nat) (v : α) : List (Nat × α) :=
  match es with
  | [] => [(key, v)]
  | (k, w) :: rest =>
      if key < k then (key, v) :: (k, w) :: rest
      else (k, w) :: insPair rest key v

/-- Removal of the first entry whose key is `key`. -/
def rmPair {α : Type} (es : List (Nat × α)) (key : Nat) : List (Nat × α) :=
  match es with
  | [] => []
  | (k, w) :: rest => if k = key then rest else (k, w) :: rmPair rest key

/-- Keys of an entry list. -/
def keysOf {α : Type} (es : List (Nat × α)) : List Nat := es.map (·.1)

/-- Strictly ascending keys, as a Boolean for decidability. -/
def sortedB : List Nat → Bool
  | [] => true
  | [_] => true
  | a :: b :: rest => decide (a < b) && sortedB (b :: rest)

/-! ## The B+ tree

`BPage` is the algebraic view of a tree of pages: a child `page_id_t`
stored in an internal page is replaced by the child subtree itself (page
ids are pure indirection here — each tree page is referenced by exactly
one parent entry, so the buffer-pool indirection is semantically inert for
the tree operations).  Leaf `next_page_id_` sibling links do not influence
`GetValue`/`Insert`/`Remove` results and are modelled separately for the
iterator claims. -/

inductive BPage where
  | leaf (kvs : List (Nat × Nat)) : BPage
  | node (kcs : List (Nat × BPage)) : BPage

instance : Inhabited BPage := ⟨.leaf []⟩

/-- `GetSize()` of a page. -/
def nodeSize : BPage → Nat
  | .leaf kvs => kvs.length
  | .node kcs => kcs.length

/-- `KeyAt(0)` of a page (same byte offset for both page kinds). -/
def pageKey0 : BPage → Nat
  | .leaf kvs => keyAt kvs 0
  | .node kcs => keyAt kcs 0

/-- Reinterpret a page as a leaf (`As<LeafPage>()`); reading a non-leaf
page through the leaf view is undefined in the C++ and modelled as `[]`. -/
def leafKVs : BPage → List (Nat × Nat)
  | .leaf kvs => kvs
  | .node _ => []

/-- Reinterpret a page as an internal page (`As<InternalPage>()`). -/
def nodeKCs : BPage → List (Nat × BPage)
  | .leaf _ => []
  | .node kcs => kcs

/-- Modelled from the spec: `BPlusTreePage::GetMinSize` (its defining file
is not among the sources); the spec fixes `min_size = ⌈max_size/2⌉` for
both page kinds. -/
def minSize (maxSize : Nat) : Nat := (maxSize + 1) / 2

/-- The `while (page->GetSize() > min)` loops that repeatedly move the
last entry of `src` into `dst` via the page `Insert` (whose `bool` result
the C++ discards). -/
def moveTail {α : Type} [Inhabited α] (src dst : List (Nat × α)) (minSz : Nat) :
    List (Nat × α) × List (Nat × α) :=
  if minSz < src.length then
    moveTail src.dropLast
      ((pageIns dst (keyAt src (src.length - 1)) (valueAt src (src.length - 1))).getD dst)
      minSz
  else (src, dst)
termination_by src.length
decreasing_by simp [List.length_dropLast]; omega

/-- The `while (l <= r)` descent-index loop of `BPlusTree::DfsInsert` and
`BPlusTree::DfsRemove` (identical in both).  `r` is a C++ `int` and can
reach `-1`, hence `Int`. -/
def idxLoop {α : Type} [Inhabited α] (es : List (Nat × α)) (key : Nat) :
    Nat → Int → Nat → Nat
  | l, r, index =>
    if h : (l : Int) ≤ r then
      if keyAt es (((l : Int) + r) / 2).toNat ≤ key then
        idxLoop es key ((((l : Int) + r) / 2).toNat + 1) r (((l : Int) + r) / 2).toNat
      else idxLoop es key l (((l : Int) + r) / 2 - 1) index
    else index
termination_by l r _ => (r + 1 - l).toNat
decreasing_by all_goals omega

/-- Descent child index in `DfsInsert`/`DfsRemove`:
`l = 1, r = GetSize() - 1, index = 0`. -/
def childIdx {α : Type} [Inhabited α] (es : List (Nat × α)) (key : Nat) : Nat :=
  idxLoop es key 1 ((es.length : Int) - 1) 0

/-- The `while (l < r)` upper-bound loop in the internal-page branch of
`BPlusTree::FindLeafRead` / `FindLeafWrite`. -/
def ubLoop {α : Type} [Inhabited α] (es : List (Nat × α)) (key l r : Nat) : Nat :=
  if l < r then
    if key < keyAt es ((l + r + 1) / 2) then ubLoop es key l ((l + r + 1) / 2 - 1)
    else ubLoop es key ((l + r + 1) / 2) r
  else l
termination_by r - l
decreasing_by all_goals omega

/-- Descent child index in `FindLeafRead`/`FindLeafWrite`:
`l = 0` when `GetSize() == 1 || KeyAt(1) > key`, else the loop over
`[1, GetSize() - 1]`. -/
def childIdxRead {α : Type} [Inhabited α] (es : List (Nat × α)) (key : Nat) : Nat :=
  if es.length = 1 ∨ key < keyAt es 1 then 0
  else ubLoop es key 1 (es.length - 1)

mutual
/-- The flattened key/value contents of a subtree, in page order. -/
def toList : BPage → List (Nat × Nat)
  | .leaf kvs => kvs
  | .node kcs => toListL kcs

/-- Flattened contents of a list of internal-page entries. -/
def toListL : List (Nat × BPage) → List (Nat × Nat)
  | [] => []
  | kc :: rest => toList kc.2 ++ toListL rest
end

mutual
/-- Structural well-formedness needed by the search path: internal pages
are non-empty, every stored key equals the child's `KeyAt(0)`, and every
child has non-empty contents. -/
def structB : BPage → Bool
  | .leaf _ => true
  | .node kcs => !kcs.isEmpty && structL kcs

def structL : List (Nat × BPage) → Bool
  | [] => true
  | (k, c) :: rest =>
      decide (k = pageKey0 c) && !(toList c).isEmpty && structB c && structL rest
end

/-- Search well-formedness: structure plus globally sorted keys.  Every
tree reachable by the API from the initial empty root satisfies this. -/
def wfB (t : BPage) : Bool := structB t && sortedB (keysOf (toList t))

mutual
/-- Every internal page (root included) carries at least two entries. -/
def node2B : BPage → Bool
  | .leaf _ => true
  | .node kcs => decide (2 ≤ kcs.length) && node2L kcs

def node2L : List (Nat × BPage) → Bool
  | [] => true
  | kc :: rest => node2B kc.2 && node2L rest
end

mutual
/-- Occupancy: every non-root page holds at least `min_size` entries. -/
def occB (lM iM : Nat) (isRoot : Bool) : BPage → Bool
  | .leaf kvs => isRoot || decide (minSize lM ≤ kvs.length)
  | .node kcs => (isRoot || decide (minSize iM ≤ kcs.length)) && occL lM iM kcs

def occL (lM iM : Nat) : List (Nat × BPage) → Bool
  | [] => true
  | kc :: rest => occB lM iM false kc.2 && occL lM iM rest
end

/-- `pageIns` with the `bool` result discarded, as in the call sites that
ignore `Insert`'s return value. -/
def pageInsD {α : Type} [Inhabited α] (es : List (Nat × α)) (key : Nat) (v : α) :
    List (Nat × α) :=
  (pageIns es key v).getD es

/-- `pageRm` with the `bool` result discarded. -/
def pageRmD {α : Type} [Inhabited α] (es : List (Nat × α)) (key : Nat) :
    List (Nat × α) :=
  (pageRm es key).getD es

mutual
/-- Embeds the descent loop of `BPlusTree::FindLeafRead`: returns the
search result (leaf page and index on a hit) together with the contents of
`ctx->read_set_` — one read guard per visited page, none of them released
before the function returns. -/
def flr : BPage → Nat → List BPage → (Option (BPage × Nat)) × List BPage
  | .leaf kvs, key, acc =>
      if keyAt kvs (lbLoop kvs key 0 (kvs.length - 1)) = key then
        (some (.leaf kvs, lbLoop kvs key 0 (kvs.length - 1)), acc)
      else (none, acc)
  | .node kcs, key, acc => flrAt kcs (childIdxRead kcs key) key acc

/-- Fetch of the `index`-th child during the read descent (the
`ValueAt(l)` page fetch); an out-of-range index dereferences garbage in
the C++ and yields a miss here. -/
def flrAt : List (Nat × BPage) → Nat → Nat → List BPage → (Option (BPage × Nat)) × List BPage
  | [], _, _, acc => (none, acc)
  | kc :: _, 0, key, acc => flr kc.2 key (acc ++ [kc.2])
  | _ :: rest, i + 1, key, acc => flrAt rest i key acc
end

/-- Embeds `BPlusTree::FindLeafRead` (empty-tree check, then descent with
the root guard pushed first). -/
def findLeafRead (t : BPage) (key : Nat) : (Option (BPage × Nat)) × List BPage :=
  if nodeSize t = 0 then (none, []) else flr t key [t]

/-- Embeds `BPlusTree::GetValue`: on a hit, `ValueAt(index)` of the found
leaf. -/
def getValue (t : BPage) (key : Nat) : Option Nat :=
  match (findLeafRead t key).1 with
  | some (p, i) => some (valueAt (leafKVs p) i)
  | none => none

/-- The parent fix-up after a recursive `DfsInsert` call:
`internal_page->Remove(pre_key)` followed by
`internal_page->Insert(son->KeyAt(0), son_page_id)`, with the in-place
mutation of the child page made explicit by updating the entry's subtree
component first. -/
def insFix (kcs : List (Nat × BPage)) (i : Nat) (son : BPage) (preKey : Nat) :
    List (Nat × BPage) :=
  pageInsD (pageRmD (kcs.set i ((kcs.getD i (0, default)).1, son)) preKey)
    (pageKey0 son) son

/-- The internal-page split of `DfsInsert` (`GetSize() == GetMaxSize()`
case): seed the fresh page, then move tail entries until the old page
holds `GetMinSize()` entries. -/
def internalSplit (iM : Nat) (kcs1 : List (Nat × BPage)) (k : Nat) (np : BPage) :
    List (Nat × BPage) × List (Nat × BPage) :=
  if keyAt kcs1 (kcs1.length - 1) < k then
    moveTail kcs1 (pageInsD [] k np) (minSize iM)
  else
    moveTail (pageInsD kcs1.dropLast k np)
      (pageInsD [] (keyAt kcs1 (kcs1.length - 1)) (valueAt kcs1 (kcs1.length - 1)))
      (minSize iM)

mutual
/-- Embeds `BPlusTree::DfsInsert`.  `none` models `return false`
(duplicate key); otherwise the result carries the updated page, the
split-off sibling page if a split happened, and `pre_key`. -/
def dfsIns (lM iM : Nat) : BPage → Nat → Nat → Option (BPage × Option BPage × Nat)
  | .leaf kvs, key, v =>
      match pageIns kvs key v with
      | none => none
      | some kvs' =>
          if kvs'.length ≠ lM then some (.leaf kvs', none, keyAt kvs 0)
          else
            some (.leaf (moveTail kvs' [] (minSize lM)).1,
              some (.leaf (moveTail kvs' [] (minSize lM)).2), keyAt kvs 0)
  | .node kcs, key, v =>
      match dfsInsAt lM iM kcs (childIdx kcs key) key v with
      | none => none
      | some (son, split?, preKey) =>
          match split? with
          | none => some (.node (insFix kcs (childIdx kcs key) son preKey), none, keyAt kcs 0)
          | some np =>
              if (insFix kcs (childIdx kcs key) son preKey).length ≠ iM then
                some (.node (pageInsD (insFix kcs (childIdx kcs key) son preKey)
                  (pageKey0 np) np), none, keyAt kcs 0)
              else
                some (.node (internalSplit iM (insFix kcs (childIdx kcs key) son preKey)
                    (pageKey0 np) np).1,
                  some (.node (internalSplit iM (insFix kcs (childIdx kcs key) son preKey)
                    (pageKey0 np) np).2), keyAt kcs 0)

/-- The recursive `DfsInsert(son_page_id, ...)` call on the `index`-th
child. -/
def dfsInsAt (lM iM : Nat) :
    List (Nat × BPage) → Nat → Nat → Nat → Option (BPage × Option BPage × Nat)
  | [], _, _, _ => none
  | kc :: _, 0, key, v => dfsIns lM iM kc.2 key v
  | _ :: rest, i + 1, key, v => dfsInsAt lM iM rest i key v
end

/-- Embeds `BPlusTree::Insert`: run `DfsInsert` from the root; on a split,
allocate a new internal root holding both halves and install it as the
root. -/
def insertOp (lM iM : Nat) (t : BPage) (key v : Nat) : Bool × BPage :=
  match dfsIns lM iM t key v with
  | none => (false, t)
  | some (t', none, _) => (true, t')
  | some (t', some np, _) =>
      (true, .node (pageInsD (pageInsD [] (pageKey0 t') t') (pageKey0 np) np))

/-- Which page a `(key, page_id)` entry of `DfsRemove`'s `add_node` list
refers to: the current page, its left sibling or its right sibling. -/
inductive SibTag where
  | self : SibTag
  | sleft : SibTag
  | sright : SibTag

/-- Resolve an `add_node` page id against the pages it can refer to. -/
def resolveTag (tag : SibTag) (son : BPage) (l' r' : Option BPage) : BPage :=
  match tag with
  | .self => son
  | .sleft => l'.getD default
  | .sright => r'.getD default

/-- `for (auto [k, v] : delete_node) internal_page->Remove(k, comparator_)`. -/
def applyDels (kcs : List (Nat × BPage)) (dels : List Nat) : List (Nat × BPage) :=
  dels.foldl (fun acc k => pageRmD acc k) kcs

/-- `for (auto [k, v] : add_node) internal_page->Insert(k, v, comparator_)`. -/
def applyAdds (kcs : List (Nat × BPage)) (adds : List (Nat × SibTag)) (son : BPage)
    (l' r' : Option BPage) : List (Nat × BPage) :=
  adds.foldl (fun acc kt => pageInsD acc kt.1 (resolveTag kt.2 son l' r')) kcs

/-- The in-place page mutations performed through the child / sibling
write guards during `DfsRemove`, reflected into the parent's entry list
(stored keys unchanged; C++ fixes them up via `delete_node`/`add_node`). -/
def updateChildren (kcs : List (Nat × BPage)) (i : Nat) (son : BPage)
    (l' r' : Option BPage) : List (Nat × BPage) :=
  let a := kcs.set i ((kcs.getD i (0, default)).1, son)
  let b := match l' with
    | some lp => a.set (i - 1) ((a.getD (i - 1) (0, default)).1, lp)
    | none => a
  match r' with
  | some rp => b.set (i + 1) ((b.getD (i + 1) (0, default)).1, rp)
  | none => b

/-- The leaf case of `BPlusTree::DfsRemove`: remove the key, then — on
underflow — borrow from the left sibling, borrow from the right sibling,
merge into the left sibling, or absorb the right sibling, in that order.
Sibling sizes are compared as C++ `int`s. -/
def leafRmStep (lM : Nat) (kvs : List (Nat × Nat)) (lsib rsib : Option BPage)
    (key : Nat) : BPage × Option BPage × Option BPage × List Nat × List (Nat × SibTag) :=
  if minSize lM ≤ (pageRmD kvs key).length ∨ (lsib.isNone ∧ rsib.isNone) then
    (.leaf (pageRmD kvs key), lsib, rsib, [keyAt kvs 0],
      [(keyAt (pageRmD kvs key) 0, SibTag.self)])
  else if lsib.isSome ∧
      (minSize lM : Int) ≤ (leafKVs (lsib.getD default)).length - 1 then
    (.leaf (pageInsD (pageRmD kvs key)
        (keyAt (leafKVs (lsib.getD default)) ((leafKVs (lsib.getD default)).length - 1))
        (valueAt (leafKVs (lsib.getD default)) ((leafKVs (lsib.getD default)).length - 1))),
      some (.leaf (leafKVs (lsib.getD default)).dropLast), rsib, [keyAt kvs 0],
      [(keyAt (pageInsD (pageRmD kvs key)
        (keyAt (leafKVs (lsib.getD default)) ((leafKVs (lsib.getD default)).length - 1))
        (valueAt (leafKVs (lsib.getD default)) ((leafKVs (lsib.getD default)).length - 1))) 0,
        SibTag.self)])
  else if rsib.isSome ∧
      (minSize lM : Int) ≤ (leafKVs (rsib.getD default)).length - 1 then
    (.leaf (pageInsD (pageRmD kvs key) (keyAt (leafKVs (rsib.getD default)) 0)
        (valueAt (leafKVs (rsib.getD default)) 0)),
      lsib,
      some (.leaf (pageRmD (leafKVs (rsib.getD default))
        (keyAt (leafKVs (rsib.getD default)) 0))),
      [keyAt kvs 0, keyAt (leafKVs (rsib.getD default)) 0],
      [(keyAt (pageInsD (pageRmD kvs key) (keyAt (leafKVs (rsib.getD default)) 0)
          (valueAt (leafKVs (rsib.getD default)) 0)) 0, SibTag.self),
       (keyAt (pageRmD (leafKVs (rsib.getD default))
          (keyAt (leafKVs (rsib.getD default)) 0)) 0, SibTag.sright)])
  else if lsib.isSome then
    (.leaf (moveTail (pageRmD kvs key) (leafKVs (lsib.getD default)) 0).1,
      some (.leaf (moveTail (pageRmD kvs key) (leafKVs (lsib.getD default)) 0).2), rsib,
      [keyAt kvs 0, keyAt (leafKVs (lsib.getD default)) 0],
      [(keyAt (moveTail (pageRmD kvs key) (leafKVs (lsib.getD default)) 0).2 0,
        SibTag.sleft)])
  else if rsib.isSome then
    (.leaf (moveTail (leafKVs (rsib.getD default)) (pageRmD kvs key) 0).2, lsib,
      some (.leaf (moveTail (leafKVs (rsib.getD default)) (pageRmD kvs key) 0).1),
      [keyAt kvs 0, keyAt (leafKVs (rsib.getD default)) 0],
      [(keyAt (moveTail (leafKVs (rsib.getD default)) (pageRmD kvs key) 0).2 0,
        SibTag.self)])
  else (.leaf (pageRmD kvs key), lsib, rsib, [keyAt kvs 0], [])

/-- Underflow handling of an internal page in `DfsRemove`, on the page
contents `k2` obtained after the `delete_node`/`add_node` fix-up;
`preKey` is the page's `KeyAt(0)` captured before the fix-up. -/
def nodeRmFinish (iM : Nat) (k2 : List (Nat × BPage)) (preKey : Nat)
    (lsib rsib : Option BPage) :
    BPage × Option BPage × Option BPage × List Nat × List (Nat × SibTag) :=
  if minSize iM ≤ k2.length ∨ (lsib.isNone ∧ rsib.isNone) then
    (.node k2, lsib, rsib, [preKey], [(keyAt k2 0, SibTag.self)])
  else if lsib.isSome ∧
      (minSize iM : Int) ≤ (nodeKCs (lsib.getD default)).length - 1 then
    (.node (pageInsD k2
        (keyAt (nodeKCs (lsib.getD default)) ((nodeKCs (lsib.getD default)).length - 1))
        (valueAt (nodeKCs (lsib.getD default)) ((nodeKCs (lsib.getD default)).length - 1))),
      some (.node (nodeKCs (lsib.getD default)).dropLast), rsib, [preKey],
      [(keyAt (pageInsD k2
          (keyAt (nodeKCs (lsib.getD default)) ((nodeKCs (lsib.getD default)).length - 1))
          (valueAt (nodeKCs (lsib.getD default))
            ((nodeKCs (lsib.getD default)).length - 1))) 0, SibTag.self)])
  else if rsib.isSome ∧
      (minSize iM : Int) ≤ (nodeKCs (rsib.getD default)).length - 1 then
    (.node (pageInsD k2 (keyAt (nodeKCs (rsib.getD default)) 0)
        (valueAt (nodeKCs (rsib.getD default)) 0)),
      lsib,
      some (.node (pageRmD (nodeKCs (rsib.getD default))
        (keyAt (nodeKCs (rsib.getD default)) 0))),
      [preKey, keyAt (nodeKCs (rsib.getD default)) 0],
      [(keyAt (pageInsD k2 (keyAt (nodeKCs (rsib.getD default)) 0)
          (valueAt (nodeKCs (rsib.getD default)) 0)) 0, SibTag.self),
       (keyAt (pageRmD (nodeKCs (rsib.getD default))
          (keyAt (nodeKCs (rsib.getD default)) 0)) 0, SibTag.sright)])
  else if lsib.isSome then
    (.node (moveTail (nodeKCs (lsib.getD default)) k2 0).2,
      some (.node (moveTail (nodeKCs (lsib.getD default)) k2 0).1), rsib,
      [preKey, keyAt (nodeKCs (lsib.getD default)) 0],
      [(keyAt (moveTail (nodeKCs (lsib.getD default)) k2 0).2 0, SibTag.self)])
  else if rsib.isSome then
    (.node (moveTail (nodeKCs (rsib.getD default)) k2 0).2, lsib,
      some (.node (moveTail (nodeKCs (rsib.getD default)) k2 0).1),
      [preKey, keyAt (nodeKCs (rsib.getD default)) 0],
      [(keyAt (moveTail (nodeKCs (rsib.getD default)) k2 0).2 0, SibTag.self)])
  else (.node k2, lsib, rsib, [preKey], [])

/-- The internal-page tail of `BPlusTree::DfsRemove` after the recursive
call: apply `delete_node`/`add_node` to this page, then handle underflow
against this page's own siblings (borrow left, borrow right, merge left,
absorb right). -/
def nodeRmStep (iM : Nat)
    (res : BPage × Option BPage × Option BPage × List Nat × List (Nat × SibTag))
    (kcs : List (Nat × BPage)) (i : Nat) (lsib rsib : Option BPage) :
    BPage × Option BPage × Option BPage × List Nat × List (Nat × SibTag) :=
  match res with
  | (son, l', r', dels, adds) =>
    nodeRmFinish iM
      (applyAdds (applyDels (updateChildren kcs i son l' r') dels) adds son l' r')
      (keyAt kcs 0) lsib rsib

mutual
/-- Embeds `BPlusTree::DfsRemove`.  Returns the updated page, the (possibly
modified) left and right siblings it was handed, and the
`delete_node`/`add_node` instructions for the parent. -/
def dfsRm (lM iM : Nat) : BPage → Option BPage → Option BPage → Nat →
    BPage × Option BPage × Option BPage × List Nat × List (Nat × SibTag)
  | .leaf kvs, lsib, rsib, key => leafRmStep lM kvs lsib rsib key
  | .node kcs, lsib, rsib, key =>
      nodeRmStep iM
        (dfsRmAt lM iM kcs (childIdx kcs key)
          (if 1 ≤ childIdx kcs key then some (valueAt kcs (childIdx kcs key - 1)) else none)
          (if childIdx kcs key + 1 < kcs.length then some (valueAt kcs (childIdx kcs key + 1))
           else none)
          key)
        kcs (childIdx kcs key) lsib rsib

/-- The recursive `DfsRemove(son_page_id, ...)` call on the `index`-th
child. -/
def dfsRmAt (lM iM : Nat) : List (Nat × BPage) → Nat → Option BPage → Option BPage → Nat →
    BPage × Option BPage × Option BPage × List Nat × List (Nat × SibTag)
  | [], _, ls, rs, _ => (default, ls, rs, [], [])
  | kc :: _, 0, ls, rs, key => dfsRm lM iM kc.2 ls rs key
  | _ :: rest, i + 1, ls, rs, key => dfsRmAt lM iM rest i ls rs key
end

/-- Embeds `BPlusTree::Remove`: no-op on the empty tree; otherwise run
`DfsRemove` from the root and collapse an internal root of size one. -/
def removeOp (lM iM : Nat) (t : BPage) (key : Nat) : BPage :=
  if nodeSize t = 0 then t
  else
    match (dfsRm lM iM t none none key).1 with
    | .node kcs => if kcs.length = 1 then (kcs.getD 0 (0, default)).2 else .node kcs
    | p => p

mutual
/-- Number of pages on the root-to-leaf path that `FindLeafRead`'s descent
visits for `key` (defined independently of the guard bookkeeping). -/
def descentDepth : BPage → Nat → Nat
  | .leaf _, _ => 1
  | .node kcs, key => 1 + descentDepthAt kcs (childIdxRead kcs key) key

/-- Depth through the `index`-th child. -/
def descentDepthAt : List (Nat × BPage) → Nat → Nat → Nat
  | [], _, _ => 0
  | kc :: _, 0, key => descentDepth kc.2 key
  | _ :: rest, i + 1, key => descentDepthAt rest i key
end

/-- Embeds the `BPlusTree` constructor (`b_plus_tree.cpp` lines 16-31): it
write-latches the header, allocates a **fresh** page, stores its id as the
header's `root_page_id_` and initialises it as an empty leaf — regardless
of what tree the header pointed to before.  The pre-existing tree `_t` on
disk is therefore unreachable from the new root. -/
def reopenTree (_t : BPage) : BPage := .leaf []

/-! ## The leaf iterator (`index_iterator.cpp`)

Leaf pages are addressed by `page_id_t` (an `Int`, `INVALID_PAGE_ID = -1`)
through a fetch function standing for `bpm_->FetchPageBasic`. -/

/-- A leaf page as the iterator sees it: entries plus `next_page_id_`. -/
structure LeafRec where
  kvs : List (Nat × Nat)
  next : Int
deriving DecidableEq

/-- Iterator state: the `page_` pointer (`none` = `nullptr`) and `index_`. -/
structure IterState where
  page : Option Int
  index : Nat
deriving DecidableEq

/-- The `IndexIterator(bpm, page_id, index)` constructor: early-returns on
`INVALID_PAGE_ID`, leaving `page_ = nullptr` and the default `index_ = 0`. -/
def iterMk (pageId : Int) (index : Nat) : IterState :=
  if pageId = -1 then { page := none, index := 0 }
  else { page := some pageId, index := index }

/-- `BPlusTree::End()`: `IndexIterator(bpm, INVALID_PAGE_ID, 0)`. -/
def endIter : IterState := iterMk (-1) 0

/-- Embeds `IndexIterator::operator++`. -/
def iterInc (pages : Int → LeafRec) (it : IterState) : IterState :=
  match it.page with
  | none => it
  | some pid =>
      if it.index + 1 = (pages pid).kvs.length then
        if (pages pid).next = -1 then { page := none, index := 0 }
        else { page := some (pages pid).next, index := 0 }
      else { page := some pid, index := it.index + 1 }

/-- Embeds `IndexIterator::operator==`: compares `index_` and `page_`. -/
def iterEq (a b : IterState) : Bool := a.index == b.index && a.page == b.page

/-! ## The LRU-K replacer (`lru_k_replacer.cpp`)

`LRUKNode` is declared in `lru_k_replacer.h`, which is not among the
sources; it is modelled from the spec (§3, §4.1). -/

/-- Modelled from the spec: `LRUKNode` (`lru_k_replacer.h` is missing) — a
bounded ring of the last `K` access timestamps plus the evictable flag; a
default-constructed node has an empty history and is not evictable. -/
structure LRUKNode where
  history : List Nat
  k : Nat
  is_evictable : Bool
deriving DecidableEq

instance : Inhabited LRUKNode := ⟨⟨[], 0, false⟩⟩

/-- Modelled from the spec: `LRUKNode::AddHistory` appends the timestamp
to the bounded ring of the last `K` accesses. -/
def addHistory (n : LRUKNode) (ts : Nat) : LRUKNode :=
  { n with history := (n.history ++ [ts]).drop ((n.history.length + 1) - n.k) }

/-- Modelled from the spec: `LRUKNode::GetKthHistory` — the oldest retained
timestamp (the K-th most recent access for cache frames, the first access
for frames with fewer than `K` accesses). -/
def kthHistory (n : LRUKNode) : Nat := n.history.headD 0

/-- `LRUKReplacer` state: the node store, the *new* and *cache* frame
lists (front = most recently touched), the evictable count, the monotonic
timestamp, `replacer_size_` and `k_`.  The `new_locate_`/`cache_locate_`
iterator maps are pure position caches and need no separate model. -/
structure LRUKReplacer where
  node_store : List (Nat × LRUKNode)
  new_frame : List Nat
  cache_frame : List Nat
  curr_size : Nat
  current_timestamp : Nat
  replacer_size : Nat
  k : Nat
deriving DecidableEq

/-- The `LRUKReplacer(num_frames, k)` constructor. -/
def lrukInit (numFrames k : Nat) : LRUKReplacer :=
  { node_store := [], new_frame := [], cache_frame := [], curr_size := 0,
    current_timestamp := 0, replacer_size := numFrames, k := k }

/-- `node_store_[f]` as a read (`operator[]` default-constructs a missing
node; the scans only reach frames present in the store). -/
def getNode (s : LRUKReplacer) (f : Nat) : LRUKNode :=
  (s.node_store.lookup f).getD default

/-- Replace the entry of key `f` (unique in an `unordered_map`). -/
def replaceEntry : List (Nat × LRUKNode) → Nat → LRUKNode → List (Nat × LRUKNode)
  | [], _, _ => []
  | (k, v) :: rest, f, n =>
      if k = f then (f, n) :: rest else (k, v) :: replaceEntry rest f n

/-- `node_store_[f] = n` (insert-or-assign). -/
def storeSet (store : List (Nat × LRUKNode)) (f : Nat) (n : LRUKNode) :
    List (Nat × LRUKNode) :=
  if (store.lookup f).isSome then replaceEntry store f n else (f, n) :: store

/-- `node_store_.erase(f)`. -/
def storeErase (store : List (Nat × LRUKNode)) (f : Nat) : List (Nat × LRUKNode) :=
  store.filter (fun p => p.1 != f)

/-- One iteration of the scan loops in `LRUKReplacer::Evict`: keep the
first evictable frame seen with the strictly smallest `GetKthHistory()`. -/
def scanStep (s : LRUKReplacer) (best : Option Nat) (cur : Nat) : Option Nat :=
  if (getNode s cur).is_evictable then
    match best with
    | none => some cur
    | some b =>
        if kthHistory (getNode s cur) < kthHistory (getNode s b) then some cur
        else best
  else best

/-- The scan of one frame list in `LRUKReplacer::Evict`. -/
def scanBest (s : LRUKReplacer) (frames : List Nat) : Option Nat :=
  frames.foldl (scanStep s) none

/-- Embeds `LRUKReplacer::Evict`: try the *new* list, then the *cache*
list; on success erase the victim entirely and decrement the size. -/
def lrukEvict (s : LRUKReplacer) : Option Nat × LRUKReplacer :=
  match scanBest s s.new_frame with
  | some f =>
      (some f,
        { s with
            new_frame := s.new_frame.erase f
            node_store := storeErase s.node_store f
            curr_size := s.curr_size - 1 })
  | none =>
      match scanBest s s.cache_frame with
      | some f =>
          (some f,
            { s with
                cache_frame := s.cache_frame.erase f
                node_store := storeErase s.node_store f
                curr_size := s.curr_size - 1 })
      | none => (none, s)

/-- The known-frame branch of `LRUKReplacer::RecordAccess`: append the
timestamp; on the `K`-th access move the frame from *new* to *cache*; on
earlier accesses (or when `k == 1`) move it to the front of *new*. -/
def recordKnown (s : LRUKReplacer) (f ts : Nat) : LRUKReplacer :=
  if (getNode s f).history.length + 1 = s.k then
    { s with
        current_timestamp := ts
        node_store := storeSet s.node_store f (addHistory (getNode s f) ts)
        new_frame := s.new_frame.erase f
        cache_frame := f :: s.cache_frame }
  else if (getNode s f).history.length + 1 < s.k ∨ s.k = 1 then
    { s with
        current_timestamp := ts
        node_store := storeSet s.node_store f (addHistory (getNode s f) ts)
        new_frame := f :: s.new_frame.erase f }
  else
    { s with
        current_timestamp := ts
        node_store := storeSet s.node_store f (addHistory (getNode s f) ts) }

/-- The unknown-frame branch of `LRUKReplacer::RecordAccess`: when
`curr_size_ == replacer_size_` an eviction is performed first; then the
frame is created in the *new* list with this single timestamp. -/
def recordNew (s : LRUKReplacer) (f ts : Nat) : LRUKReplacer :=
  { (if s.curr_size = s.replacer_size then (lrukEvict s).2 else s) with
      current_timestamp := ts
      new_frame := f :: (if s.curr_size = s.replacer_size then (lrukEvict s).2 else s).new_frame
      node_store := (f, addHistory { history := [], k := s.k, is_evictable := false } ts) ::
        (if s.curr_size = s.replacer_size then (lrukEvict s).2 else s).node_store }

/-- Embeds `LRUKReplacer::RecordAccess`; `none` models the
`frame_id > replacer_size_` exception. -/
def lrukRecord (s : LRUKReplacer) (f : Nat) : Option LRUKReplacer :=
  if s.replacer_size < f then none
  else if (s.node_store.lookup f).isSome then
    some (recordKnown s f (s.current_timestamp + 1))
  else some (recordNew s f (s.current_timestamp + 1))

/-- Embeds `LRUKReplacer::SetEvictable`. -/
def lrukSetEvictable (s : LRUKReplacer) (f : Nat) (flag : Bool) : LRUKReplacer :=
  if (s.node_store.lookup f).isNone then s
  else
    { s with
        node_store := storeSet s.node_store f { getNode s f with is_evictable := flag }
        curr_size :=
          if (getNode s f).is_evictable ≠ flag then
            (if flag then s.curr_size + 1 else s.curr_size - 1)
          else s.curr_size }

/-- Embeds `LRUKReplacer::Remove`; `none` models the exception thrown on a
tracked non-evictable frame. -/
def lrukRemove (s : LRUKReplacer) (f : Nat) : Option LRUKReplacer :=
  if (s.node_store.lookup f).isNone then some s
  else if !(getNode s f).is_evictable then none
  else if (getNode s f).history.length = s.k ∧ s.k ≠ 1 then
    some
      { s with
          cache_frame := s.cache_frame.erase f
          node_store := storeErase s.node_store f
          curr_size := s.curr_size - 1 }
  else
    some
      { s with
          new_frame := s.new_frame.erase f
          node_store := storeErase s.node_store f
          curr_size := s.curr_size - 1 }

/-! ## The buffer pool manager (both variants)

Frame bytes are abstracted to a single `Nat` (`data`); `ResetMemory()`
zeroes it, disk reads/writes move it whole. -/

/-- Frame-level page metadata (`Page`). -/
structure PageMeta where
  page_id : Int
  pin_count : Nat
  is_dirty : Bool
  data : Nat
deriving DecidableEq

instance : Inhabited PageMeta := ⟨⟨-1, 0, false, 0⟩⟩

/-- Buffer-pool state shared by the two source variants (the linear-scan
variant simply never touches `page_table`). -/
structure BPM where
  pool_size : Nat
  pages : List PageMeta
  free_list : List Nat
  replacer : LRUKReplacer
  page_table : List (Int × Nat)
  next_page_id : Int
  disk : List (Int × Nat)
deriving DecidableEq

/-- The `BufferPoolManager` constructor: all frames free, ids `0..pool-1`
pushed in order. -/
def bpmInit (poolSize replacerK : Nat) : BPM :=
  { pool_size := poolSize, pages := List.replicate poolSize default,
    free_list := List.range poolSize, replacer := lrukInit poolSize replacerK,
    page_table := [], next_page_id := 0, disk := [] }

/-- `pages_[fid]`. -/
def getPage (s : BPM) (fid : Nat) : PageMeta := s.pages.getD fid default

/-- `disk_manager_->WritePage` (newest entry shadows older ones). -/
def diskWrite (s : BPM) (pid : Int) (d : Nat) : BPM := { s with disk := (pid, d) :: s.disk }

/-- `disk_manager_->ReadPage`. -/
def diskRead (s : BPM) (pid : Int) : Nat := (s.disk.lookup pid).getD 0

/-- The `pinall` scan shared by both `NewPage`/`FetchPage` miss paths of
the linear-scan variant and by the page-table variant. -/
def pinAll (s : BPM) : Bool := s.pages.all (fun p => p.pin_count != 0)

/-- `replacer_->RecordAccess(fid); replacer_->SetEvictable(fid, false);`
(the record throw is unreachable: `fid < pool_size = replacer_size_`). -/
def replacerPin (s : BPM) (fid : Nat) : BPM :=
  { s with replacer :=
      lrukSetEvictable ((lrukRecord s.replacer fid).getD s.replacer) fid false }

/-- The dirty-victim write-back in the eviction paths. -/
def flushVictim (s : BPM) (fid : Nat) : BPM :=
  if (getPage s fid).is_dirty then
    { diskWrite s (getPage s fid).page_id (getPage s fid).data with
      pages := s.pages.set fid { getPage s fid with is_dirty := false } }
  else s

/-- Embeds `BufferPoolManager::NewPage` of `p1_file` (the page-table
variant): early `pinall` bail-out, then free list (front), then eviction
whose **result is not checked** (`replacer_->Evict(&fid);`) — reading the
uninitialised frame id on eviction failure is undefined behaviour in the
C++, modelled as failure; it is unreachable whenever some frame is
unpinned and the BPM invariant links pins to evictability. -/
def p1NewPage (s : BPM) : Option (BPM × Int × Nat) :=
  if pinAll s then none
  else
    match s.free_list with
    | fid :: rest =>
        let s1 :=
          { s with
              free_list := rest
              page_table := (s.next_page_id, fid) :: s.page_table
              pages := s.pages.set fid
                { getPage s fid with page_id := s.next_page_id, pin_count := 1 }
              next_page_id := s.next_page_id + 1 }
        some (replacerPin s1 fid, s.next_page_id, fid)
    | [] =>
        match (lrukEvict s.replacer).1 with
        | none => none
        | some fid =>
            let evictedId := (getPage s fid).page_id
            let s1 := flushVictim { s with replacer := (lrukEvict s.replacer).2 } fid
            let s2 :=
              { s1 with
                  pages := s1.pages.set fid
                    { getPage s1 fid with
                        data := 0
                        page_id := s.next_page_id
                        pin_count := 1 }
                  page_table := (s.next_page_id, fid) ::
                    s1.page_table.filter (fun e => e.1 != evictedId)
                  next_page_id := s.next_page_id + 1 }
            some (replacerPin s2 fid, s.next_page_id, fid)

/-- Embeds `BufferPoolManager::NewPage` of the linear-scan variant: free
list (back), else eviction with a **checked** result; dirty write-back;
then install with `is_dirty = false`, `pin_count = 1`. -/
def srcNewPage (s : BPM) : Option (BPM × Int × Nat) :=
  match s.free_list.getLast? with
  | some fid =>
      let s1 :=
        { s with
            free_list := s.free_list.dropLast
            pages := s.pages.set fid
              { getPage s fid with
                  page_id := s.next_page_id
                  is_dirty := false
                  pin_count := 1 }
            next_page_id := s.next_page_id + 1 }
      some (replacerPin s1 fid, s.next_page_id, fid)
  | none =>
      match (lrukEvict s.replacer).1 with
      | none => none
      | some fid =>
          let s1 := flushVictim { s with replacer := (lrukEvict s.replacer).2 } fid
          let s2 :=
            { s1 with
                pages := s1.pages.set fid
                  { getPage s1 fid with
                    page_id := s.next_page_id
                    is_dirty := false
                    pin_count := 1 }
                next_page_id := s.next_page_id + 1 }
          some (replacerPin s2 fid, s.next_page_id, fid)

/-- The `for (i < pool_size) if (pages_[i].GetPageId() == page_id)` scan of
the linear-scan variant. -/
def findFrame (s : BPM) (pid : Int) : Option Nat :=
  (List.range s.pool_size).find? (fun i => (getPage s i).page_id == pid)

/-- Embeds `BufferPoolManager::FetchPage` of the linear-scan variant. -/
def srcFetch (s : BPM) (pid : Int) : Option (BPM × Nat) :=
  match findFrame s pid with
  | some fid =>
      let s1 :=
        { s with
            pages := s.pages.set fid
              { getPage s fid with pin_count := (getPage s fid).pin_count + 1 } }
      some (replacerPin s1 fid, fid)
  | none =>
      match s.free_list.getLast? with
      | some fid =>
          let s1 :=
            { s with
                free_list := s.free_list.dropLast
                pages := s.pages.set fid
                  { getPage s fid with
                      page_id := pid
                      is_dirty := false
                      pin_count := 1
                      data := diskRead s pid } }
          some (replacerPin s1 fid, fid)
      | none =>
          match (lrukEvict s.replacer).1 with
          | none => none
          | some fid =>
              let s1 := flushVictim { s with replacer := (lrukEvict s.replacer).2 } fid
              let s2 :=
                { s1 with
                    pages := s1.pages.set fid
                      { getPage s1 fid with
                        page_id := pid
                        is_dirty := false
                        pin_count := 1
                        data := diskRead s1 pid } }
              some (replacerPin s2 fid, fid)

/-- Embeds `BufferPoolManager::FetchPage` of the page-table variant: hit →
pin bump; miss → `pinall` bail-out, free list (front), or eviction whose
result is again **not checked** (modelled as failure, unreachable under
the invariant). -/
def p1Fetch (s : BPM) (pid : Int) : Option (BPM × Nat) :=
  match s.page_table.lookup pid with
  | some fid =>
      let s1 :=
        { s with
            pages := s.pages.set fid
              { getPage s fid with pin_count := (getPage s fid).pin_count + 1 } }
      some (replacerPin s1 fid, fid)
  | none =>
      if pinAll s then none
      else
        match s.free_list with
        | fid :: rest =>
            let s1 :=
              { s with
                  free_list := rest
                  page_table := (pid, fid) :: s.page_table
                  pages := s.pages.set fid
                    { getPage s fid with
                        page_id := pid
                        pin_count := 1
                        data := diskRead s pid } }
            some (replacerPin s1 fid, fid)
        | [] =>
            match (lrukEvict s.replacer).1 with
            | none => none
            | some fid =>
                let evictedId := (getPage s fid).page_id
                let s1 := flushVictim { s with replacer := (lrukEvict s.replacer).2 } fid
                let s2 :=
                  { s1 with
                      pages := s1.pages.set fid
                        { getPage s1 fid with data := 0, page_id := pid, pin_count := 1 }
                      page_table := (pid, fid) ::
                        s1.page_table.filter (fun e => e.1 != evictedId) }
                let s3 :=
                  { s2 with
                      pages := s2.pages.set fid
                        { getPage s2 fid with data := diskRead s2 pid } }
                some (replacerPin s3 fid, fid)

/-- Embeds `BufferPoolManager::DeletePage` of the page-table variant;
`none` models the exception `replacer_->Remove` throws on a tracked
non-evictable frame (unreachable: the frame is unpinned). -/
def p1Delete (s : BPM) (pid : Int) : Option (Bool × BPM) :=
  match s.page_table.lookup pid with
  | none => some (true, s)
  | some fid =>
      if 0 < (getPage s fid).pin_count then some (false, s)
      else
        match lrukRemove s.replacer fid with
        | none => none
        | some r =>
            some (true,
              { s with
                  replacer := r
                  free_list := s.free_list ++ [fid]
                  pages := s.pages.set fid default
                  page_table := s.page_table.filter (fun e => e.1 != pid) })

/-- Internal consistency of a replacer state, maintained by its own API:
duplicate-free disjoint frame lists, store membership matching list
membership, the *cache* list holding exactly the tracked frames with a
full `K`-ring (for `k ≥ 2`), and every tracked node carrying a non-empty
ring of at most `k` timestamps with the replacer's own `k`. -/
def ReplacerWF (r : LRUKReplacer) : Prop :=
  r.new_frame.Nodup ∧ r.cache_frame.Nodup ∧
  (∀ g, g ∈ r.new_frame → g ∉ r.cache_frame) ∧
  (∀ g, (r.node_store.lookup g).isSome = true ↔ (g ∈ r.new_frame ∨ g ∈ r.cache_frame)) ∧
  (∀ g, g ∈ r.cache_frame ↔
    ((r.node_store.lookup g).isSome = true ∧
      (getNode r g).history.length = r.k ∧ r.k ≠ 1)) ∧
  (∀ g, (r.node_store.lookup g).isSome = true →
    1 ≤ (getNode r g).history.length ∧ (getNode r g).history.length ≤ r.k ∧
    (getNode r g).k = r.k)

/-- A frame the replacer would evict: present in one of the two scan lists
with the evictable flag set. -/
def frameEvictable (r : LRUKReplacer) (i : Nat) : Prop :=
  (i ∈ r.new_frame ∨ i ∈ r.cache_frame) ∧ (getNode r i).is_evictable = true

/-- A small concrete replacer state used by several witnesses: one tracked
frame `0` with a single timestamp, evictable, `K = 2`, capacity 1. -/
def rEx : LRUKReplacer :=
  { node_store := [(0, ⟨[1], 2, true⟩)]
    new_frame := [0]
    cache_frame := []
    curr_size := 1
    current_timestamp := 1
    replacer_size := 1
    k := 2 }

mutual
/-- Height of a subtree: `0` for a leaf, one more than the (first) child's
height for an internal page. -/
def hgt : BPage → Nat
  | .leaf _ => 0
  | .node kcs => 1 + hgtL kcs

/-- Height of the first child of an internal-page entry list. -/
def hgtL : List (Nat × BPage) → Nat
  | [] => 0
  | kc :: _ => hgt kc.2
end

mutual
/-- Uniform depth: every root-to-leaf path has the same length — each
internal page's children share one height and are themselves uniform.
Together with `wfB` this captures the trees the `BPlusTree` API can reach
from the initial empty root. -/
def unifB : BPage → Bool
  | .leaf _ => true
  | .node kcs => unifL kcs (hgtL kcs)

def unifL : List (Nat × BPage) → Nat → Bool
  | [], _ => true
  | kc :: rest, h => (hgt kc.2 == h) && unifB kc.2 && unifL rest h
end

/-- The five result shapes of `DfsRemove` on a page `c` handed siblings
`ls`/`rs`: (1) no restructuring, (2) borrow from the left sibling,
(3) borrow from the right sibling, (4) merge with the left sibling,
(5) absorb the right sibling.  Each disjunct records how the flattened
contents are redistributed over the returned pages and exactly which
`delete_node`/`add_node` instructions are handed to the parent. -/
def rmShape (c : BPage) (ls rs : Option BPage)
    (res : BPage × Option BPage × Option BPage × List Nat × List (Nat × SibTag)) :
    Prop :=
  (∃ son, res = (son, ls, rs, [pageKey0 c], [(pageKey0 c, SibTag.self)]) ∧
    toList son = toList c ∧ structB son = true ∧ unifB son = true ∧
    hgt son = hgt c ∧ pageKey0 son = pageKey0 c) ∨
  (∃ son L2 B1 B2 L, ls = some L ∧
    res = (son, some L2, rs, [pageKey0 c], [(pageKey0 son, SibTag.self)]) ∧
    toList L = B1 ++ B2 ∧ B1 ≠ [] ∧ B2 ≠ [] ∧
    toList L2 = B1 ∧ toList son = B2 ++ toList c ∧
    structB son = true ∧ unifB son = true ∧ hgt son = hgt c ∧
    structB L2 = true ∧ unifB L2 = true ∧ hgt L2 = hgt c ∧
    pageKey0 son = keyAt B2 0 ∧ pageKey0 L2 = pageKey0 L) ∨
  (∃ son R2 B1 B2 R, rs = some R ∧
    res = (son, ls, some R2, [pageKey0 c, pageKey0 R],
      [(pageKey0 c, SibTag.self), (pageKey0 R2, SibTag.sright)]) ∧
    toList R = B1 ++ B2 ∧ B1 ≠ [] ∧ B2 ≠ [] ∧
    toList R2 = B2 ∧ toList son = toList c ++ B1 ∧
    structB son = true ∧ unifB son = true ∧ hgt son = hgt c ∧
    structB R2 = true ∧ unifB R2 = true ∧ hgt R2 = hgt c ∧
    pageKey0 son = pageKey0 c ∧ pageKey0 R2 = keyAt B2 0) ∨
  (∃ son l2 L M tg, ls = some L ∧
    res = (son, some l2, rs, [pageKey0 c, pageKey0 L], [(pageKey0 L, tg)]) ∧
    resolveTag tg son (some l2) rs = M ∧
    toList M = toList L ++ toList c ∧ structB M = true ∧ unifB M = true ∧
    hgt M = hgt c ∧ pageKey0 M = pageKey0 L) ∨
  (∃ son r2 R, rs = some R ∧
    res = (son, ls, some r2, [pageKey0 c, pageKey0 R],
      [(pageKey0 c, SibTag.self)]) ∧
    toList son = toList c ++ toList R ∧ structB son = true ∧
    unifB son = true ∧ hgt son = hgt c ∧ pageKey0 son = pageKey0 c)

/-! ## Characterisation of the page-level binary searches -/

theorem sortedB_cons {a : Nat} {l : List Nat} :
    sortedB (a :: l) = true ↔ (∀ b ∈ l.head?, a < b) ∧ sortedB l = true := by
  cases l with
  | nil => simp [sortedB]
  | cons b rest =>
    simp only [sortedB, Bool.and_eq_true, decide_eq_true_eq, List.head?]
    constructor
    · rintro ⟨h1, h2⟩; exact ⟨by simpa using h1, h2⟩
    · rintro ⟨h1, h2⟩; exact ⟨by simpa using h1 b rfl, h2⟩

/-- `sortedB` coincides with `List.Chain'` of the strict order. -/
theorem sortedB_iff_chain {l : List Nat} :
    sortedB l = true ↔ List.Chain' (· < ·) l := by
  induction l with
  | nil => simp [sortedB]
  | cons a rest ih =>
    rw [sortedB_cons, List.chain'_cons', ih]

/-- `sortedB` lists are pairwise increasing. -/
theorem sortedB_pairwise {l : List Nat} (hs : sortedB l = true) :
    List.Pairwise (· < ·) l :=
  List.chain'_iff_pairwise.mp (sortedB_iff_chain.mp hs)

/-- On a `sortedB` list, earlier keys are strictly smaller. -/
theorem sortedB_getD_lt {l : List Nat} (hs : sortedB l = true)
    {i j : Nat} (hij : i < j) (hj : j < l.length) :
    l.getD i 0 < l.getD j 0 := by
  have hp := List.pairwise_iff_get.mp (sortedB_pairwise hs)
  have hi : i < l.length := lt_trans hij hj
  rw [List.getD_eq_getElem _ _ hi, List.getD_eq_getElem _ _ hj]
  exact hp ⟨i, hi⟩ ⟨j, hj⟩ hij

theorem keyAt_eq {α : Type} [Inhabited α] (es : List (Nat × α)) (i : Nat) :
    keyAt es i = (keysOf es).getD i 0 := by
  by_cases h : i < es.length
  · rw [keyAt, List.getD_eq_getElem _ _ h,
      List.getD_eq_getElem _ _ (by simpa [keysOf] using h)]
    simp [keysOf]
  · rw [keyAt, List.getD_eq_default _ _ (by omega),
      List.getD_eq_default _ _ (by simp [keysOf]; omega)]

theorem keyAt_mem {α : Type} [Inhabited α] {es : List (Nat × α)} {i : Nat}
    (h : i < es.length) : keyAt es i ∈ keysOf es := by
  rw [keyAt_eq, List.getD_eq_getElem _ _ (by simpa [keysOf] using h)]
  exact List.getElem_mem _

/-- Loop invariant / postcondition of `insLoop` on a sorted page. -/
theorem insLoop_spec {α : Type} [Inhabited α] {es : List (Nat × α)} {key : Nat}
    (hs : sortedB (keysOf es) = true) (l r : Nat) (hlr : l ≤ r)
    (hr : r < es.length) (hlo : ∀ i, i < l → keyAt es i < key)
    (hhi : key ≤ keyAt es r) :
    (insLoop es key l r = none → ∃ i, i ≤ r ∧ keyAt es i = key) ∧
    (∀ l', insLoop es key l r = some l' →
      l ≤ l' ∧ l' ≤ r ∧ (∀ i, i < l' → keyAt es i < key) ∧ key ≤ keyAt es l') := by
  rw [insLoop]
  by_cases hc : l < r
  · simp only [if_pos hc]
    set mid := (l + r) / 2 with hmid
    have hml : l ≤ mid := by omega
    have hmr : mid < r := by omega
    by_cases he : keyAt es mid = key
    · simp only [if_pos he]
      exact ⟨fun _ => ⟨mid, by omega, he⟩, fun l' h => by simp at h⟩
    · simp only [if_neg he]
      by_cases hlt : keyAt es mid < key
      · simp only [if_pos hlt]
        have hrec := insLoop_spec hs (mid + 1) r (by omega) hr (fun i hi => by
          rcases Nat.lt_or_ge i mid with h' | h'
          · calc keyAt es i < keyAt es mid := by
                  rw [keyAt_eq, keyAt_eq]
                  exact sortedB_getD_lt hs h' (by simp [keysOf]; omega)
              _ < key := hlt
          · have : i = mid := by omega
            rw [this]; exact hlt) hhi
        refine ⟨hrec.1, fun l' h => ?_⟩
        have := hrec.2 l' h
        exact ⟨by omega, this.2.1, this.2.2.1, this.2.2.2⟩
      · simp only [if_neg hlt]
        have hrec := insLoop_spec hs l mid hml (by omega) hlo (by omega)
        refine ⟨?_, fun l' h => ?_⟩
        · intro h
          obtain ⟨i, hi, he⟩ := hrec.1 h
          exact ⟨i, by omega, he⟩
        · have := hrec.2 l' h
          exact ⟨this.1, by omega, this.2.2.1, this.2.2.2⟩
  · simp only [if_neg hc]
    have hleq : l = r := by omega
    refine ⟨fun h => by simp at h, fun l' h => ?_⟩
    have : l' = l := by simpa using h.symm
    subst this
    exact ⟨le_refl _, by omega, hlo, by rw [hleq]; exact hhi⟩
termination_by r - l
decreasing_by all_goals omega

/-- Loop invariant / postcondition of `lbLoop` on a sorted page. -/
theorem lbLoop_spec {α : Type} [Inhabited α] {es : List (Nat × α)} {key : Nat}
    (hs : sortedB (keysOf es) = true) (l r : Nat) (hlr : l ≤ r)
    (hr : r < es.length) (hlo : ∀ i, i < l → keyAt es i < key) :
    l ≤ lbLoop es key l r ∧ lbLoop es key l r ≤ r ∧
    (∀ i, i < lbLoop es key l r → keyAt es i < key) ∧
    (key ≤ keyAt es (lbLoop es key l r) ∨ lbLoop es key l r = r) := by
  rw [lbLoop]
  by_cases hc : l < r
  · simp only [if_pos hc]
    set mid := (l + r) / 2 with hmid
    have hml : l ≤ mid := by omega
    have hmr : mid < r := by omega
    by_cases hlt : keyAt es mid < key
    · simp only [if_pos hlt]
      have hrec := lbLoop_spec hs (mid + 1) r (by omega) hr (fun i hi => by
        rcases Nat.lt_or_ge i mid with h' | h'
        · calc keyAt es i < keyAt es mid := by
                rw [keyAt_eq, keyAt_eq]
                exact sortedB_getD_lt hs h' (by simp [keysOf]; omega)
            _ < key := hlt
        · have : i = mid := by omega
          rw [this]; exact hlt)
      exact ⟨le_trans (by omega) hrec.1, hrec.2.1, hrec.2.2.1, hrec.2.2.2⟩
    · simp only [if_neg hlt]
      have hrec := lbLoop_spec hs l mid hml (by omega) hlo
      refine ⟨hrec.1, le_trans hrec.2.1 (by omega), hrec.2.2.1, ?_⟩
      rcases hrec.2.2.2 with h | h
      · exact Or.inl h
      · exact Or.inl (by rw [h]; omega)
  · simp only [if_neg hc]
    have hleq : l = r := by omega
    exact ⟨le_refl _, by omega, hlo, Or.inr hleq⟩
termination_by r - l
decreasing_by all_goals omega

theorem keyAt_cons_zero {α : Type} [Inhabited α] (k : Nat) (w : α) (rest : List (Nat × α)) :
    keyAt ((k, w) :: rest) 0 = k := rfl

theorem keyAt_cons_succ {α : Type} [Inhabited α] (k : Nat) (w : α) (rest : List (Nat × α))
    (i : Nat) : keyAt ((k, w) :: rest) (i + 1) = keyAt rest i := rfl

theorem mem_keysOf_iff {α : Type} [Inhabited α] {es : List (Nat × α)} {key : Nat} :
    key ∈ keysOf es ↔ ∃ j, j < es.length ∧ keyAt es j = key := by
  constructor
  · intro h
    obtain ⟨j, hj, he⟩ := List.mem_iff_getElem.mp h
    refine ⟨j, by simpa [keysOf] using hj, ?_⟩
    rw [keyAt_eq, List.getD_eq_getElem _ _ hj]
    exact he
  · rintro ⟨j, hj, he⟩
    rw [← he]
    exact keyAt_mem hj

/-- `insPair` inserts at the index below which all keys are smaller and at
which the key (if any) is larger. -/
theorem insPair_eq_insertAt {α : Type} [Inhabited α] (key : Nat) (v : α) :
    ∀ (es : List (Nat × α)) (l' : Nat), l' ≤ es.length →
    (∀ i, i < l' → keyAt es i < key) → (l' < es.length → key < keyAt es l') →
    insPair es key v = es.take l' ++ (key, v) :: es.drop l'
  | [], 0, _, _, _ => rfl
  | [], l' + 1, h, _, _ => by simp at h
  | (k, w) :: rest, 0, _, _, hup => by
    have : key < k := by simpa [keyAt] using hup (by simp)
    simp [insPair, this]
  | (k, w) :: rest, l' + 1, hle, hlo, hup => by
    have hk : k < key := by simpa [keyAt] using hlo 0 (by omega)
    have : ¬ key < k := by omega
    simp only [insPair, if_neg this, List.take_succ_cons, List.drop_succ_cons,
      List.cons_append, List.cons.injEq, true_and]
    exact insPair_eq_insertAt key v rest l' (by simpa using hle)
      (fun i hi => by simpa [keyAt_cons_succ] using hlo (i + 1) (by omega))
      (fun h => by
        simpa [keyAt_cons_succ] using hup (by simp only [List.length_cons]; omega))

/-- `rmPair` removes exactly the entry at the first index whose key matches. -/
theorem rmPair_eq_rmAt {α : Type} [Inhabited α] (key : Nat) :
    ∀ (es : List (Nat × α)) (j : Nat), j < es.length →
    (∀ i, i < j → keyAt es i ≠ key) → keyAt es j = key →
    rmPair es key = rmAt es j
  | [], j, hj, _, _ => by simp at hj
  | (k, w) :: rest, 0, _, _, he => by
    have : k = key := by simpa [keyAt] using he
    simp [rmPair, rmAt, this]
  | (k, w) :: rest, j + 1, hj, hne, he => by
    have hk : k ≠ key := by simpa [keyAt] using hne 0 (by omega)
    simp only [rmPair, if_neg hk, rmAt, List.take_succ_cons, List.drop_succ_cons,
      List.cons_append, List.cons.injEq, true_and]
    exact rmPair_eq_rmAt key rest j (by simpa using hj)
      (fun i hi => by simpa [keyAt_cons_succ] using hne (i + 1) (by omega))
      (by simpa [keyAt_cons_succ] using he)

/-- `BPlusTreeLeafPage::Insert` / `BPlusTreeInternalPage::Insert` on a
sorted page: fails exactly on a present key and otherwise performs a
sorted insertion. -/
theorem pageIns_eq {α : Type} [Inhabited α] {es : List (Nat × α)}
    (hs : sortedB (keysOf es) = true) (key : Nat) (v : α) :
    pageIns es key v = if key ∈ keysOf es then none else some (insPair es key v) := by
  by_cases h0 : es.length = 0
  · have : es = [] := List.length_eq_zero.mp h0
    subst this
    simp [pageIns, insPair, keysOf]
  · have hlen : 0 < es.length := by omega
    by_cases hlast : keyAt es (es.length - 1) < key
    · have habs : key ∉ keysOf es := by
        rw [mem_keysOf_iff]
        rintro ⟨j, hj, he⟩
        rcases Nat.lt_or_ge j (es.length - 1) with h' | h'
        · have := sortedB_getD_lt hs h' (by simp [keysOf]; omega)
          rw [← keyAt_eq, ← keyAt_eq] at this
          omega
        · have : j = es.length - 1 := by omega
          subst this
          omega
      rw [pageIns, if_neg h0, if_pos hlast, if_neg habs,
        insPair_eq_insertAt key v es es.length le_rfl
          (fun i hi => by
            rcases Nat.lt_or_ge i (es.length - 1) with h' | h'
            · have := sortedB_getD_lt hs h' (by simp [keysOf]; omega)
              rw [← keyAt_eq, ← keyAt_eq] at this
              omega
            · have : i = es.length - 1 := by omega
              subst this
              exact hlast)
          (fun h => absurd h (by omega))]
      simp
    · have h3 : ∀ i, i < 0 → keyAt es i < key := fun i hi => absurd hi (by omega)
      have h4 : key ≤ keyAt es (es.length - 1) := by omega
      have hspec := insLoop_spec hs 0 (es.length - 1) (by omega) (by omega) h3 h4
      rcases hloop : insLoop es key 0 (es.length - 1) with _ | l'
      · have hmem : key ∈ keysOf es := by
          obtain ⟨i, hi, he⟩ := hspec.1 hloop
          exact mem_keysOf_iff.mpr ⟨i, by omega, he⟩
        rw [pageIns, if_neg h0, if_neg hlast, hloop, if_pos hmem]
      · obtain ⟨hl0, hlr, hlo, hhi⟩ := hspec.2 l' hloop
        by_cases heq : keyAt es l' = key
        · have hmem : key ∈ keysOf es := mem_keysOf_iff.mpr ⟨l', by omega, heq⟩
          rw [pageIns, if_neg h0, if_neg hlast, hloop]
          simp only [if_pos heq, if_pos hmem]
        · have habs : key ∉ keysOf es := by
            rw [mem_keysOf_iff]
            rintro ⟨j, hj, he⟩
            have hjl : l' ≤ j := by
              by_contra h'
              exact absurd he (by have := hlo j (by omega); omega)
            rcases Nat.eq_or_lt_of_le hjl with h' | h'
            · exact heq (by rw [h']; exact he)
            · have := sortedB_getD_lt hs h' (by simp [keysOf]; omega)
              rw [← keyAt_eq, ← keyAt_eq] at this
              omega
          rw [pageIns, if_neg h0, if_neg hlast, hloop]
          simp only [if_neg heq, if_neg habs]
          rw [insPair_eq_insertAt key v es l' (by omega) hlo (fun _ => by omega)]


/-- `BPlusTreeLeafPage::Remove` / `BPlusTreeInternalPage::Remove` on a
sorted page: fails exactly on an absent key and otherwise removes the
matching entry. -/
theorem pageRm_eq {α : Type} [Inhabited α] {es : List (Nat × α)}
    (hs : sortedB (keysOf es) = true) (key : Nat) :
    pageRm es key = if key ∈ keysOf es then some (rmPair es key) else none := by
  by_cases h0 : es.length = 0
  · have : es = [] := List.length_eq_zero.mp h0
    subst this
    simp [pageRm, keysOf]
  · have hlen : 0 < es.length := by omega
    have hno : ∀ j, j < es.length → keyAt es j = key →
        ∀ i, i < j → keyAt es i ≠ key := by
      intro j hj he i hij
      have := sortedB_getD_lt hs hij (by simp [keysOf]; omega)
      rw [← keyAt_eq, ← keyAt_eq] at this
      omega
    by_cases hz : keyAt es 0 = key
    · have hmem : key ∈ keysOf es := mem_keysOf_iff.mpr ⟨0, hlen, hz⟩
      rw [pageRm, if_neg h0, if_pos hz, if_pos hmem,
        rmPair_eq_rmAt key es 0 hlen (fun i hi => absurd hi (by omega)) hz]
    · by_cases hl : keyAt es (es.length - 1) = key
      · have hmem : key ∈ keysOf es := mem_keysOf_iff.mpr ⟨es.length - 1, by omega, hl⟩
        rw [pageRm, if_neg h0, if_neg hz, if_pos hl, if_pos hmem,
          rmPair_eq_rmAt key es (es.length - 1) (by omega)
            (hno (es.length - 1) (by omega) hl) hl]
      · have hspec := @lbLoop_spec _ _ es key hs 0 (es.length - 1) (by omega)
          (by omega) (fun i hi => absurd hi (by omega))
        obtain ⟨-, hlr, hlo, hor⟩ := hspec
        by_cases he : keyAt es (lbLoop es key 0 (es.length - 1)) = key
        · have hmem : key ∈ keysOf es :=
            mem_keysOf_iff.mpr ⟨lbLoop es key 0 (es.length - 1), by omega, he⟩
          rw [pageRm, if_neg h0, if_neg hz, if_neg hl, if_pos he, if_pos hmem,
            rmPair_eq_rmAt key es (lbLoop es key 0 (es.length - 1)) (by omega)
              (hno _ (by omega) he) he]
        · have habs : key ∉ keysOf es := by
            rw [mem_keysOf_iff]
            rintro ⟨j, hj, hjk⟩
            have hjge : lbLoop es key 0 (es.length - 1) ≤ j := by
              by_contra h'
              exact absurd hjk (by have := hlo j (by omega); omega)
            rcases Nat.eq_or_lt_of_le hjge with h' | h'
            · exact he (by rw [h']; exact hjk)
            · rcases hor with hor | hor
              · have := sortedB_getD_lt hs h' (by simp [keysOf]; omega)
                rw [← keyAt_eq, ← keyAt_eq] at this
                omega
              · omega
          rw [pageRm, if_neg h0, if_neg hz, if_neg hl, if_neg he, if_neg habs]

/-! ## C10 — the leaf iterator -/

/-- Claim C10: incrementing the end iterator is a no-op returning the same
end iterator; advancing past the last entry of a leaf whose
`next_page_id_` is `INVALID` resets the index to `0` and clears the page
pointer; hence the exhausted iterator compares equal to `End()`. -/
theorem iter_exhaustion (pages : Int → LeafRec) (it : IterState) (pid : Int)
    (h1 : it.page = some pid) (h2 : it.index + 1 = (pages pid).kvs.length)
    (h3 : (pages pid).next = -1) :
    iterInc pages endIter = endIter ∧
    iterInc pages it = { page := none, index := 0 } ∧
    iterEq (iterInc pages it) endIter = true := by
  refine ⟨rfl, ?_, ?_⟩
  · rw [iterInc, h1]
    simp [h2, h3]
  · rw [iterInc, h1]
    simp [h2, h3, iterEq, endIter, iterMk]

/-- Witness for C10 at a one-entry leaf page `5` with no right sibling. -/
theorem iter_exhaustion_witness :
    (⟨some 5, 0⟩ : IterState).page = some 5 ∧
    iterInc (fun _ => ⟨[(1, 10)], -1⟩) ⟨some 5, 0⟩ = ⟨none, 0⟩ := by
  refine ⟨rfl, ?_⟩
  exact (iter_exhaustion (fun _ => ⟨[(1, 10)], -1⟩) ⟨some 5, 0⟩ 5 rfl (by decide)
    (by decide)).2.1

/-! ## C9 — read-descent latch accounting -/

theorem descentDepth_pos (t : BPage) (key : Nat) : 1 ≤ descentDepth t key := by
  cases t <;> simp [descentDepth]

mutual
theorem flr_guards : ∀ (t : BPage) (key : Nat) (acc : List BPage),
    ((flr t key acc).2).length = acc.length + (descentDepth t key - 1)
  | .leaf kvs, key, acc => by
      rw [flr, descentDepth]
      split <;> simp
  | .node kcs, key, acc => by
      rw [flr, descentDepth]
      have h := flrAt_guards kcs (childIdxRead kcs key) key acc
      omega

theorem flrAt_guards : ∀ (kcs : List (Nat × BPage)) (i key : Nat) (acc : List BPage),
    ((flrAt kcs i key acc).2).length = acc.length + descentDepthAt kcs i key
  | [], _, _, acc => by
      rw [flrAt, descentDepthAt]
      simp
  | kc :: rest, 0, key, acc => by
      rw [flrAt, descentDepthAt]
      have h := flr_guards kc.2 key (acc ++ [kc.2])
      have hpos := descentDepth_pos kc.2 key
      simp only [List.length_append, List.length_cons, List.length_nil] at h
      omega
  | kc :: rest, i + 1, key, acc => by
      rw [flrAt, descentDepthAt]
      exact flrAt_guards rest i key acc
end

/-- Claim C9 as stated — "at most two page latches held simultaneously
during a read descent" — is refuted on a height-two tree: when the leaf is
reached, `ctx.read_set_` holds three unreleased read guards. -/
theorem read_descent_three_guards :
    ((findLeafRead
        (.node [(10, .node [(10, .leaf [(10, 1), (20, 2)]), (30, .leaf [(30, 3)])]),
                (40, .node [(40, .leaf [(40, 4), (50, 5)]), (60, .leaf [(60, 6)])])])
        30).2).length = 3 ∧ ¬ (3 ≤ 2) := by
  constructor
  · simp [findLeafRead, nodeSize, flr, flrAt, childIdxRead, ubLoop, keyAt, lbLoop]
  · decide

/-- Claim C9 amended: `FindLeafRead` releases no guard during the descent —
every visited page's read latch is still held when the search returns, so
the number of simultaneously held latches equals the length of the
root-to-leaf descent path (height + 1), not at most two. -/
theorem read_descent_holds_full_path (t : BPage) (key : Nat)
    (hne : nodeSize t ≠ 0) :
    ((findLeafRead t key).2).length = descentDepth t key := by
  rw [findLeafRead, if_neg hne]
  have h := flr_guards t key [t]
  have hpos := descentDepth_pos t key
  simp only [List.length_cons, List.length_nil] at h
  omega

/-- Witness for C9 (amended) on the height-two tree: three guards, depth
three. -/
theorem read_descent_holds_full_path_witness :
    nodeSize (BPage.node [(10, .node [(10, .leaf [(10, 1), (20, 2)]),
        (30, .leaf [(30, 3)])]), (40, .node [(40, .leaf [(40, 4), (50, 5)]),
        (60, .leaf [(60, 6)])])]) ≠ 0 ∧
    ((findLeafRead
        (.node [(10, .node [(10, .leaf [(10, 1), (20, 2)]), (30, .leaf [(30, 3)])]),
                (40, .node [(40, .leaf [(40, 4), (50, 5)]), (60, .leaf [(60, 6)])])])
        30).2).length =
      descentDepth
        (.node [(10, .node [(10, .leaf [(10, 1), (20, 2)]), (30, .leaf [(30, 3)])]),
                (40, .node [(40, .leaf [(40, 4), (50, 5)]), (60, .leaf [(60, 6)])])])
        30 := by
  refine ⟨by decide, ?_⟩
  exact read_descent_holds_full_path _ 30 (by decide)

/-! ## C2 — the occupancy invariant is broken by the leaf split -/

/-- Claim C2 fails on the code: with `leaf_max_size = internal_max_size = 3`
(so `min_size = ⌈3/2⌉ = 2`), inserting keys 1, 2, 3 into the freshly
initialised empty tree performs three successful inserts, after which the
root's right leaf child holds a single entry — below `min_size`
(`occB … = false` states that some non-root page is under-full).  The
split loop `while (GetSize() > GetMinSize())` leaves the new sibling with
only `max_size - min_size = 1` entry. -/
theorem occupancy_violation_after_inserts :
    (insertOp 3 3 (.leaf []) 1 10).1 = true ∧
    (insertOp 3 3 (insertOp 3 3 (.leaf []) 1 10).2 2 20).1 = true ∧
    (insertOp 3 3 (insertOp 3 3 (insertOp 3 3 (.leaf []) 1 10).2 2 20).2 3 30).1 = true ∧
    (insertOp 3 3 (insertOp 3 3 (insertOp 3 3 (.leaf []) 1 10).2 2 20).2 3 30).2 =
      .node [(1, .leaf [(1, 10), (2, 20)]), (3, .leaf [(3, 30)])] ∧
    occB 3 3 true (.node [(1, .leaf [(1, 10), (2, 20)]), (3, .leaf [(3, 30)])]) = false := by
  refine ⟨?_, ?_, ?_, ?_, by decide⟩ <;>
    simp [insertOp, dfsIns, pageIns, insLoop, keyAt, minSize, moveTail, pageInsD,
      pageKey0, valueAt]

/-! ## C8 — reopening loses the persisted tree -/

/-- Claim C8 fails on the code: the `BPlusTree` constructor at reopen
allocates a fresh page, stores it as the header's root and initialises it
as an empty leaf, so the reopened tree answers `none` for every key —
here concretely for key 1, which the original tree answered with 10. -/
theorem reopen_answers_differently :
    getValue ((insertOp 3 3 (.leaf []) 1 10).2) 1 = some 10 ∧
    (∀ (t : BPage) (k : Nat), getValue (reopenTree t) k = none) := by
  constructor
  · simp [insertOp, dfsIns, pageIns, keyAt, minSize, getValue, findLeafRead, nodeSize,
      flr, lbLoop, valueAt, leafKVs]
  · intro t k
    rfl

/-! ## C5 — DeletePage -/

theorem lookup_filter_self {κ β : Type} [BEq κ] [LawfulBEq κ]
    (l : List (κ × β)) (x : κ) :
    (l.filter (fun e => e.1 != x)).lookup x = none := by
  induction l with
  | nil => rfl
  | cons e rest ih =>
    by_cases h : e.1 = x
    · simp [List.filter_cons, h, ih]
    · have hne : (e.1 != x) = true := by simp [h]
      have hx : (x == e.1) = false := by
        rw [beq_eq_false_iff_ne]
        exact fun hxe => h hxe.symm
      simp [List.filter_cons, hne, List.lookup, hx, ih]

theorem getD_set_self {β : Type} [Inhabited β] (l : List β) (i : Nat) (b : β)
    (h : i < l.length) : (l.set i b).getD i default = b := by
  rw [List.getD_eq_getElem _ _ (by simpa using h)]
  simp

/-- Claim C5: `DeletePage` of the page-table variant returns `true` and
changes nothing when the page is absent; returns `false` and changes
nothing when the page is resident and pinned; otherwise — given only the
local linkage that the target frame's replacer entry, if present, is
marked evictable (what `UnpinPage` establishes when the pin count drops
to zero; other frames may be pinned and tracked non-evictable) — it
removes the frame from the replacer (store entry erased, gone from both
frame lists),
appends the frame to the free list, resets the frame's bytes and metadata
(`data 0`, `pin_count 0`, `is_dirty false`, `page_id INVALID = -1` — the
`default` `PageMeta`), erases the page-table entry and returns `true`. -/
theorem delete_page_spec (s : BPM) (pid : Int)
    (hwf : ReplacerWF s.replacer) :
    (s.page_table.lookup pid = none → p1Delete s pid = some (true, s)) ∧
    (∀ fid, s.page_table.lookup pid = some fid → 0 < (getPage s fid).pin_count →
      p1Delete s pid = some (false, s)) ∧
    (∀ fid, s.page_table.lookup pid = some fid → (getPage s fid).pin_count = 0 →
      fid < s.pages.length →
      ((s.replacer.node_store.lookup fid).isSome = true →
        (getNode s.replacer fid).is_evictable = true) →
      ∃ s', p1Delete s pid = some (true, s') ∧
        s'.free_list = s.free_list ++ [fid] ∧
        getPage s' fid = default ∧
        s'.page_table.lookup pid = none ∧
        s'.replacer.node_store.lookup fid = none ∧
        fid ∉ s'.replacer.new_frame ∧ fid ∉ s'.replacer.cache_frame) := by
  obtain ⟨hnd1, hnd2, hdisj, hstore, hcache, hnode⟩ := hwf
  refine ⟨fun h => by simp [p1Delete, h], fun fid hf hpin => ?_,
    fun fid hf hpin hlen hev0 => ?_⟩
  · simp [p1Delete, hf, hpin]
  · by_cases htracked : (s.replacer.node_store.lookup fid).isSome = true
    · have hev := hev0 htracked
      obtain ⟨v, hv⟩ := Option.isSome_iff_exists.mp htracked
      have hrm : ∃ r', lrukRemove s.replacer fid = some r' ∧
          r'.node_store = storeErase s.replacer.node_store fid ∧
          ((getNode s.replacer fid).history.length = s.replacer.k ∧ s.replacer.k ≠ 1 →
            r'.new_frame = s.replacer.new_frame ∧
            r'.cache_frame = s.replacer.cache_frame.erase fid) ∧
          (¬ ((getNode s.replacer fid).history.length = s.replacer.k ∧ s.replacer.k ≠ 1) →
            r'.new_frame = s.replacer.new_frame.erase fid ∧
            r'.cache_frame = s.replacer.cache_frame) := by
        by_cases hc : (getNode s.replacer fid).history.length = s.replacer.k ∧ s.replacer.k ≠ 1
        · refine ⟨{ s.replacer with
              cache_frame := s.replacer.cache_frame.erase fid
              node_store := storeErase s.replacer.node_store fid
              curr_size := s.replacer.curr_size - 1 },
            ?_, rfl, fun _ => ⟨rfl, rfl⟩, fun h => absurd hc h⟩
          simp [lrukRemove, hv, hev, hc]
        · refine ⟨{ s.replacer with
              new_frame := s.replacer.new_frame.erase fid
              node_store := storeErase s.replacer.node_store fid
              curr_size := s.replacer.curr_size - 1 },
            ?_, rfl, fun h => absurd h hc, fun _ => ⟨rfl, rfl⟩⟩
          simp only [lrukRemove, hv]
          simp [hev, hc]
      obtain ⟨r', hr', hrs, hyes, hno⟩ := hrm
      refine ⟨{ s with
          replacer := r'
          free_list := s.free_list ++ [fid]
          pages := s.pages.set fid default
          page_table := s.page_table.filter (fun e => e.1 != pid) },
        ?_, rfl, ?_, ?_, ?_, ?_, ?_⟩
      · simp only [p1Delete, hf]
        rw [if_neg (by omega), hr']
      · exact getD_set_self s.pages fid default hlen
      · exact lookup_filter_self s.page_table pid
      · show r'.node_store.lookup fid = none
        rw [hrs]
        exact lookup_filter_self s.replacer.node_store fid
      · show fid ∉ r'.new_frame
        by_cases hc : (getNode s.replacer fid).history.length = s.replacer.k ∧ s.replacer.k ≠ 1
        · rw [(hyes hc).1]
          intro hmem
          exact hdisj fid hmem ((hcache fid).mpr ⟨htracked, hc⟩)
        · rw [(hno hc).1]
          exact fun hmem => absurd rfl ((List.Nodup.mem_erase_iff hnd1).mp hmem).1
      · show fid ∉ r'.cache_frame
        by_cases hc : (getNode s.replacer fid).history.length = s.replacer.k ∧ s.replacer.k ≠ 1
        · rw [(hyes hc).2]
          exact fun hmem => absurd rfl ((List.Nodup.mem_erase_iff hnd2).mp hmem).1
        · rw [(hno hc).2]
          intro hmem
          exact hc ((hcache fid).mp hmem).2
    · have huntracked : s.replacer.node_store.lookup fid = none := by
        rcases h : s.replacer.node_store.lookup fid with _ | v
        · rfl
        · exact absurd (by simp [h]) htracked
      have hnotin : fid ∉ s.replacer.new_frame ∧ fid ∉ s.replacer.cache_frame := by
        constructor <;> intro hmem
        · exact absurd ((hstore fid).mpr (Or.inl hmem)) (by simp [huntracked])
        · exact absurd ((hstore fid).mpr (Or.inr hmem)) (by simp [huntracked])
      refine ⟨{ s with
          replacer := s.replacer
          free_list := s.free_list ++ [fid]
          pages := s.pages.set fid default
          page_table := s.page_table.filter (fun e => e.1 != pid) },
        ?_, rfl, ?_, ?_, huntracked, hnotin.1, hnotin.2⟩
      · simp only [p1Delete, hf]
        rw [if_neg (by omega), lrukRemove, if_pos (by simp [huntracked])]
      · exact getD_set_self s.pages fid default hlen
      · exact lookup_filter_self s.page_table pid

/-- The shared example replacer is well-formed. -/
theorem rEx_wf : ReplacerWF rEx := by
  have hlz : ∀ g : Nat, g ≠ 0 → rEx.node_store.lookup g = none := by
    intro g hg
    have : (g == 0) = false := by simpa using hg
    simp [rEx, List.lookup, this]
  refine ⟨by decide, by decide, ?_, ?_, ?_, ?_⟩
  · intro g hg
    simp [rEx] at hg
    subst hg
    simp [rEx]
  · intro g
    by_cases hg : g = 0
    · subst hg
      exact ⟨fun _ => Or.inl (by simp [rEx]), fun _ => by decide⟩
    · rw [hlz g hg]
      constructor
      · intro h
        simp at h
      · rintro (h | h) <;> simp [rEx] at h <;> exact absurd h hg
  · intro g
    by_cases hg : g = 0
    · subst hg
      constructor
      · intro h
        simp [rEx] at h
      · rintro ⟨-, h2, -⟩
        have : getNode rEx 0 = ⟨[1], 2, true⟩ := by decide
        rw [this] at h2
        simp [rEx] at h2
    · constructor
      · intro h
        simp [rEx] at h
      · rintro ⟨h1, -, -⟩
        rw [hlz g hg] at h1
        simp at h1
  · intro g h
    by_cases hg : g = 0
    · subst hg
      exact ⟨by decide, by decide, by decide⟩
    · rw [hlz g hg] at h
      simp at h

/-- Every tracked frame of the shared example replacer is evictable. -/
theorem rEx_evictable :
    ∀ fid, (rEx.node_store.lookup fid).isSome = true →
      (getNode rEx fid).is_evictable = true := by
  intro fid h
  by_cases hg : fid = 0
  · subst hg
    decide
  · have : (fid == 0) = false := by simpa using hg
    simp [rEx, List.lookup, this] at h

/-- Witness for C5: a one-frame pool holding unpinned page 7 in frame 0,
the frame evictable in the replacer. -/
theorem delete_page_spec_witness :
    ∃ s', p1Delete
        { pool_size := 1
          pages := [⟨7, 0, false, 42⟩]
          free_list := []
          replacer := rEx
          page_table := [(7, 0)]
          next_page_id := 8
          disk := [] } 7 = some (true, s') ∧
      s'.free_list = [0] ∧ getPage s' 0 = default ∧
      s'.page_table.lookup 7 = none ∧ s'.replacer.node_store.lookup 0 = none ∧
      0 ∉ s'.replacer.new_frame ∧ 0 ∉ s'.replacer.cache_frame := by
  obtain ⟨s', h1, h2, h3, h4, h5, h6, h7⟩ :=
    (delete_page_spec
      { pool_size := 1
        pages := [⟨7, 0, false, 42⟩]
        free_list := []
        replacer := rEx
        page_table := [(7, 0)]
        next_page_id := 8
        disk := [] } 7 rEx_wf).2.2
      0 (by decide) (by decide) (by decide) (by decide)
  exact ⟨s', h1, by simpa using h2, h3, h4, h5, h6, h7⟩

/-! ## C3 — Evict -/

/-- Fold invariant of the `Evict` scan: the accumulator is the best
candidate so far, and the result is the first-encountered minimiser of
`GetKthHistory()` among evictable frames. -/
theorem scanFold_spec (s : LRUKReplacer) :
    ∀ (frames : List Nat) (acc : Option Nat),
    (∀ b, acc = some b → (getNode s b).is_evictable = true) →
    ((frames.foldl (scanStep s) acc = none ↔
        acc = none ∧ ∀ f ∈ frames, (getNode s f).is_evictable = false) ∧
     (∀ f, frames.foldl (scanStep s) acc = some f →
        (getNode s f).is_evictable = true ∧ (f ∈ frames ∨ acc = some f) ∧
        (∀ g ∈ frames, (getNode s g).is_evictable = true →
          kthHistory (getNode s f) ≤ kthHistory (getNode s g)) ∧
        (∀ b, acc = some b → kthHistory (getNode s f) ≤ kthHistory (getNode s b))))
  | [], acc, hacc => by
      constructor
      · simp
      · intro f hf
        simp at hf
        exact ⟨hacc f hf, Or.inr hf, by simp, fun b hb => by rw [hf] at hb; simp at hb; rw [hb]⟩
  | cur :: rest, acc, hacc => by
      rw [List.foldl_cons]
      have hredN : scanStep s none cur =
          if (getNode s cur).is_evictable then some cur else none := rfl
      have hredS : ∀ b0, scanStep s (some b0) cur =
          if (getNode s cur).is_evictable then
            (if kthHistory (getNode s cur) < kthHistory (getNode s b0) then some cur
             else some b0)
          else some b0 := fun b0 => rfl
      have hstep : ∀ b, scanStep s acc cur = some b →
          (getNode s b).is_evictable = true := by
        intro b hb
        rcases hacc' : acc with _ | b0 <;> rw [hacc'] at hb
        · rw [hredN] at hb
          by_cases hev : (getNode s cur).is_evictable
          · rw [if_pos hev] at hb
            simp at hb
            rw [← hb]; exact hev
          · rw [if_neg hev] at hb
            simp at hb
        · rw [hredS b0] at hb
          by_cases hev : (getNode s cur).is_evictable
          · rw [if_pos hev] at hb
            by_cases hlt : kthHistory (getNode s cur) < kthHistory (getNode s b0)
            · rw [if_pos hlt] at hb
              simp at hb
              rw [← hb]; exact hev
            · rw [if_neg hlt] at hb
              simp at hb
              rw [← hb]; exact hacc b0 hacc'
          · rw [if_neg hev] at hb
            simp at hb
            rw [← hb]; exact hacc b0 hacc'
      obtain ⟨hnone, hsome⟩ := scanFold_spec s rest (scanStep s acc cur) hstep
      constructor
      · rw [hnone]
        constructor
        · rintro ⟨hs, hrest⟩
          have hev : (getNode s cur).is_evictable = false := by
            by_contra hev'
            have hev'' : (getNode s cur).is_evictable = true := by
              simpa using hev'
            rcases hacc' : acc with _ | b0 <;> rw [hacc'] at hs
            · rw [hredN, if_pos hev''] at hs
              simp at hs
            · rw [hredS b0, if_pos hev''] at hs
              by_cases hlt : kthHistory (getNode s cur) < kthHistory (getNode s b0) <;>
                simp [hlt] at hs
          have haccn : acc = none := by
            rcases hacc' : acc with _ | b0
            · rfl
            · rw [hacc', hredS b0, if_neg (by simp [hev])] at hs
              simp at hs
          refine ⟨haccn, fun f hf => ?_⟩
          rcases List.mem_cons.mp hf with h | h
          · rw [h]; exact hev
          · exact hrest f h
        · rintro ⟨hs, hall⟩
          have hcur := hall cur (by simp)
          refine ⟨?_, fun f hf => hall f (by simp [hf])⟩
          rw [hs, hredN, if_neg (by simp [hcur])]
      · intro f hf
        obtain ⟨hev, hmem, hmin, hvs⟩ := hsome f hf
        refine ⟨hev, ?_, ?_, ?_⟩
        · rcases hmem with h | h
          · exact Or.inl (by simp [h])
          · rcases hacc' : acc with _ | b0 <;> rw [hacc'] at h
            · rw [hredN] at h
              by_cases hevc : (getNode s cur).is_evictable
              · rw [if_pos hevc] at h
                simp at h
                exact Or.inl (by simp [h])
              · rw [if_neg hevc] at h
                simp at h
            · rw [hredS b0] at h
              by_cases hevc : (getNode s cur).is_evictable
              · rw [if_pos hevc] at h
                by_cases hlt : kthHistory (getNode s cur) < kthHistory (getNode s b0)
                · rw [if_pos hlt] at h
                  simp at h
                  exact Or.inl (by simp [h])
                · rw [if_neg hlt] at h
                  simp at h
                  exact Or.inr (by rw [h])
              · rw [if_neg hevc] at h
                simp at h
                exact Or.inr (by rw [h])
        · intro g hg hevg
          rcases List.mem_cons.mp hg with h | h
          · subst h
            rcases hacc' : acc with _ | b0 <;> rw [hacc'] at hvs
            · rw [hredN, if_pos hevg] at hvs
              exact hvs g rfl
            · rw [hredS b0, if_pos hevg] at hvs
              by_cases hlt : kthHistory (getNode s g) < kthHistory (getNode s b0)
              · rw [if_pos hlt] at hvs
                exact hvs g rfl
              · rw [if_neg hlt] at hvs
                calc kthHistory (getNode s f) ≤ kthHistory (getNode s b0) := hvs b0 rfl
                  _ ≤ kthHistory (getNode s g) := by omega
          · exact hmin g h hevg
        · intro b hb
          rw [hb, hredS b] at hvs
          by_cases hevc : (getNode s cur).is_evictable
          · rw [if_pos hevc] at hvs
            by_cases hlt : kthHistory (getNode s cur) < kthHistory (getNode s b)
            · rw [if_pos hlt] at hvs
              calc kthHistory (getNode s f) ≤ kthHistory (getNode s cur) := hvs cur rfl
                _ ≤ kthHistory (getNode s b) := by omega
            · rw [if_neg hlt] at hvs
              exact hvs b rfl
          · rw [if_neg hevc] at hvs
            exact hvs b rfl

/-- Postcondition of one whole `Evict` scan. -/
theorem scanBest_spec (s : LRUKReplacer) (frames : List Nat) :
    (scanBest s frames = none ↔ ∀ f ∈ frames, (getNode s f).is_evictable = false) ∧
    (∀ f, scanBest s frames = some f →
      (getNode s f).is_evictable = true ∧ f ∈ frames ∧
      ∀ g ∈ frames, (getNode s g).is_evictable = true →
        kthHistory (getNode s f) ≤ kthHistory (getNode s g)) := by
  obtain ⟨h1, h2⟩ := scanFold_spec s frames none (fun b hb => by simp at hb)
  constructor
  · rw [scanBest, h1]
    simp
  · intro f hf
    obtain ⟨hev, hmem, hmin, -⟩ := h2 f hf
    rcases hmem with h | h
    · exact ⟨hev, h, hmin⟩
    · simp at h

/-- Claim C3: `Evict` returns `none` exactly when no tracked frame is
evictable.  On success with frame `f`: `f` is tracked and evictable; if
any tracked evictable frame has fewer than `K` recorded accesses
(backward K-distance `∞`), then `f` is such a frame and its oldest
retained timestamp is minimal among them; otherwise `f`'s oldest-of-K
timestamp is minimal among all tracked evictable frames.  The victim is
removed entirely — store entry erased, gone from both frame lists — and
the size is decremented. -/
theorem evict_spec (s : LRUKReplacer) (hwf : ReplacerWF s) :
    ((lrukEvict s).1 = none ↔
      ∀ g, (s.node_store.lookup g).isSome = true → (getNode s g).is_evictable = false) ∧
    (∀ f, (lrukEvict s).1 = some f →
      (s.node_store.lookup f).isSome = true ∧ (getNode s f).is_evictable = true ∧
      ((∃ g, (s.node_store.lookup g).isSome = true ∧ (getNode s g).is_evictable = true ∧
          (getNode s g).history.length < s.k) →
        (getNode s f).history.length < s.k ∧
        ∀ g, (s.node_store.lookup g).isSome = true → (getNode s g).is_evictable = true →
          (getNode s g).history.length < s.k →
          kthHistory (getNode s f) ≤ kthHistory (getNode s g)) ∧
      ((¬ ∃ g, (s.node_store.lookup g).isSome = true ∧ (getNode s g).is_evictable = true ∧
          (getNode s g).history.length < s.k) →
        ∀ g, (s.node_store.lookup g).isSome = true → (getNode s g).is_evictable = true →
          kthHistory (getNode s f) ≤ kthHistory (getNode s g)) ∧
      (lrukEvict s).2.node_store.lookup f = none ∧
      f ∉ (lrukEvict s).2.new_frame ∧ f ∉ (lrukEvict s).2.cache_frame ∧
      (lrukEvict s).2.curr_size = s.curr_size - 1) := by
  obtain ⟨hnd1, hnd2, hdisj, hstore, hcache, hnode⟩ := hwf
  have hnewMem : ∀ g, g ∈ s.new_frame ↔
      ((s.node_store.lookup g).isSome = true ∧
        ((getNode s g).history.length < s.k ∨ s.k = 1)) := by
    intro g
    constructor
    · intro h
      have htr := (hstore g).mpr (Or.inl h)
      refine ⟨htr, ?_⟩
      have hnc := hdisj g h
      have := hnode g htr
      by_cases hk : s.k = 1
      · exact Or.inr hk
      · left
        rcases Nat.lt_or_ge (getNode s g).history.length s.k with h' | h'
        · exact h'
        · exact absurd ((hcache g).mpr ⟨htr, by omega, hk⟩) hnc
    · rintro ⟨htr, hlen⟩
      rcases (hstore g).mp htr with h | h
      · exact h
      · obtain ⟨-, hl, hk⟩ := (hcache g).mp h
        rcases hlen with h' | h' <;> omega
  obtain ⟨hisnew, hnewsome⟩ := scanBest_spec s s.new_frame
  obtain ⟨hiscache, hcachesome⟩ := scanBest_spec s s.cache_frame
  rcases hsn : scanBest s s.new_frame with _ | f0
  · rcases hsc : scanBest s s.cache_frame with _ | f1
    · -- both scans fail: Evict returns none
      have hres : lrukEvict s = (none, s) := by
        rw [lrukEvict, hsn, hsc]
      rw [hres]
      constructor
      · constructor
        · intro _ g htr
          rcases (hstore g).mp htr with h | h
          · exact hisnew.mp hsn g h
          · exact hiscache.mp hsc g h
        · intro _
          rfl
      · intro f hf
        simp at hf
    · -- cache scan succeeds
      obtain ⟨hev, hmemc, hminc⟩ := hcachesome f1 hsc
      have htr := (hstore f1).mpr (Or.inr hmemc)
      have hres : lrukEvict s =
          (some f1, { s with
            cache_frame := s.cache_frame.erase f1
            node_store := storeErase s.node_store f1
            curr_size := s.curr_size - 1 }) := by
        rw [lrukEvict, hsn, hsc]
      rw [hres]
      constructor
      · constructor
        · intro h
          simp at h
        · intro hall
          exact absurd hev (by simp [hall f1 htr])
      intro f hf
      obtain rfl : f1 = f := by simpa using hf
      refine ⟨htr, hev, ?_, ?_, ?_, ?_, ?_, rfl⟩
      · rintro ⟨g, hgtr, hgev, hglen⟩
        have hgnew : g ∈ s.new_frame := (hnewMem g).mpr ⟨hgtr, Or.inl hglen⟩
        exact absurd hgev (by simp [hisnew.mp hsn g hgnew])
      · intro _ g hgtr hgev
        rcases (hstore g).mp hgtr with h | h
        · exact absurd hgev (by simp [hisnew.mp hsn g h])
        · exact hminc g h hgev
      · exact lookup_filter_self s.node_store f1
      · intro hmem
        exact absurd hev (by simp [hisnew.mp hsn f1 hmem])
      · exact fun hmem => absurd rfl ((List.Nodup.mem_erase_iff hnd2).mp hmem).1
  · -- new scan succeeds
    obtain ⟨hev, hmemn, hminn⟩ := hnewsome f0 hsn
    have htr := (hstore f0).mpr (Or.inl hmemn)
    have hres : lrukEvict s =
        (some f0, { s with
          new_frame := s.new_frame.erase f0
          node_store := storeErase s.node_store f0
          curr_size := s.curr_size - 1 }) := by
      rw [lrukEvict, hsn]
    rw [hres]
    constructor
    · constructor
      · intro h
        simp at h
      · intro hall
        exact absurd hev (by simp [hall f0 htr])
    intro f hf
    obtain rfl : f0 = f := by simpa using hf
    refine ⟨htr, hev, ?_, ?_, ?_, ?_, ?_, rfl⟩
    · rintro ⟨g, hgtr, hgev, hglen⟩
      have hk : s.k ≠ 1 := by
        have := hnode g hgtr
        omega
      have hflen := (hnewMem f0).mp hmemn
      refine ⟨by rcases hflen.2 with h | h; exact h; exact absurd h hk, ?_⟩
      intro g' hgtr' hgev' hglen'
      exact hminn g' ((hnewMem g').mpr ⟨hgtr', Or.inl hglen'⟩) hgev'
    · intro hno g hgtr hgev
      have hk1 : s.k = 1 := by
        by_contra hk
        have hflen := (hnewMem f0).mp hmemn
        rcases hflen.2 with h | h
        · exact hno ⟨f0, htr, hev, h⟩
        · exact hk h
      have hgnew : g ∈ s.new_frame := (hnewMem g).mpr ⟨hgtr, Or.inr hk1⟩
      exact hminn g hgnew hgev
    · exact lookup_filter_self s.node_store f0
    · exact fun hmem => absurd rfl ((List.Nodup.mem_erase_iff hnd1).mp hmem).1
    · intro hmem
      exact hdisj f0 hmemn hmem

/-- Witness for C3 on the shared example replacer: frame 0 (a single
access, K-distance `∞`) is evicted. -/
theorem evict_spec_witness :
    (lrukEvict rEx).1 = some 0 ∧
    (rEx.node_store.lookup 0).isSome = true ∧ (getNode rEx 0).is_evictable = true ∧
    (lrukEvict rEx).2.node_store.lookup 0 = none ∧
    0 ∉ (lrukEvict rEx).2.new_frame ∧ 0 ∉ (lrukEvict rEx).2.cache_frame ∧
    (lrukEvict rEx).2.curr_size = rEx.curr_size - 1 := by
  have hres : (lrukEvict rEx).1 = some 0 := by decide
  obtain ⟨h1, h2, -, -, h5, h6, h7, h8⟩ := (evict_spec rEx rEx_wf).2 0 hres
  exact ⟨hres, h1, h2, h5, h6, h7, h8⟩

/-! ## C6 — RecordAccess -/

theorem lookup_replaceEntry_self :
    ∀ (store : List (Nat × LRUKNode)) (f : Nat) (n : LRUKNode),
    (store.lookup f).isSome = true → (replaceEntry store f n).lookup f = some n
  | [], f, n, h => by simp [List.lookup] at h
  | (k, v) :: rest, f, n, h => by
      by_cases he : k = f
      · subst he
        simp [replaceEntry, List.lookup]
      · have hb : (f == k) = false := by
          rw [beq_eq_false_iff_ne]
          exact fun hfe => he hfe.symm
        rw [replaceEntry, if_neg he]
        simp only [List.lookup, hb]
        refine lookup_replaceEntry_self rest f n ?_
        simpa [List.lookup, hb] using h

theorem lookup_replaceEntry_other :
    ∀ (store : List (Nat × LRUKNode)) (f g : Nat) (n : LRUKNode), g ≠ f →
    (replaceEntry store f n).lookup g = store.lookup g
  | [], _, _, _, _ => rfl
  | (k, v) :: rest, f, g, n, hne => by
      by_cases he : k = f
      · subst he
        have hb : (g == k) = false := by simpa using hne
        rw [replaceEntry, if_pos rfl]
        simp only [List.lookup, hb]
      · rw [replaceEntry, if_neg he]
        simp only [List.lookup]
        rcases hge : (g == k) with _ | _
        · exact lookup_replaceEntry_other rest f g n hne
        · rfl

theorem lookup_storeSet_self {store : List (Nat × LRUKNode)} {f : Nat}
    (h : (store.lookup f).isSome = true) (n : LRUKNode) :
    (storeSet store f n).lookup f = some n := by
  rw [storeSet, if_pos h]
  exact lookup_replaceEntry_self store f n h

theorem lookup_storeSet_other {store : List (Nat × LRUKNode)} {f g : Nat}
    (hne : g ≠ f) (n : LRUKNode) :
    (storeSet store f n).lookup g = store.lookup g := by
  rw [storeSet]
  by_cases h : (store.lookup f).isSome = true
  · rw [if_pos h]
    exact lookup_replaceEntry_other store f g n hne
  · rw [if_neg h]
    have : (g == f) = false := by simpa using hne
    simp [List.lookup, this]

/-- Claim C6 as stated fails: recording an unknown frame while the number
of evictable frames equals the replacer capacity first **evicts** a frame.
Concretely with `num_frames = 1, K = 2`: record frame 0, mark it
evictable, then record the (valid) frame id 1 — frame 0 is removed from
the store and the size drops from 1 to 0. -/
theorem record_access_evicts_at_capacity :
    ((lrukSetEvictable ((lrukRecord (lrukInit 1 2) 0).getD (lrukInit 1 2)) 0
        true).node_store.lookup 0).isSome = true ∧
    (lrukSetEvictable ((lrukRecord (lrukInit 1 2) 0).getD (lrukInit 1 2)) 0
        true).curr_size = 1 ∧
    ∃ s', lrukRecord (lrukSetEvictable ((lrukRecord (lrukInit 1 2) 0).getD
        (lrukInit 1 2)) 0 true) 1 = some s' ∧
      s'.node_store.lookup 0 = none ∧ s'.curr_size = 0 := by
  refine ⟨by decide, by decide, ?_⟩
  refine ⟨_, rfl, by decide, by decide⟩

/-- Claim C6 amended: provided the frame id is within range and — when the
frame is unknown — the evictable count is below capacity (otherwise
`RecordAccess` first evicts a frame), recording appends exactly the one
new timestamp `current_timestamp_ + 1` to the frame's bounded K-ring
(creating the frame in the *new* list with that single timestamp if it was
unknown), moves the frame from *new* to *cache* exactly when its
pre-record history length is `K - 1`, changes no frame's evictable flag,
keeps the size unchanged, and removes no frame. -/
theorem record_access_spec (s : LRUKReplacer) (f : Nat)
    (hwf : ReplacerWF s) (hk : 1 ≤ s.k) (hle : f ≤ s.replacer_size)
    (hsafe : (s.node_store.lookup f).isSome = true ∨ s.curr_size ≠ s.replacer_size) :
    ∃ s', lrukRecord s f = some s' ∧
      s'.current_timestamp = s.current_timestamp + 1 ∧
      ((s.node_store.lookup f).isSome = true →
        (getNode s' f).history =
          ((getNode s f).history ++ [s.current_timestamp + 1]).drop
            ((getNode s f).history.length + 1 - s.k)) ∧
      ((s.node_store.lookup f).isSome = false →
        (getNode s' f).history = [s.current_timestamp + 1] ∧ f ∈ s'.new_frame) ∧
      ((s.node_store.lookup f).isSome = true →
        (f ∈ s'.cache_frame ↔
          ((getNode s f).history.length + 1 = s.k ∨ f ∈ s.cache_frame))) ∧
      (∀ g, (getNode s' g).is_evictable = (getNode s g).is_evictable) ∧
      s'.curr_size = s.curr_size ∧
      (∀ g, (s.node_store.lookup g).isSome = true →
        (s'.node_store.lookup g).isSome = true) := by
  obtain ⟨hnd1, hnd2, hdisj, hstore, hcache, hnode⟩ := hwf
  have hth : ¬ s.replacer_size < f := by omega
  by_cases htr : (s.node_store.lookup f).isSome = true
  · -- known frame
    have hreseq : lrukRecord s f = some (recordKnown s f (s.current_timestamp + 1)) := by
      rw [lrukRecord, if_neg hth, if_pos htr]
    have hknode := hnode f htr
    -- the three branches only differ in the frame lists
    have hcommon : ∀ g, (getNode (recordKnown s f (s.current_timestamp + 1)) g).is_evictable
        = (getNode s g).is_evictable := by
      intro g
      have hset : (recordKnown s f (s.current_timestamp + 1)).node_store =
          storeSet s.node_store f (addHistory (getNode s f) (s.current_timestamp + 1)) := by
        rw [recordKnown.eq_def]
        split
        · rfl
        · split <;> rfl
      by_cases hgf : g = f
      · subst hgf
        rw [getNode, hset, lookup_storeSet_self htr]
        simp [addHistory, getNode]
      · rw [getNode, hset, lookup_storeSet_other hgf]
        rfl
    have hhist : (getNode (recordKnown s f (s.current_timestamp + 1)) f).history =
        ((getNode s f).history ++ [s.current_timestamp + 1]).drop
          ((getNode s f).history.length + 1 - s.k) := by
      have hset : (recordKnown s f (s.current_timestamp + 1)).node_store =
          storeSet s.node_store f (addHistory (getNode s f) (s.current_timestamp + 1)) := by
        rw [recordKnown.eq_def]
        split
        · rfl
        · split <;> rfl
      rw [getNode, hset, lookup_storeSet_self htr]
      simp only [Option.getD_some]
      rw [addHistory]
      have : (getNode s f).k = s.k := hknode.2.2
      rw [this]
    have hts : (recordKnown s f (s.current_timestamp + 1)).current_timestamp =
        s.current_timestamp + 1 := by
      rw [recordKnown.eq_def]
      split
      · rfl
      · split <;> rfl
    have hsz : (recordKnown s f (s.current_timestamp + 1)).curr_size = s.curr_size := by
      rw [recordKnown.eq_def]
      split
      · rfl
      · split <;> rfl
    have hlk : ∀ g, (s.node_store.lookup g).isSome = true →
        ((recordKnown s f (s.current_timestamp + 1)).node_store.lookup g).isSome = true := by
      intro g hg
      have hset : (recordKnown s f (s.current_timestamp + 1)).node_store =
          storeSet s.node_store f (addHistory (getNode s f) (s.current_timestamp + 1)) := by
        rw [recordKnown.eq_def]
        split
        · rfl
        · split <;> rfl
      rw [hset]
      by_cases hgf : g = f
      · subst hgf
        rw [lookup_storeSet_self htr]
        rfl
      · rw [lookup_storeSet_other hgf]
        exact hg
    refine ⟨_, hreseq, hts, fun _ => hhist, fun h => by rw [htr] at h; simp at h,
      fun _ => ?_, hcommon, hsz, hlk⟩
    -- cache membership after the update
    rw [recordKnown.eq_def]
    by_cases hmv : (getNode s f).history.length + 1 = s.k
    · rw [if_pos hmv]
      constructor
      · intro _
        exact Or.inl hmv
      · intro _
        exact List.mem_cons_self f s.cache_frame
    · rw [if_neg hmv]
      split
      · simp only
        constructor
        · intro h
          exact Or.inr h
        · rintro (h | h)
          · exact absurd h hmv
          · exact h
      · simp only
        constructor
        · intro h
          exact Or.inr h
        · rintro (h | h)
          · exact absurd h hmv
          · exact h
  · -- unknown frame: no eviction because curr_size ≠ replacer_size
    have hne : s.curr_size ≠ s.replacer_size := by
      rcases hsafe with h | h
      · exact absurd h htr
      · exact h
    have hreseq : lrukRecord s f = some (recordNew s f (s.current_timestamp + 1)) := by
      rw [lrukRecord, if_neg hth, if_neg htr]
    have hred : recordNew s f (s.current_timestamp + 1) =
        { s with
            current_timestamp := s.current_timestamp + 1
            new_frame := f :: s.new_frame
            node_store := (f, addHistory { history := [], k := s.k, is_evictable := false }
              (s.current_timestamp + 1)) :: s.node_store } := by
      rw [recordNew, if_neg hne]
    have hnewnode : addHistory { history := [], k := s.k, is_evictable := false }
        (s.current_timestamp + 1) =
        { history := [s.current_timestamp + 1], k := s.k, is_evictable := false } := by
      rw [addHistory]
      simp only [List.nil_append, List.length_nil]
      have : 1 - s.k = 0 := by omega
      rw [this]
      rfl
    refine ⟨_, hreseq, by rw [hred], fun h => by rw [h] at htr; simp at htr,
      fun _ => ?_, fun h => by rw [h] at htr; simp at htr, ?_, by rw [hred], ?_⟩
    · rw [hred]
      constructor
      · rw [getNode]
        simp only [List.lookup, beq_self_eq_true, Option.getD_some, hnewnode]
      · simp
    · intro g
      rw [hred]
      by_cases hgf : g = f
      · subst hgf
        rw [getNode, getNode]
        have hfl : s.node_store.lookup g = none := by
          rcases h : s.node_store.lookup g with _ | v
          · rfl
          · rw [h] at htr; simp at htr
        simp only [List.lookup, beq_self_eq_true, Option.getD_some, hnewnode, hfl]
        rfl
      · rw [getNode, getNode]
        have : (g == f) = false := by simpa using hgf
        simp only [List.lookup, this]
    · intro g hg
      by_cases hgf : g = f
      · subst hgf
        rw [hg] at htr
        simp at htr
      · rw [hred]
        have : (g == f) = false := by simpa using hgf
        simp only [List.lookup, this]
        exact hg

/-- Witness for C6 (amended) on the shared example replacer, recording the
already-tracked frame 0 (its second access moves it from *new* to
*cache*). -/
theorem record_access_spec_witness :
    ∃ s', lrukRecord rEx 0 = some s' ∧
      s'.current_timestamp = rEx.current_timestamp + 1 ∧
      s'.curr_size = rEx.curr_size := by
  obtain ⟨s', h1, h2, -, -, -, -, h7, -⟩ :=
    record_access_spec rEx 0 rEx_wf (by decide) (by decide) (Or.inl (by decide))
  exact ⟨s', h1, h2, h7⟩

/-! ## C4 — NewPage / FetchPage failure -/

theorem mem_of_getLast?_eq {α : Type} {l : List α} {a : α}
    (h : l.getLast? = some a) : a ∈ l := by
  obtain ⟨hne, heq⟩ := List.mem_getLast?_eq_getLast (Option.mem_def.mpr h)
  rw [heq]
  exact List.getLast_mem hne

/-- `Evict` fails exactly when no frame is evictable. -/
theorem evict_none_iff (r : LRUKReplacer) :
    (lrukEvict r).1 = none ↔ ¬ ∃ f, frameEvictable r f := by
  obtain ⟨hn, -⟩ := scanBest_spec r r.new_frame
  obtain ⟨hc, -⟩ := scanBest_spec r r.cache_frame
  constructor
  · intro h
    rintro ⟨f, hmem, hev⟩
    rw [lrukEvict] at h
    rcases hsn : scanBest r r.new_frame with _ | f0
    · rcases hsc : scanBest r r.cache_frame with _ | f1
      · rcases hmem with hm | hm
        · exact absurd hev (by simp [hn.mp hsn f hm])
        · exact absurd hev (by simp [hc.mp hsc f hm])
      · rw [hsn, hsc] at h
        simp at h
    · rw [hsn] at h
      simp at h
  · intro h
    rw [lrukEvict]
    rcases hsn : scanBest r r.new_frame with _ | f0
    · rcases hsc : scanBest r r.cache_frame with _ | f1
      · rfl
      · obtain ⟨hev, hmem, -⟩ := (scanBest_spec r r.cache_frame).2 f1 hsc
        exact absurd ⟨f1, Or.inr hmem, hev⟩ h
    · obtain ⟨hev, hmem, -⟩ := (scanBest_spec r r.new_frame).2 f0 hsn
      exact absurd ⟨f0, Or.inl hmem, hev⟩ h

/-- The `pinall` scan finds exactly the all-frames-pinned states. -/
theorem pinAll_iff (s : BPM) (hlen : s.pages.length = s.pool_size) :
    pinAll s = true ↔ ∀ i, i < s.pool_size → 0 < (getPage s i).pin_count := by
  rw [pinAll, List.all_eq_true]
  constructor
  · intro h i hi
    have hm : s.pages.getD i default ∈ s.pages := by
      rw [List.getD_eq_getElem _ _ (by omega)]
      exact List.getElem_mem _
    have := h _ hm
    simp only [bne_iff_ne, ne_eq] at this
    rw [getPage]
    omega
  · intro h p hp
    obtain ⟨i, hi, hpe⟩ := List.mem_iff_getElem.mp hp
    have := h i (by omega)
    rw [getPage, List.getD_eq_getElem _ _ hi, hpe] at this
    simp only [bne_iff_ne, ne_eq]
    omega

/-- All-pinned states are exactly those with an empty free list and a
failing eviction, given the standard pin/evictability linkage. -/
theorem allPinned_iff_evict_fails (s : BPM)
    (hlen : s.pages.length = s.pool_size)
    (hfree : ∀ i ∈ s.free_list, i < s.pool_size ∧ (getPage s i).pin_count = 0)
    (hres : ∀ i, i < s.pool_size → i ∉ s.free_list →
      ((getPage s i).pin_count = 0 ↔ frameEvictable s.replacer i))
    (hevb : ∀ i, frameEvictable s.replacer i → i < s.pool_size ∧ i ∉ s.free_list) :
    (∀ i, i < s.pool_size → 0 < (getPage s i).pin_count) ↔
      (s.free_list = [] ∧ (lrukEvict s.replacer).1 = none) := by
  constructor
  · intro h
    constructor
    · rcases hfl : s.free_list with _ | ⟨i, rest⟩
      · rfl
      · have hi := hfree i (by rw [hfl]; simp)
        have := h i hi.1
        omega
    · rw [evict_none_iff]
      rintro ⟨f, hf⟩
      obtain ⟨hflt, hfnf⟩ := hevb f hf
      have := (hres f hflt hfnf).mpr hf
      have := h f hflt
      omega
  · rintro ⟨hfl, hev⟩ i hi
    have hnf : i ∉ s.free_list := by rw [hfl]; simp
    rcases Nat.eq_zero_or_pos (getPage s i).pin_count with h0 | h0
    · have := (hres i hi hnf).mp h0
      rw [evict_none_iff] at hev
      exact absurd ⟨i, this⟩ hev
    · exact h0

/-- Claim C4 as stated is false: `fetch_page` of a **resident** page
succeeds even when every frame is pinned.  One-frame pool, page 7 resident
and pinned: both variants' `FetchPage` return the frame. -/
theorem fetch_resident_all_pinned :
    pinAll
      { pool_size := 1, pages := [⟨7, 1, false, 0⟩], free_list := [],
        replacer := lrukInit 1 2, page_table := [(7, 0)], next_page_id := 8,
        disk := [] } = true ∧
    p1Fetch
      { pool_size := 1, pages := [⟨7, 1, false, 0⟩], free_list := [],
        replacer := lrukInit 1 2, page_table := [(7, 0)], next_page_id := 8,
        disk := [] } 7 ≠ none ∧
    srcFetch
      { pool_size := 1, pages := [⟨7, 1, false, 0⟩], free_list := [],
        replacer := lrukInit 1 2, page_table := [(7, 0)], next_page_id := 8,
        disk := [] } 7 ≠ none := by
  refine ⟨by decide, by decide, by decide⟩

/-- Claim C4 amended: `new_page` (both variants) fails iff every frame is
pinned; `fetch_page` of a non-resident page fails iff every frame is
pinned, while `fetch_page` of a resident page always succeeds; and with an
empty free list the miss paths of the linear-scan variant fail exactly
when the replacer's eviction fails. -/
theorem new_fetch_failure_spec (s : BPM) (pid : Int)
    (hlen : s.pages.length = s.pool_size)
    (hfree : ∀ i ∈ s.free_list, i < s.pool_size ∧ (getPage s i).pin_count = 0)
    (hres : ∀ i, i < s.pool_size → i ∉ s.free_list →
      ((getPage s i).pin_count = 0 ↔ frameEvictable s.replacer i))
    (hevb : ∀ i, frameEvictable s.replacer i → i < s.pool_size ∧ i ∉ s.free_list) :
    (p1NewPage s = none ↔ ∀ i, i < s.pool_size → 0 < (getPage s i).pin_count) ∧
    (srcNewPage s = none ↔ ∀ i, i < s.pool_size → 0 < (getPage s i).pin_count) ∧
    (s.page_table.lookup pid = none →
      (p1Fetch s pid = none ↔ ∀ i, i < s.pool_size → 0 < (getPage s i).pin_count)) ∧
    (s.page_table.lookup pid ≠ none → p1Fetch s pid ≠ none) ∧
    (findFrame s pid = none →
      (srcFetch s pid = none ↔ ∀ i, i < s.pool_size → 0 < (getPage s i).pin_count)) ∧
    (findFrame s pid ≠ none → srcFetch s pid ≠ none) ∧
    (s.free_list = [] →
      ((srcNewPage s = none ↔ (lrukEvict s.replacer).1 = none) ∧
       (findFrame s pid = none →
         (srcFetch s pid = none ↔ (lrukEvict s.replacer).1 = none)))) := by
  have hiff := allPinned_iff_evict_fails s hlen hfree hres hevb
  have hpin := pinAll_iff s hlen
  refine ⟨?_, ?_, ?_, ?_, ?_, ?_, ?_⟩
  · -- p1NewPage
    rw [p1NewPage.eq_def]
    by_cases hp : pinAll s = true
    · rw [if_pos hp]
      simp only [true_iff]
      exact hpin.mp hp
    · rw [if_neg hp]
      rcases hfl : s.free_list with _ | ⟨fid, rest⟩
      · rcases hev : (lrukEvict s.replacer).1 with _ | fid
        · -- UB path: unreachable under the invariant
          exfalso
          have : ¬ (∀ i, i < s.pool_size → 0 < (getPage s i).pin_count) := by
            intro h
            exact hp (hpin.mpr h)
          exact this (hiff.mpr ⟨hfl, hev⟩)
        · simp only [hfl, hev]
          constructor
          · intro h
            simp at h
          · intro h
            exact absurd (hpin.mpr h) hp
      · simp only [hfl]
        constructor
        · intro h
          simp at h
        · intro h
          exact absurd (hpin.mpr h) hp
  · -- srcNewPage
    rw [srcNewPage.eq_def]
    rcases hfl : s.free_list.getLast? with _ | fid
    · have hnil : s.free_list = [] := List.getLast?_eq_none_iff.mp hfl
      rcases hev : (lrukEvict s.replacer).1 with _ | fid
      · simp only [hfl, hev]
        constructor
        · intro _
          exact hiff.mpr ⟨hnil, hev⟩
        · intro _
          trivial
      · simp only [hfl, hev]
        constructor
        · intro h
          simp at h
        · intro h
          obtain ⟨-, h2⟩ := hiff.mp h
          rw [hev] at h2
          simp at h2
    · have hmem : fid ∈ s.free_list := mem_of_getLast?_eq hfl
      simp only [hfl]
      constructor
      · intro h
        simp at h
      · intro h
        have := hfree fid hmem
        have := h fid this.1
        omega
  · -- p1Fetch, miss
    intro hmiss
    rw [p1Fetch.eq_def, hmiss]
    by_cases hp : pinAll s = true
    · rw [if_pos hp]
      simp only [true_iff]
      exact hpin.mp hp
    · rw [if_neg hp]
      rcases hfl : s.free_list with _ | ⟨fid, rest⟩
      · rcases hev : (lrukEvict s.replacer).1 with _ | fid
        · exfalso
          have : ¬ (∀ i, i < s.pool_size → 0 < (getPage s i).pin_count) := by
            intro h
            exact hp (hpin.mpr h)
          exact this (hiff.mpr ⟨hfl, hev⟩)
        · simp only [hfl, hev]
          constructor
          · intro h
            simp at h
          · intro h
            exact absurd (hpin.mpr h) hp
      · simp only [hfl]
        constructor
        · intro h
          simp at h
        · intro h
          exact absurd (hpin.mpr h) hp
  · -- p1Fetch, hit
    intro hhit
    rcases hh : s.page_table.lookup pid with _ | fid
    · exact absurd hh hhit
    · rw [p1Fetch.eq_def, hh]
      simp
  · -- srcFetch, miss
    intro hmiss
    rw [srcFetch.eq_def, hmiss]
    rcases hfl : s.free_list.getLast? with _ | fid
    · have hnil : s.free_list = [] := List.getLast?_eq_none_iff.mp hfl
      rcases hev : (lrukEvict s.replacer).1 with _ | fid
      · simp only [hfl, hev]
        constructor
        · intro _
          exact hiff.mpr ⟨hnil, hev⟩
        · intro _
          trivial
      · simp only [hfl, hev]
        constructor
        · intro h
          simp at h
        · intro h
          obtain ⟨-, h2⟩ := hiff.mp h
          rw [hev] at h2
          simp at h2
    · have hmem : fid ∈ s.free_list := mem_of_getLast?_eq hfl
      simp only [hfl]
      constructor
      · intro h
        simp at h
      · intro h
        have := hfree fid hmem
        have := h fid this.1
        omega
  · -- srcFetch, hit
    intro hhit
    rcases hh : findFrame s pid with _ | fid
    · exact absurd hh hhit
    · rw [srcFetch.eq_def, hh]
      simp
  · -- the "equivalently" clause, on the linear-scan variant
    intro hfl
    have hglast : s.free_list.getLast? = none := by rw [hfl]; rfl
    constructor
    · rw [srcNewPage.eq_def, hglast]
      rcases hev : (lrukEvict s.replacer).1 with _ | fid <;> simp
    · intro hmiss
      rw [srcFetch.eq_def, hmiss, hglast]
      rcases hev : (lrukEvict s.replacer).1 with _ | fid <;> simp

/-- Witness for C4 (amended): a one-frame pool with the frame pinned and
page 9 not resident — both `NewPage`s and both miss-path `FetchPage`s
fail. -/
theorem new_fetch_failure_spec_witness :
    p1NewPage
      { pool_size := 1, pages := [⟨7, 1, false, 0⟩], free_list := [],
        replacer := lrukInit 1 2, page_table := [(7, 0)], next_page_id := 8,
        disk := [] } = none ∧
    srcNewPage
      { pool_size := 1, pages := [⟨7, 1, false, 0⟩], free_list := [],
        replacer := lrukInit 1 2, page_table := [(7, 0)], next_page_id := 8,
        disk := [] } = none := by
  have h := new_fetch_failure_spec
    { pool_size := 1, pages := [⟨7, 1, false, 0⟩], free_list := [],
      replacer := lrukInit 1 2, page_table := [(7, 0)], next_page_id := 8,
      disk := [] } 9 (by decide) (by intro i h; simp at h)
    (by
      intro i hi hnf
      have hi' : i < 1 := by simpa using hi
      have : i = 0 := by omega
      subst this
      constructor
      · intro h
        simp [getPage] at h
      · rintro ⟨hm, -⟩
        rcases hm with hm | hm <;> simp [lrukInit] at hm)
    (by
      rintro i ⟨hm, -⟩
      rcases hm with hm | hm <;> simp [lrukInit] at hm)
  exact ⟨h.1.mpr (by decide), h.2.1.mpr (by decide)⟩


/-! ## Shared order/list facts for the B+ tree proofs -/

theorem sortedB_iff_pairwise {l : List Nat} :
    sortedB l = true ↔ List.Pairwise (· < ·) l := by
  rw [sortedB_iff_chain]
  exact List.chain'_iff_pairwise

theorem keysOf_append {α : Type} (l1 l2 : List (Nat × α)) :
    keysOf (l1 ++ l2) = keysOf l1 ++ keysOf l2 := List.map_append _ _ _

theorem sortedB_append {l1 l2 : List Nat} :
    sortedB (l1 ++ l2) = true ↔
      sortedB l1 = true ∧ sortedB l2 = true ∧ ∀ a ∈ l1, ∀ b ∈ l2, a < b := by
  rw [sortedB_iff_pairwise, sortedB_iff_pairwise, sortedB_iff_pairwise,
    List.pairwise_append]

theorem sorted_cross {l1 l2 : List Nat} (hs : sortedB (l1 ++ l2) = true)
    {a b : Nat} (ha : a ∈ l1) (hb : b ∈ l2) : a < b :=
  (sortedB_append.mp hs).2.2 a ha b hb

theorem sortedB_head_le {a b : Nat} {l : List Nat}
    (hs : sortedB (a :: l) = true) (hb : b ∈ a :: l) : a ≤ b := by
  have hp := sortedB_pairwise hs
  rcases List.mem_cons.mp hb with rfl | hb
  · exact le_refl _
  · exact le_of_lt ((List.pairwise_cons.mp hp).1 b hb)

theorem sortedB_of_sublist {l1 l2 : List Nat} (h : l1.Sublist l2)
    (hs : sortedB l2 = true) : sortedB l1 = true :=
  sortedB_iff_pairwise.mpr ((sortedB_pairwise hs).sublist h)

theorem sorted_keyAt_zero_le {α : Type} [Inhabited α] {es : List (Nat × α)}
    (hs : sortedB (keysOf es) = true) {a : Nat} (ha : a ∈ keysOf es) :
    keyAt es 0 ≤ a := by
  cases es with
  | nil => simp [keysOf] at ha
  | cons e rest =>
      obtain ⟨x, w⟩ := e
      exact sortedB_head_le hs ha

theorem getD_mem {α : Type} {l : List α} {i : Nat} (d : α) (h : i < l.length) :
    l.getD i d ∈ l := by
  rw [List.getD_eq_getElem _ _ h]
  exact List.getElem_mem _

theorem take_getD_drop {α : Type} {l : List α} {i : Nat} (d : α) (h : i < l.length) :
    l.take i ++ l.getD i d :: l.drop (i + 1) = l := by
  conv_rhs => rw [← List.take_append_drop i l]
  rw [List.drop_eq_getElem_cons h, List.getD_eq_getElem _ _ h]

theorem getD_drop {α : Type} (l : List α) (d : α) (n i : Nat) :
    (l.drop n).getD i d = l.getD (n + i) d := by
  by_cases h : n + i < l.length
  · have h2 : i < (l.drop n).length := by simp [List.length_drop]; omega
    rw [List.getD_eq_getElem _ _ h2, List.getD_eq_getElem _ _ h, List.getElem_drop]
  · rw [List.getD_eq_default _ _ (by simp [List.length_drop]; omega),
      List.getD_eq_default _ _ (by omega)]

theorem getD_take {α : Type} (l : List α) (d : α) {n i : Nat} (h : i < n) :
    (l.take n).getD i d = l.getD i d := by
  by_cases h2 : i < l.length
  · have h3 : i < (l.take n).length := by simp [List.length_take]; omega
    rw [List.getD_eq_getElem _ _ h3, List.getD_eq_getElem _ _ h2, List.getElem_take]
  · rw [List.getD_eq_default _ _ (by simp [List.length_take]; omega),
      List.getD_eq_default _ _ (by omega)]

theorem set_getD_self {α : Type} : ∀ (l : List α) (i : Nat) (d : α),
    l.set i (l.getD i d) = l
  | [], _, _ => rfl
  | x :: rest, 0, _ => rfl
  | x :: rest, i + 1, d => by
      rw [List.getD_cons_succ, List.set_cons_succ, set_getD_self rest i d]

theorem keyAt_append_left {α : Type} [Inhabited α] {l1 : List (Nat × α)}
    (l2 : List (Nat × α)) {i : Nat} (h : i < l1.length) :
    keyAt (l1 ++ l2) i = keyAt l1 i := by
  rw [keyAt, keyAt, List.getD_append _ _ _ _ h]

theorem mem_keysOf_take {α : Type} [Inhabited α] {l : List (Nat × α)} {i a : Nat}
    (h : a ∈ keysOf (l.take i)) : ∃ j, j < i ∧ j < l.length ∧ keyAt l j = a := by
  obtain ⟨x, hx, hxa⟩ := List.mem_map.mp h
  obtain ⟨j, hj, hget⟩ := List.mem_iff_getElem.mp hx
  have hjl : j < l.length := by
    simp only [List.length_take] at hj
    omega
  refine ⟨j, ?_, hjl, ?_⟩
  · simp only [List.length_take] at hj
    omega
  · rw [keyAt, List.getD_eq_getElem _ _ hjl, ← hxa, ← hget, List.getElem_take]

theorem mem_keysOf_drop {α : Type} [Inhabited α] {l : List (Nat × α)} {i a : Nat}
    (h : a ∈ keysOf (l.drop i)) : ∃ j, i ≤ j ∧ j < l.length ∧ keyAt l j = a := by
  obtain ⟨x, hx, hxa⟩ := List.mem_map.mp h
  obtain ⟨j, hj, hget⟩ := List.mem_iff_getElem.mp hx
  have hjl : i + j < l.length := by
    simp only [List.length_drop] at hj
    omega
  refine ⟨i + j, by omega, hjl, ?_⟩
  rw [keyAt, List.getD_eq_getElem _ _ hjl, ← hxa, ← hget, List.getElem_drop]

/-! ## insPair facts -/

theorem insPair_ne_nil {α : Type} (es : List (Nat × α)) (k : Nat) (v : α) :
    insPair es k v ≠ [] := by
  cases es with
  | nil => simp [insPair]
  | cons e rest =>
      obtain ⟨a, w⟩ := e
      by_cases h : k < a <;> simp [insPair, h]

theorem mem_insPair_iff {α : Type} {es : List (Nat × α)} {k : Nat} {v : α}
    {x : Nat × α} : x ∈ insPair es k v ↔ x = (k, v) ∨ x ∈ es := by
  induction es with
  | nil => simp [insPair]
  | cons e rest ih =>
      obtain ⟨a, w⟩ := e
      by_cases h : k < a
      · simp [insPair, h]
      · simp only [insPair, if_neg h, List.mem_cons, ih]
        tauto

theorem mem_keysOf_insPair {α : Type} {es : List (Nat × α)} {k a : Nat} {v : α} :
    a ∈ keysOf (insPair es k v) ↔ a = k ∨ a ∈ keysOf es := by
  constructor
  · intro h
    obtain ⟨x, hx, hxa⟩ := List.mem_map.mp h
    rcases mem_insPair_iff.mp hx with rfl | hx
    · exact Or.inl hxa.symm
    · exact Or.inr (hxa ▸ List.mem_map_of_mem _ hx)
  · rintro (rfl | h)
    · exact List.mem_map_of_mem _ (mem_insPair_iff.mpr (Or.inl rfl))
    · obtain ⟨x, hx, hxa⟩ := List.mem_map.mp h
      exact hxa ▸ List.mem_map_of_mem _ (mem_insPair_iff.mpr (Or.inr hx))

theorem insPair_head_cases {α : Type} [Inhabited α] (es : List (Nat × α)) (k : Nat) (v : α) :
    keyAt (insPair es k v) 0 = k ∨
      (es ≠ [] ∧ keyAt (insPair es k v) 0 = keyAt es 0) := by
  cases es with
  | nil => exact Or.inl rfl
  | cons e rest =>
      obtain ⟨a, w⟩ := e
      by_cases h : k < a
      · exact Or.inl (by simp [insPair, h, keyAt])
      · exact Or.inr ⟨by simp, by simp [insPair, h, keyAt]⟩

theorem head?_keysOf {α : Type} [Inhabited α] {es : List (Nat × α)} (h : es ≠ []) :
    (keysOf es).head? = some (keyAt es 0) := by
  cases es with
  | nil => exact absurd rfl h
  | cons e rest =>
      obtain ⟨a, w⟩ := e
      rfl

theorem sortedB_insPair {α : Type} [Inhabited α] {es : List (Nat × α)} {k : Nat}
    (v : α) (hs : sortedB (keysOf es) = true) (habs : k ∉ keysOf es) :
    sortedB (keysOf (insPair es k v)) = true := by
  induction es with
  | nil => simp [insPair, keysOf, sortedB]
  | cons e rest ih =>
      obtain ⟨a, w⟩ := e
      have hkeys : keysOf ((a, w) :: rest) = a :: keysOf rest := rfl
      rw [hkeys, sortedB_cons] at hs
      rw [hkeys] at habs
      simp only [List.mem_cons, not_or] at habs
      by_cases h : k < a
      · simp only [insPair, if_pos h]
        rw [show keysOf ((k, v) :: (a, w) :: rest) = k :: a :: keysOf rest from rfl,
          sortedB_cons]
        refine ⟨?_, sortedB_cons.mpr hs⟩
        intro b hb
        simp only [List.head?, Option.mem_def, Option.some.injEq] at hb
        omega
      · have hak : a < k := by
          rcases Nat.lt_or_ge a k with h1 | h1
          · exact h1
          · exact absurd (by omega : a = k).symm habs.1
        simp only [insPair, if_neg h]
        rw [show keysOf ((a, w) :: insPair rest k v) =
          a :: keysOf (insPair rest k v) from rfl, sortedB_cons]
        refine ⟨?_, ih hs.2 habs.2⟩
        intro b hb
        have hne : insPair rest k v ≠ [] := insPair_ne_nil rest k v
        rw [head?_keysOf hne] at hb
        simp only [Option.mem_def, Option.some.injEq] at hb
        subst hb
        rcases insPair_head_cases rest k v with h1 | ⟨h2, h3⟩
        · omega
        · rw [h3]
          have := hs.1 (keyAt rest 0) (by rw [head?_keysOf h2]; rfl)
          exact this

theorem insPair_append_left {α : Type} {P R : List (Nat × α)} {k : Nat} (v : α)
    (h : ∀ a ∈ keysOf P, a < k) :
    insPair (P ++ R) k v = P ++ insPair R k v := by
  induction P with
  | nil => rfl
  | cons e rest ih =>
      obtain ⟨a, w⟩ := e
      have ha : a < k := h a (by simp [keysOf])
      have hna : ¬ k < a := by omega
      simp only [List.cons_append, insPair, if_neg hna, List.cons.injEq, true_and]
      refine ih ?_
      intro b hb
      refine h b ?_
      rw [show keysOf ((a, w) :: rest) = a :: keysOf rest from rfl]
      exact List.mem_cons_of_mem _ hb

theorem insPair_front {α : Type} {Q : List (Nat × α)} {k : Nat} (v : α)
    (h : ∀ a ∈ keysOf Q, k < a) : insPair Q k v = (k, v) :: Q := by
  cases Q with
  | nil => rfl
  | cons e rest =>
      obtain ⟨a, w⟩ := e
      have : k < a := h a (by simp [keysOf])
      simp [insPair, this]

theorem insPair_append_right {α : Type} {S Q : List (Nat × α)} {k : Nat} (v : α)
    (h : ∀ a ∈ keysOf Q, k < a) :
    insPair (S ++ Q) k v = insPair S k v ++ Q := by
  induction S with
  | nil => simpa [insPair] using insPair_front v h
  | cons e rest ih =>
      obtain ⟨a, w⟩ := e
      by_cases hk : k < a
      · simp [insPair, hk]
      · simp only [List.cons_append, insPair, if_neg hk, List.cons.injEq, true_and]
        exact ih

theorem insPair_back {α : Type} {es : List (Nat × α)} {k : Nat} (v : α)
    (h : ∀ a ∈ keysOf es, a < k) : insPair es k v = es ++ [(k, v)] := by
  have h2 := @insPair_append_left _ es [] k v h
  simpa using h2

/-! ## Structural facts about internal pages and flattened contents -/

theorem toListL_append (l1 l2 : List (Nat × BPage)) :
    toListL (l1 ++ l2) = toListL l1 ++ toListL l2 := by
  induction l1 with
  | nil => simp [toListL]
  | cons kc rest ih => simp [toListL, ih]

theorem toListL_decomp {kcs : List (Nat × BPage)} {i : Nat} (h : i < kcs.length) :
    toListL kcs = toListL (kcs.take i) ++ toList (kcs.getD i (0, default)).2 ++
      toListL (kcs.drop (i + 1)) := by
  conv_lhs => rw [← take_getD_drop (0, default) h]
  rw [toListL_append]
  simp [toListL, List.append_assoc]

theorem mem_toListL_split {kcs : List (Nat × BPage)} {e : Nat × Nat}
    (h : e ∈ toListL kcs) :
    ∃ i, i < kcs.length ∧ e ∈ toList (kcs.getD i (0, default)).2 := by
  induction kcs with
  | nil => simp [toListL] at h
  | cons kc rest ih =>
      simp only [toListL] at h
      rcases List.mem_append.mp h with h1 | h2
      · exact ⟨0, by simp, by simpa using h1⟩
      · obtain ⟨i, hi, hm⟩ := ih h2
        exact ⟨i + 1, by simpa using hi, by simpa using hm⟩

theorem structL_forall {kcs : List (Nat × BPage)} :
    structL kcs = true ↔
      ∀ kc ∈ kcs, kc.1 = pageKey0 kc.2 ∧ toList kc.2 ≠ [] ∧ structB kc.2 = true := by
  induction kcs with
  | nil => simp [structL]
  | cons kc rest ih =>
      obtain ⟨k, c⟩ := kc
      simp only [structL, Bool.and_eq_true, decide_eq_true_eq, Bool.not_eq_true',
        List.mem_cons, ih]
      constructor
      · rintro ⟨⟨⟨hk, hne⟩, hsB⟩, hrest⟩
        rintro x (rfl | hx)
        · exact ⟨hk, by simpa [List.isEmpty_iff] using hne, hsB⟩
        · exact hrest x hx
      · intro h
        obtain ⟨hk, hne, hsB⟩ := h (k, c) (Or.inl rfl)
        exact ⟨⟨⟨hk, by simpa [List.isEmpty_iff] using hne⟩, hsB⟩,
          fun x hx => h x (Or.inr hx)⟩

theorem occL_forall {lM iM : Nat} {kcs : List (Nat × BPage)} :
    occL lM iM kcs = true ↔ ∀ kc ∈ kcs, occB lM iM false kc.2 = true := by
  induction kcs with
  | nil => simp [occL]
  | cons kc rest ih =>
      simp only [occL, Bool.and_eq_true, List.mem_cons, ih]
      constructor
      · rintro ⟨h1, h2⟩ x (rfl | hx)
        · exact h1
        · exact h2 x hx
      · intro h
        exact ⟨h kc (Or.inl rfl), fun x hx => h x (Or.inr hx)⟩

mutual
theorem pageKey0_eq_head : ∀ (c : BPage), structB c = true → toList c ≠ [] →
    pageKey0 c = keyAt (toList c) 0
  | .leaf kvs, _, _ => rfl
  | .node kcs, hsB, hne => by
      simp only [structB, Bool.and_eq_true, Bool.not_eq_true'] at hsB
      obtain ⟨hnil, hsl⟩ := hsB
      have hkne : kcs ≠ [] := by
        intro h
        rw [h] at hnil
        simp at hnil
      exact pageKey0_eq_headL kcs hsl hkne

theorem pageKey0_eq_headL : ∀ (kcs : List (Nat × BPage)), structL kcs = true →
    kcs ≠ [] → keyAt kcs 0 = keyAt (toListL kcs) 0
  | [], _, hne => absurd rfl hne
  | (k, c) :: rest, hsl, _ => by
      simp only [structL, Bool.and_eq_true, decide_eq_true_eq,
        Bool.not_eq_true'] at hsl
      obtain ⟨⟨⟨hk, hcne⟩, hcsB⟩, -⟩ := hsl
      have hcne2 : toList c ≠ [] := by simpa [List.isEmpty_iff] using hcne
      have ih := pageKey0_eq_head c hcsB hcne2
      show k = keyAt (toList c ++ toListL rest) 0
      rw [keyAt_append_left _ (List.length_pos.mpr hcne2), ← ih, hk]
end

theorem toListL_ne_nil {kcs : List (Nat × BPage)} (hsl : structL kcs = true)
    (hne : kcs ≠ []) : toListL kcs ≠ [] := by
  rcases kcs with _ | ⟨⟨k, c⟩, rest⟩
  · exact absurd rfl hne
  · obtain ⟨-, hcne, -⟩ := structL_forall.mp hsl (k, c) (List.mem_cons_self _ _)
    simp only [toListL]
    intro h
    rw [List.append_eq_nil] at h
    exact hcne h.1

theorem pageKey0_mem {c : BPage} (hsB : structB c = true) (hne : toList c ≠ []) :
    pageKey0 c ∈ keysOf (toList c) := by
  rw [pageKey0_eq_head c hsB hne]
  exact keyAt_mem (List.length_pos.mpr hne)

theorem keysOf_child_subset {kcs : List (Nat × BPage)} {kc : Nat × BPage}
    (h : kc ∈ kcs) {a : Nat} (ha : a ∈ keysOf (toList kc.2)) :
    a ∈ keysOf (toListL kcs) := by
  induction kcs with
  | nil => simp at h
  | cons x rest ih =>
      simp only [toListL, keysOf_append, List.mem_append]
      rcases List.mem_cons.mp h with rfl | h
      · exact Or.inl ha
      · exact Or.inr (ih h)

theorem keysOf_stored_subset {kcs : List (Nat × BPage)} (hsl : structL kcs = true)
    {a : Nat} (ha : a ∈ keysOf kcs) : a ∈ keysOf (toListL kcs) := by
  obtain ⟨kc, hmem, hk⟩ := List.mem_map.mp ha
  obtain ⟨hkey, hne, hsB⟩ := structL_forall.mp hsl kc hmem
  refine keysOf_child_subset hmem ?_
  rw [← hk, hkey]
  exact pageKey0_mem hsB hne

theorem segment_sorted {kcs : List (Nat × BPage)}
    (hs : sortedB (keysOf (toListL kcs)) = true) {i : Nat} (hi : i < kcs.length) :
    sortedB (keysOf (toList (kcs.getD i (0, default)).2)) = true := by
  rw [toListL_decomp hi, keysOf_append, keysOf_append] at hs
  exact (sortedB_append.mp (sortedB_append.mp hs).1).2.1

theorem segment_fresh {kcs : List (Nat × BPage)} {k : Nat}
    (habs : k ∉ keysOf (toListL kcs)) {i : Nat} (hi : i < kcs.length) :
    k ∉ keysOf (toList (kcs.getD i (0, default)).2) := by
  intro h
  exact habs (keysOf_child_subset (getD_mem _ hi) h)

theorem node_keys_sorted {kcs : List (Nat × BPage)} (hsl : structL kcs = true)
    (hs : sortedB (keysOf (toListL kcs)) = true) : sortedB (keysOf kcs) = true := by
  induction kcs with
  | nil => simp [keysOf, sortedB]
  | cons kc rest ih =>
      obtain ⟨k, c⟩ := kc
      have hall := structL_forall.mp hsl
      obtain ⟨hk, hcne, hcsB⟩ := hall (k, c) (List.mem_cons_self _ _)
      have hslr : structL rest = true :=
        structL_forall.mpr (fun x hx => hall x (List.mem_cons_of_mem _ hx))
      have hsplit : toListL ((k, c) :: rest) = toList c ++ toListL rest := rfl
      rw [hsplit, keysOf_append] at hs
      have hsr : sortedB (keysOf (toListL rest)) = true := (sortedB_append.mp hs).2.1
      have ihr := ih hslr hsr
      rw [show keysOf ((k, c) :: rest) = k :: keysOf rest from rfl, sortedB_cons]
      refine ⟨?_, ihr⟩
      intro b hb
      rcases rest with _ | ⟨⟨k1, c1⟩, rest2⟩
      · simp [keysOf] at hb
      · have hb1 : k1 = b := by simpa [keysOf] using hb
        obtain ⟨hk1, hne1, hsB1⟩ := hall (k1, c1) (by simp)
        have hkm : k ∈ keysOf (toList c) := by
          rw [show k = pageKey0 c from hk]
          exact pageKey0_mem hcsB hcne
        have hbm : k1 ∈ keysOf (toListL ((k1, c1) :: rest2)) := by
          refine keysOf_child_subset (List.mem_cons_self _ _) ?_
          rw [show k1 = pageKey0 c1 from hk1]
          exact pageKey0_mem hsB1 hne1
        rw [← hb1]
        exact sorted_cross hs hkm hbm

theorem stored_lt_of_mem_later {kcs : List (Nat × BPage)} (hsl : structL kcs = true)
    (hs : sortedB (keysOf (toListL kcs)) = true) {j i : Nat} (hj : j < i)
    (hi : i < kcs.length) {a : Nat}
    (ha : a ∈ keysOf (toList (kcs.getD i (0, default)).2)) : keyAt kcs j < a := by
  have hjlen : j < kcs.length := by omega
  have hdec := toListL_decomp hjlen
  rw [hdec, keysOf_append, keysOf_append] at hs
  obtain ⟨hkey, hne, hsB⟩ := structL_forall.mp hsl _ (getD_mem (0, default) hjlen)
  have hjm : keyAt kcs j ∈ keysOf (toList (kcs.getD j (0, default)).2) := by
    rw [keyAt, hkey]
    exact pageKey0_mem hsB hne
  have ham : a ∈ keysOf (toListL (kcs.drop (j + 1))) := by
    have hlen : i - (j + 1) < (kcs.drop (j + 1)).length := by
      simp only [List.length_drop]
      omega
    have hgd : (kcs.drop (j + 1)).getD (i - (j + 1)) (0, default) =
        kcs.getD i (0, default) := by
      rw [getD_drop]
      congr 1
      omega
    refine keysOf_child_subset (getD_mem (0, default) hlen) ?_
    rw [hgd]
    exact ha
  have h1 := (sortedB_append.mp hs).2.2
  refine h1 (keyAt kcs j) (List.mem_append_right _ hjm) a ham

theorem mem_lt_stored_later {kcs : List (Nat × BPage)} (hsl : structL kcs = true)
    (hs : sortedB (keysOf (toListL kcs)) = true) {i j : Nat} (hij : i < j)
    (hj : j < kcs.length) {a : Nat}
    (ha : a ∈ keysOf (toList (kcs.getD i (0, default)).2)) : a < keyAt kcs j := by
  have hilen : i < kcs.length := by omega
  have hdec := toListL_decomp hilen
  rw [hdec, keysOf_append, keysOf_append] at hs
  obtain ⟨hkey, hne, hsB⟩ := structL_forall.mp hsl _ (getD_mem (0, default) hj)
  have hjm : keyAt kcs j ∈ keysOf (toListL (kcs.drop (i + 1))) := by
    have hlen : j - (i + 1) < (kcs.drop (i + 1)).length := by
      simp only [List.length_drop]
      omega
    have hgd : (kcs.drop (i + 1)).getD (j - (i + 1)) (0, default) =
        kcs.getD j (0, default) := by
      rw [getD_drop]
      congr 1
      omega
    refine keysOf_child_subset (getD_mem (0, default) hlen) ?_
    rw [hgd, keyAt, hkey]
    exact pageKey0_mem hsB hne
  have h1 := (sortedB_append.mp hs).2.2
  exact h1 a (List.mem_append_right _ ha) (keyAt kcs j) hjm

/-! ## Descent-index loop specifications -/

theorem keyAt_lt_keyAt {α : Type} [Inhabited α] {es : List (Nat × α)}
    (hs : sortedB (keysOf es) = true) {i j : Nat} (hij : i < j)
    (hj : j < es.length) : keyAt es i < keyAt es j := by
  rw [keyAt_eq, keyAt_eq]
  exact sortedB_getD_lt hs hij (by simp [keysOf]; omega)

/-- Loop invariant / postcondition of `idxLoop` on a sorted page. -/
theorem idxLoop_spec {α : Type} [Inhabited α] {es : List (Nat × α)} {key : Nat}
    (hs : sortedB (keysOf es) = true) (l : Nat) (r : Int) (index : Nat)
    (hr : r < (es.length : Int)) (hil : index < l)
    (hi : index = 0 ∨ keyAt es index ≤ key)
    (hjs : ∀ j : Nat, index < j → j < l → key < keyAt es j) :
    (idxLoop es key l r index = 0 ∨ keyAt es (idxLoop es key l r index) ≤ key) ∧
    (∀ j : Nat, idxLoop es key l r index < j → (j : Int) ≤ r → key < keyAt es j) ∧
    index ≤ idxLoop es key l r index ∧
    ((idxLoop es key l r index : Int) ≤ max (index : Int) r) := by
  rw [idxLoop]
  by_cases hc : (l : Int) ≤ r
  · rw [dif_pos hc]
    have hml : l ≤ (((l : Int) + r) / 2).toNat := by omega
    have hmr : ((((l : Int) + r) / 2).toNat : Int) ≤ r := by omega
    by_cases hk : keyAt es (((l : Int) + r) / 2).toNat ≤ key
    · rw [if_pos hk]
      have hrec := idxLoop_spec hs ((((l : Int) + r) / 2).toNat + 1) r
        (((l : Int) + r) / 2).toNat hr (by omega) (Or.inr hk)
        (by intro j h1 h2; omega)
      refine ⟨hrec.1, hrec.2.1, by omega, ?_⟩
      have h4 := hrec.2.2.2
      rw [max_eq_right hmr] at h4
      have h5 : (index : Int) ≤ r := by omega
      rw [max_eq_right h5]
      exact h4
    · rw [if_neg hk]
      have hkm : key < keyAt es (((l : Int) + r) / 2).toNat := by omega
      have hrec := idxLoop_spec hs l (((l : Int) + r) / 2 - 1) index
        (by omega) hil hi hjs
      refine ⟨hrec.1, ?_, hrec.2.2.1, by have := hrec.2.2.2; omega⟩
      intro j hj hjr
      by_cases hjm : (j : Int) ≤ ((l : Int) + r) / 2 - 1
      · exact hrec.2.1 j hj hjm
      · have hjlen : j < es.length := by omega
        rcases Nat.lt_or_ge (((l : Int) + r) / 2).toNat j with h1 | h1
        · exact lt_trans hkm (keyAt_lt_keyAt hs h1 hjlen)
        · have : j = (((l : Int) + r) / 2).toNat := by omega
          rw [this]
          exact hkm
  · rw [dif_neg hc]
    refine ⟨hi, ?_, le_refl _, le_max_left _ _⟩
    intro j hj hjr
    exact hjs j hj (by omega)
termination_by ((r + 1 - (l : Int))).toNat
decreasing_by all_goals omega

theorem childIdx_bounds {α : Type} [Inhabited α] {es : List (Nat × α)}
    (hs : sortedB (keysOf es) = true) (hne : es ≠ []) (key : Nat) :
    childIdx es key < es.length ∧
    (childIdx es key = 0 ∨ keyAt es (childIdx es key) ≤ key) ∧
    (∀ j, childIdx es key < j → j < es.length → key < keyAt es j) := by
  have hlen : 1 ≤ es.length := List.length_pos.mpr hne
  have h := @idxLoop_spec _ _ es key hs 1 ((es.length : Int) - 1) 0 (by omega)
    (by omega) (Or.inl rfl) (by intro j h1 h2; omega)
  rw [childIdx]
  refine ⟨?_, h.1, ?_⟩
  · have h4 := h.2.2.2
    simp only [Nat.cast_zero] at h4
    rw [max_eq_right (by omega : (0 : Int) ≤ (es.length : Int) - 1)] at h4
    omega
  · intro j hj hjlen
    exact h.2.1 j hj (by omega)

/-- Loop invariant / postcondition of `ubLoop` on a sorted page. -/
theorem ubLoop_spec {α : Type} [Inhabited α] {es : List (Nat × α)} {key : Nat}
    (hs : sortedB (keysOf es) = true) (l r : Nat) (hlr : l ≤ r)
    (hr : r < es.length) (hl : keyAt es l ≤ key)
    (hhi : ∀ j, r < j → j < es.length → key < keyAt es j) :
    l ≤ ubLoop es key l r ∧ ubLoop es key l r ≤ r ∧
    keyAt es (ubLoop es key l r) ≤ key ∧
    (∀ j, ubLoop es key l r < j → j < es.length → key < keyAt es j) := by
  rw [ubLoop]
  by_cases hc : l < r
  · rw [if_pos hc]
    have hml : l + 1 ≤ (l + r + 1) / 2 := by omega
    have hmr : (l + r + 1) / 2 ≤ r := by omega
    by_cases hk : key < keyAt es ((l + r + 1) / 2)
    · rw [if_pos hk]
      have hrec := ubLoop_spec hs l ((l + r + 1) / 2 - 1) (by omega) (by omega) hl
        (by
          intro j hj hjlen
          rcases Nat.lt_or_ge j ((l + r + 1) / 2) with h1 | h1
          · have : j = (l + r + 1) / 2 - 1 + 1 := by omega
            omega
          · rcases Nat.eq_or_lt_of_le h1 with h2 | h2
            · rw [← h2]
              exact hk
            · exact lt_trans hk (keyAt_lt_keyAt hs h2 hjlen))
      exact ⟨hrec.1, by omega, hrec.2.2.1, hrec.2.2.2⟩
    · rw [if_neg hk]
      have hrec := ubLoop_spec hs ((l + r + 1) / 2) r hmr hr (by omega) hhi
      exact ⟨by omega, hrec.2.1, hrec.2.2.1, hrec.2.2.2⟩
  · rw [if_neg hc]
    have hleq : l = r := by omega
    refine ⟨le_refl _, by omega, hl, ?_⟩
    intro j hj hjlen
    exact hhi j (by omega) hjlen
termination_by r - l
decreasing_by all_goals omega

theorem childIdxRead_eq {α : Type} [Inhabited α] {es : List (Nat × α)}
    (hs : sortedB (keysOf es) = true) {i k : Nat} (hi : i < es.length)
    (hile : i = 0 ∨ keyAt es i ≤ k)
    (higt : ∀ j, i < j → j < es.length → k < keyAt es j) :
    childIdxRead es k = i := by
  rw [childIdxRead]
  by_cases hi0 : i = 0
  · subst hi0
    by_cases h1 : es.length = 1
    · rw [if_pos (Or.inl h1)]
    · have h2 : k < keyAt es 1 := higt 1 (by omega) (by omega)
      rw [if_pos (Or.inr h2)]
  · have hi1 : 1 ≤ i := by omega
    have hik : keyAt es i ≤ k := by
      rcases hile with h | h
      · exact absurd h hi0
      · exact h
    have h1k : keyAt es 1 ≤ k := by
      rcases Nat.eq_or_lt_of_le hi1 with h | h
      · rw [← h] at hik
        exact hik
      · exact le_of_lt (lt_of_lt_of_le (keyAt_lt_keyAt hs h hi) hik)
    have hcond : ¬ (es.length = 1 ∨ k < keyAt es 1) := by
      push_neg
      exact ⟨by omega, by omega⟩
    rw [if_neg hcond]
    obtain ⟨hu1, hu2, hu3, hu4⟩ := ubLoop_spec hs 1 (es.length - 1) (by omega)
      (by omega) h1k (by intro j hj hjlen; omega)
    rcases Nat.lt_trichotomy (ubLoop es k 1 (es.length - 1)) i with h | h | h
    · have := hu4 i h hi
      omega
    · exact h
    · have := higt _ h (by omega)
      omega

theorem lbLoop_hit {α : Type} [Inhabited α] {es : List (Nat × α)}
    (hs : sortedB (keysOf es) = true) {j k : Nat} (hj : j < es.length)
    (hk : keyAt es j = k) : lbLoop es k 0 (es.length - 1) = j := by
  obtain ⟨-, hlr, hlo, hor⟩ := @lbLoop_spec _ _ es k hs 0 (es.length - 1)
    (by omega) (by omega) (by intro i hi; omega)
  rcases Nat.lt_trichotomy (lbLoop es k 0 (es.length - 1)) j with h | h | h
  · have h1 := keyAt_lt_keyAt hs h hj
    rcases hor with h2 | h2
    · omega
    · omega
  · exact h
  · have := hlo j h
    omega

/-! ## Key bounds for the child segments around a descent index -/

theorem segment_bounds {kcs : List (Nat × BPage)} (hsl : structL kcs = true)
    (hs : sortedB (keysOf (toListL kcs)) = true) {i : Nat} (hi : i < kcs.length)
    {k : Nat} (hk : k ∈ keysOf (toList (kcs.getD i (0, default)).2)) :
    keyAt kcs i ≤ k ∧ ∀ j, i < j → j < kcs.length → k < keyAt kcs j := by
  obtain ⟨hkey, hne, hsB⟩ := structL_forall.mp hsl _ (getD_mem (0, default) hi)
  constructor
  · have hseg := segment_sorted hs hi
    have h1 := sorted_keyAt_zero_le hseg hk
    rw [keyAt, hkey, pageKey0_eq_head _ hsB hne]
    exact h1
  · intro j hj hjlen
    exact mem_lt_stored_later hsl hs hj hjlen hk

theorem keys_take_lt {kcs : List (Nat × BPage)} (hsl : structL kcs = true)
    (hs : sortedB (keysOf (toListL kcs)) = true) {i k : Nat} (hi : i < kcs.length)
    (hile : i = 0 ∨ keyAt kcs i ≤ k) :
    ∀ a ∈ keysOf (toListL (kcs.take i)), a < k := by
  intro a ha
  obtain ⟨x, hx, hxa⟩ := List.mem_map.mp ha
  obtain ⟨j, hj, hm⟩ := mem_toListL_split hx
  have hji : j < i := by
    simp only [List.length_take] at hj
    omega
  have hgd : (kcs.take i).getD j (0, default) = kcs.getD j (0, default) :=
    getD_take _ _ hji
  rw [hgd] at hm
  have ham : a ∈ keysOf (toList (kcs.getD j (0, default)).2) :=
    hxa ▸ List.mem_map_of_mem _ hm
  have h1 : a < keyAt kcs i := mem_lt_stored_later hsl hs hji hi ham
  rcases hile with h2 | h2
  · omega
  · omega

theorem keys_drop_gt {kcs : List (Nat × BPage)} (hsl : structL kcs = true)
    (hs : sortedB (keysOf (toListL kcs)) = true) {i k : Nat}
    (higt : ∀ j, i < j → j < kcs.length → k < keyAt kcs j) :
    ∀ a ∈ keysOf (toListL (kcs.drop (i + 1))), k < a := by
  intro a ha
  obtain ⟨x, hx, hxa⟩ := List.mem_map.mp ha
  obtain ⟨j, hj, hm⟩ := mem_toListL_split hx
  have hjlen : i + 1 + j < kcs.length := by
    simp only [List.length_drop] at hj
    omega
  have hgd : (kcs.drop (i + 1)).getD j (0, default) =
      kcs.getD (i + 1 + j) (0, default) := getD_drop _ _ _ _
  rw [hgd] at hm
  have ham : a ∈ keysOf (toList (kcs.getD (i + 1 + j) (0, default)).2) :=
    hxa ▸ List.mem_map_of_mem _ hm
  have h1 : keyAt kcs (i + 1 + j) ≤ a := (segment_bounds hsl hs hjlen ham).1
  have h2 : k < keyAt kcs (i + 1 + j) := higt _ (by omega) hjlen
  omega

/-! ## The tail-moving split loop -/

/-- `moveTail` on globally sorted contents splits the source at `m` and
prepends the moved tail, in order, to the destination. -/
theorem moveTail_spec {α : Type} [Inhabited α] (src dst : List (Nat × α)) (m : Nat)
    (hs : sortedB (keysOf src ++ keysOf dst) = true) :
    moveTail src dst m = (src.take m, src.drop m ++ dst) := by
  rw [moveTail]
  by_cases hc : m < src.length
  · rw [if_pos hc]
    have hne : src ≠ [] := by
      intro h
      rw [h] at hc
      simp at hc
    have hlt : src.length - 1 < src.length := by omega
    have hpair : (keyAt src (src.length - 1), valueAt src (src.length - 1)) =
        src.getD (src.length - 1) (0, default) := rfl
    have hlast : src.getD (src.length - 1) (0, default) = src.getLast hne := by
      rw [List.getD_eq_getElem _ _ hlt, List.getLast_eq_getElem]
    have hsrc : src.dropLast ++
        [(keyAt src (src.length - 1), valueAt src (src.length - 1))] = src := by
      rw [hpair, hlast]
      exact List.dropLast_append_getLast hne
    have hkmem : keyAt src (src.length - 1) ∈ keysOf src := keyAt_mem hlt
    have hddst : ∀ a ∈ keysOf dst, keyAt src (src.length - 1) < a := by
      intro a ha
      exact sorted_cross hs hkmem ha
    have hdsorted : sortedB (keysOf dst) = true := (sortedB_append.mp hs).2.1
    have habs : keyAt src (src.length - 1) ∉ keysOf dst := by
      intro h
      have := hddst _ h
      omega
    have hins : pageIns dst (keyAt src (src.length - 1))
        (valueAt src (src.length - 1)) =
        some ((keyAt src (src.length - 1), valueAt src (src.length - 1)) :: dst) := by
      rw [pageIns_eq hdsorted, if_neg habs, insPair_front _ hddst]
    rw [hins]
    simp only [Option.getD_some]
    have hs2 : sortedB (keysOf src.dropLast ++
        keysOf ((keyAt src (src.length - 1), valueAt src (src.length - 1)) :: dst)) =
        true := by
      rw [show keysOf ((keyAt src (src.length - 1),
        valueAt src (src.length - 1)) :: dst) =
        keyAt src (src.length - 1) :: keysOf dst from rfl]
      rw [← hsrc, keysOf_append] at hs
      simpa [List.append_assoc] using hs
    rw [moveTail_spec src.dropLast
      ((keyAt src (src.length - 1), valueAt src (src.length - 1)) :: dst) m hs2]
    have hdl : src.dropLast = src.take (src.length - 1) := List.dropLast_eq_take src
    have h1 : src.dropLast.take m = src.take m := by
      rw [hdl, List.take_take]
      congr 1
      omega
    have h2 : src.dropLast.drop m ++
        (keyAt src (src.length - 1), valueAt src (src.length - 1)) :: dst =
        src.drop m ++ dst := by
      conv_rhs => rw [← hsrc]
      rw [List.drop_append_of_le_length (by rw [hdl]; simp [List.length_take]; omega)]
      simp [List.append_assoc]
    rw [h1, h2]
  · rw [if_neg hc]
    rw [List.take_of_length_le (by omega), List.drop_eq_nil_of_le (by omega)]
    simp
termination_by src.length
decreasing_by simp [List.length_dropLast]; omega

/-! ## Indexed-child reductions for the recursive descent helpers -/

theorem flrAt_eq : ∀ (kcs : List (Nat × BPage)) (i : Nat), i < kcs.length →
    ∀ (key : Nat) (acc : List BPage),
    flrAt kcs i key acc =
      flr (kcs.getD i (0, default)).2 key (acc ++ [(kcs.getD i (0, default)).2])
  | [], i, hi, _, _ => by simp at hi
  | kc :: rest, 0, _, key, acc => by rw [flrAt, List.getD_cons_zero]
  | kc :: rest, i + 1, hi, key, acc => by
      rw [flrAt, List.getD_cons_succ]
      exact flrAt_eq rest i (by simpa using hi) key acc

theorem dfsInsAt_eq (lM iM : Nat) : ∀ (kcs : List (Nat × BPage)) (i : Nat),
    i < kcs.length → ∀ (key v : Nat),
    dfsInsAt lM iM kcs i key v = dfsIns lM iM (kcs.getD i (0, default)).2 key v
  | [], i, hi, _, _ => by simp at hi
  | kc :: rest, 0, _, key, v => by rw [dfsInsAt, List.getD_cons_zero]
  | kc :: rest, i + 1, hi, key, v => by
      rw [dfsInsAt, List.getD_cons_succ]
      exact dfsInsAt_eq lM iM rest i (by simpa using hi) key v

theorem dfsRmAt_eq (lM iM : Nat) : ∀ (kcs : List (Nat × BPage)) (i : Nat),
    i < kcs.length → ∀ (ls rs : Option BPage) (key : Nat),
    dfsRmAt lM iM kcs i ls rs key = dfsRm lM iM (kcs.getD i (0, default)).2 ls rs key
  | [], i, hi, _, _, _ => by simp at hi
  | kc :: rest, 0, _, ls, rs, key => by rw [dfsRmAt, List.getD_cons_zero]
  | kc :: rest, i + 1, hi, ls, rs, key => by
      rw [dfsRmAt, List.getD_cons_succ]
      exact dfsRmAt_eq lM iM rest i (by simpa using hi) ls rs key

/-! ## The read descent finds a present key -/

mutual
theorem flr_hit : ∀ (c : BPage) (k v : Nat) (acc : List BPage),
    structB c = true → sortedB (keysOf (toList c)) = true → (k, v) ∈ toList c →
    ∃ kvs j, (flr c k acc).1 = some (.leaf kvs, j) ∧ valueAt kvs j = v
  | .leaf kvs, k, v, acc, _, hs, hmem => by
      rw [show toList (.leaf kvs) = kvs from rfl] at hs hmem
      obtain ⟨j, hj, hget⟩ := List.mem_iff_getElem.mp hmem
      have hkj : keyAt kvs j = k := by
        rw [keyAt, List.getD_eq_getElem _ _ hj, hget]
      have hlb : lbLoop kvs k 0 (kvs.length - 1) = j := lbLoop_hit hs hj hkj
      rw [flr, hlb, if_pos hkj]
      refine ⟨kvs, j, rfl, ?_⟩
      rw [valueAt, List.getD_eq_getElem _ _ hj, hget]
  | .node kcs, k, v, acc, hsB, hs, hmem => by
      simp only [structB, Bool.and_eq_true, Bool.not_eq_true'] at hsB
      obtain ⟨hnil, hsl⟩ := hsB
      obtain ⟨i, hi, hmi⟩ := mem_toListL_split hmem
      have hkm : k ∈ keysOf (toList (kcs.getD i (0, default)).2) :=
        List.mem_map_of_mem _ hmi
      have hks : sortedB (keysOf kcs) = true := node_keys_sorted hsl hs
      obtain ⟨hle0, hgt⟩ := segment_bounds hsl hs hi hkm
      have hcir : childIdxRead kcs k = i := childIdxRead_eq hks hi (Or.inr hle0) hgt
      rw [flr, hcir]
      exact flrAt_hit kcs i k v acc hi
        ((structL_forall.mp hsl _ (getD_mem _ hi)).2.2) (segment_sorted hs hi) hmi

theorem flrAt_hit : ∀ (kcs : List (Nat × BPage)) (i k v : Nat) (acc : List BPage),
    i < kcs.length →
    structB (kcs.getD i (0, default)).2 = true →
    sortedB (keysOf (toList (kcs.getD i (0, default)).2)) = true →
    (k, v) ∈ toList (kcs.getD i (0, default)).2 →
    ∃ kvs j, (flrAt kcs i k acc).1 = some (.leaf kvs, j) ∧ valueAt kvs j = v
  | [], i, _, _, _, hi, _, _, _ => by simp at hi
  | kc :: rest, 0, k, v, acc, _, hsB, hs, hmem => by
      rw [flrAt]
      exact flr_hit kc.2 k v (acc ++ [kc.2]) (by simpa using hsB)
        (by simpa using hs) (by simpa using hmem)
  | kc :: rest, i + 1, k, v, acc, hi, hsB, hs, hmem => by
      rw [flrAt]
      exact flrAt_hit rest i k v acc (by simpa using hi) (by simpa using hsB)
        (by simpa using hs) (by simpa using hmem)
end

/-- On a structurally well-formed tree with globally sorted keys, `GetValue`
returns the stored value of every present key. -/
theorem getValue_mem {t : BPage} {k v : Nat} (hsB : structB t = true)
    (hs : sortedB (keysOf (toList t)) = true) (hmem : (k, v) ∈ toList t) :
    getValue t k = some v := by
  have hne : nodeSize t ≠ 0 := by
    cases t with
    | leaf kvs =>
        have h1 : kvs ≠ [] := by
          intro h
          rw [show toList (.leaf kvs) = kvs from rfl, h] at hmem
          simp at hmem
        have := List.length_pos.mpr h1
        simp only [nodeSize]
        omega
    | node kcs =>
        simp only [structB, Bool.and_eq_true, Bool.not_eq_true'] at hsB
        have h1 : kcs ≠ [] := by
          intro h
          rw [h] at hsB
          simp at hsB
        have := List.length_pos.mpr h1
        simp only [nodeSize]
        omega
  obtain ⟨kvs, j, hres, hval⟩ := flr_hit t k v [t] hsB hs hmem
  rw [getValue, findLeafRead, if_neg hne]
  simp only [hres, leafKVs, hval]

/-! ## Small facts about `List.set` used by the parent fix-up -/

theorem keysOf_set_snd {α : Type} (d : Nat × α) :
    ∀ (l : List (Nat × α)) (i : Nat) (x : α),
    keysOf (l.set i ((l.getD i d).1, x)) = keysOf l
  | [], _, _ => rfl
  | e :: rest, 0, x => by simp [keysOf]
  | e :: rest, i + 1, x => by
      simp only [List.getD_cons_succ, List.set_cons_succ]
      show e.1 :: keysOf ((rest.set i ((rest.getD i d).1, x))) = e.1 :: keysOf rest
      rw [keysOf_set_snd d rest i x]

theorem take_set_eq {α : Type} : ∀ (l : List α) (i : Nat) (x : α),
    (l.set i x).take i = l.take i
  | [], _, _ => rfl
  | e :: rest, 0, x => rfl
  | e :: rest, i + 1, x => by
      simp only [List.set_cons_succ, List.take_succ_cons, List.cons.injEq, true_and]
      exact take_set_eq rest i x

theorem drop_succ_set_eq {α : Type} : ∀ (l : List α) (i : Nat) (x : α),
    (l.set i x).drop (i + 1) = l.drop (i + 1)
  | [], _, _ => rfl
  | e :: rest, 0, x => rfl
  | e :: rest, i + 1, x => by
      simp only [List.set_cons_succ, List.drop_succ_cons]
      exact drop_succ_set_eq rest i x

theorem keyAt_congr_keys {α β : Type} [Inhabited α] [Inhabited β]
    {l1 : List (Nat × α)} {l2 : List (Nat × β)}
    (h : keysOf l1 = keysOf l2) (i : Nat) : keyAt l1 i = keyAt l2 i := by
  rw [keyAt_eq, keyAt_eq, h]

theorem keysOf_take_eq {α : Type} (l : List (Nat × α)) (i : Nat) :
    keysOf (l.take i) = (keysOf l).take i := List.map_take _ _ _

theorem keysOf_drop_eq {α : Type} (l : List (Nat × α)) (i : Nat) :
    keysOf (l.drop i) = (keysOf l).drop i := List.map_drop _ _ _

theorem sortedB_rm_mid {α : Type} {l : List (Nat × α)}
    (hs : sortedB (keysOf l) = true) (i : Nat) :
    sortedB (keysOf (l.take i ++ l.drop (i + 1))) = true := by
  rw [keysOf_append, keysOf_take_eq, keysOf_drop_eq,
    ← List.eraseIdx_eq_take_drop_succ]
  exact sortedB_of_sublist (List.eraseIdx_sublist _ _) hs

/-- The parent fix-up after a child update during `DfsInsert`: remove the
child's pre-descent first key, reinsert the child under its current first
key — on a sorted internal page this replaces the entry in place. -/
theorem insFix_spec {kcs : List (Nat × BPage)} (hks : sortedB (keysOf kcs) = true)
    {i : Nat} (hi : i < kcs.length) (son : BPage) {k : Nat}
    (hh : pageKey0 son = k ∨ pageKey0 son = keyAt kcs i)
    (hile : i = 0 ∨ keyAt kcs i ≤ k)
    (higt : ∀ j, i < j → j < kcs.length → k < keyAt kcs j) :
    insFix kcs i son (keyAt kcs i) =
      kcs.take i ++ (pageKey0 son, son) :: kcs.drop (i + 1) := by
  have hkeysA : keysOf (kcs.set i ((kcs.getD i (0, default)).1, son)) = keysOf kcs :=
    keysOf_set_snd (0, default) kcs i son
  have hsA : sortedB (keysOf (kcs.set i ((kcs.getD i (0, default)).1, son))) = true := by
    rw [hkeysA]
    exact hks
  have hkAi : ∀ j, keyAt (kcs.set i ((kcs.getD i (0, default)).1, son)) j =
      keyAt kcs j := keyAt_congr_keys hkeysA
  have hmem : keyAt kcs i ∈ keysOf (kcs.set i ((kcs.getD i (0, default)).1, son)) := by
    rw [hkeysA]
    exact keyAt_mem hi
  have hAlen : (kcs.set i ((kcs.getD i (0, default)).1, son)).length = kcs.length := by
    simp
  have hrm : pageRmD (kcs.set i ((kcs.getD i (0, default)).1, son)) (keyAt kcs i) =
      kcs.take i ++ kcs.drop (i + 1) := by
    rw [pageRmD, pageRm_eq hsA, if_pos hmem, Option.getD_some,
      rmPair_eq_rmAt (keyAt kcs i) _ i (by omega)
        (by
          intro j hj
          rw [hkAi]
          have := keyAt_lt_keyAt hks hj hi
          omega)
        (hkAi i),
      rmAt, take_set_eq, drop_succ_set_eq]
  have hsB : sortedB (keysOf (kcs.take i ++ kcs.drop (i + 1))) = true :=
    sortedB_rm_mid hks i
  have htlt : ∀ a ∈ keysOf (kcs.take i), a < pageKey0 son := by
    intro a ha
    obtain ⟨j, hji, hjlen, hja⟩ := mem_keysOf_take ha
    have h1 : keyAt kcs j < keyAt kcs i := keyAt_lt_keyAt hks hji hi
    rcases hh with h2 | h2
    · rcases hile with h3 | h3
      · omega
      · rw [h2]
        omega
    · rw [h2]
      omega
  have hdgt : ∀ a ∈ keysOf (kcs.drop (i + 1)), pageKey0 son < a := by
    intro a ha
    obtain ⟨j, hji, hjlen, hja⟩ := mem_keysOf_drop ha
    have h1 : keyAt kcs i < keyAt kcs j := keyAt_lt_keyAt hks (by omega) hjlen
    rcases hh with h2 | h2
    · rw [h2]
      have := higt j (by omega) hjlen
      omega
    · rw [h2]
      omega
  have habs : pageKey0 son ∉ keysOf (kcs.take i ++ kcs.drop (i + 1)) := by
    rw [keysOf_append]
    intro h
    rcases List.mem_append.mp h with h | h
    · have := htlt _ h
      omega
    · have := hdgt _ h
      omega
  rw [insFix, hrm, pageInsD, pageIns_eq hsB, if_neg habs, Option.getD_some,
    insPair_append_left _ htlt, insPair_front _ hdgt]

/-- `internalSplit` splits the sorted insertion of `(nk, np)` into two
halves whose concatenation is that insertion. -/
theorem internalSplit_spec (iM : Nat) (C : List (Nat × BPage)) (nk : Nat)
    (np : BPage) (hs : sortedB (keysOf C) = true) (hfresh : nk ∉ keysOf C)
    (hne : C ≠ []) :
    (internalSplit iM C nk np).1 ++ (internalSplit iM C nk np).2 =
      insPair C nk np ∧
    (1 ≤ minSize iM → (internalSplit iM C nk np).1 ≠ []) ∧
    (internalSplit iM C nk np).2 ≠ [] := by
  rw [internalSplit]
  have hlen : 1 ≤ C.length := List.length_pos.mpr hne
  by_cases hc : keyAt C (C.length - 1) < nk
  · rw [if_pos hc]
    have hall : ∀ a ∈ keysOf C, a < nk := by
      intro a ha
      obtain ⟨j, hjlen, hja⟩ := mem_keysOf_iff.mp ha
      rcases Nat.eq_or_lt_of_le (by omega : j ≤ C.length - 1) with h1 | h1
      · rw [← hja, h1]
        exact hc
      · have := keyAt_lt_keyAt hs h1 (by omega)
        omega
    have hdst : pageInsD ([] : List (Nat × BPage)) nk np = [(nk, np)] := rfl
    rw [hdst]
    have hs2 : sortedB (keysOf C ++ keysOf [(nk, np)]) = true := by
      rw [show keysOf [(nk, np)] = [nk] from rfl, sortedB_append]
      refine ⟨hs, by simp [sortedB], ?_⟩
      intro a ha b hb
      simp only [List.mem_singleton] at hb
      rw [hb]
      exact hall a ha
    rw [moveTail_spec _ _ _ hs2]
    refine ⟨?_, ?_, by simp⟩
    · show C.take (minSize iM) ++ (C.drop (minSize iM) ++ [(nk, np)]) =
        insPair C nk np
      rw [← List.append_assoc, List.take_append_drop]
      exact (insPair_back _ hall).symm
    · intro hm
      simp only [ne_eq, List.take_eq_nil_iff, not_or]
      exact ⟨by omega, hne⟩
  · rw [if_neg hc]
    have hlastmem : keyAt C (C.length - 1) ∈ keysOf C := keyAt_mem (by omega)
    have hnklt : nk < keyAt C (C.length - 1) := by
      rcases Nat.lt_or_ge nk (keyAt C (C.length - 1)) with h | h
      · exact h
      · have h2 : nk = keyAt C (C.length - 1) := by omega
        exact absurd (h2 ▸ hlastmem) hfresh
    have hdlsorted : sortedB (keysOf C.dropLast) = true := by
      rw [List.dropLast_eq_take, keysOf_take_eq]
      exact sortedB_of_sublist (List.take_sublist _ _) hs
    have hdlfresh : nk ∉ keysOf C.dropLast := by
      intro h
      rw [List.dropLast_eq_take, keysOf_take_eq] at h
      exact hfresh (List.mem_of_mem_take h)
    have hkcs2 : pageInsD C.dropLast nk np = insPair C.dropLast nk np := by
      rw [pageInsD, pageIns_eq hdlsorted, if_neg hdlfresh, Option.getD_some]
    have hdst : pageInsD ([] : List (Nat × BPage)) (keyAt C (C.length - 1))
        (valueAt C (C.length - 1)) =
        [(keyAt C (C.length - 1), valueAt C (C.length - 1))] := rfl
    rw [hkcs2, hdst]
    have hdllt : ∀ a ∈ keysOf C.dropLast, a < keyAt C (C.length - 1) := by
      intro a ha
      rw [List.dropLast_eq_take] at ha
      obtain ⟨j, hji, hjlen, hja⟩ := mem_keysOf_take ha
      have := keyAt_lt_keyAt hs (by omega : j < C.length - 1) (by omega)
      omega
    have hs3 : sortedB (keysOf (insPair C.dropLast nk np) ++
        keysOf [(keyAt C (C.length - 1), valueAt C (C.length - 1))]) = true := by
      rw [show keysOf [(keyAt C (C.length - 1), valueAt C (C.length - 1))] =
        [keyAt C (C.length - 1)] from rfl, sortedB_append]
      refine ⟨sortedB_insPair np hdlsorted hdlfresh, by simp [sortedB], ?_⟩
      intro a ha b hb
      simp only [List.mem_singleton] at hb
      rw [hb]
      rcases mem_keysOf_insPair.mp ha with rfl | h
      · exact hnklt
      · exact hdllt _ h
    rw [moveTail_spec _ _ _ hs3]
    refine ⟨?_, ?_, by simp⟩
    · show (insPair C.dropLast nk np).take (minSize iM) ++
        ((insPair C.dropLast nk np).drop (minSize iM) ++
          [(keyAt C (C.length - 1), valueAt C (C.length - 1))]) = insPair C nk np
      rw [← List.append_assoc, List.take_append_drop]
      have h4 : ∀ a ∈ keysOf [(keyAt C (C.length - 1), valueAt C (C.length - 1))],
          nk < a := by
        intro a ha
        simp only [show keysOf [(keyAt C (C.length - 1), valueAt C (C.length - 1))] =
          [keyAt C (C.length - 1)] from rfl, List.mem_singleton] at ha
        omega
      rw [← insPair_append_right np h4]
      have hpair : (keyAt C (C.length - 1), valueAt C (C.length - 1)) =
          C.getLast hne := by
        show C.getD (C.length - 1) (0, default) = C.getLast hne
        rw [List.getD_eq_getElem _ _ (by omega), List.getLast_eq_getElem]
      rw [hpair, List.dropLast_append_getLast hne]
    · intro hm
      simp only [ne_eq, List.take_eq_nil_iff, not_or]
      exact ⟨by omega, insPair_ne_nil _ _ _⟩

theorem insPair_length {α : Type} (es : List (Nat × α)) (k : Nat) (v : α) :
    (insPair es k v).length = es.length + 1 := by
  induction es with
  | nil => rfl
  | cons e rest ih =>
      obtain ⟨a, w⟩ := e
      by_cases h : k < a <;> simp [insPair, h, ih]

theorem sortedB_replace_mid {l : List Nat} {i : Nat} (hi : i < l.length)
    (hs : sortedB l = true) {a : Nat}
    (hlt : ∀ b ∈ l.take i, b < a) (hgt : ∀ b ∈ l.drop (i + 1), a < b) :
    sortedB (l.take i ++ a :: l.drop (i + 1)) = true := by
  have hp : List.Pairwise (· < ·) (l.take i ++ l.drop i) := by
    rw [List.take_append_drop]
    exact sortedB_pairwise hs
  obtain ⟨hp1, hp2, hcross⟩ := List.pairwise_append.mp hp
  rw [sortedB_iff_pairwise, List.pairwise_append]
  refine ⟨hp1, ?_, ?_⟩
  · rw [List.pairwise_cons]
    refine ⟨hgt, ?_⟩
    have h2 := hp2
    rw [List.drop_eq_getElem_cons hi] at h2
    exact (List.pairwise_cons.mp h2).2
  · intro b hb c hc
    rcases List.mem_cons.mp hc with rfl | hc
    · exact hlt b hb
    · refine hcross b hb c ?_
      rw [List.drop_eq_getElem_cons hi]
      exact List.mem_cons_of_mem _ hc

/-! ## Correctness of `DfsInsert` on well-formed subtrees -/

mutual
/-- `DfsInsert` of a fresh key on a structurally well-formed, sorted
subtree succeeds, reports the subtree's pre-descent `KeyAt(0)` as
`pre_key`, and produces page(s) whose concatenated contents are the sorted
insertion of the new pair. -/
theorem dfsIns_spec : ∀ (lM iM : Nat) (c : BPage) (k v : Nat),
    2 ≤ lM → 2 ≤ iM →
    structB c = true → sortedB (keysOf (toList c)) = true →
    k ∉ keysOf (toList c) →
    ∃ c2 sp, dfsIns lM iM c k v = some (c2, sp, pageKey0 c) ∧
      structB c2 = true ∧ toList c2 ≠ [] ∧
      (sp = none → toList c2 = insPair (toList c) k v) ∧
      (∀ np, sp = some np → structB np = true ∧ toList np ≠ [] ∧
        toList c2 ++ toList np = insPair (toList c) k v)
  | lM, iM, .leaf kvs, k, v, hlM, hiM, hsB, hs, habs => by
      rw [show toList (.leaf kvs) = kvs from rfl] at hs habs
      have hins : pageIns kvs k v = some (insPair kvs k v) := by
        rw [pageIns_eq hs, if_neg habs]
      by_cases hlen : (insPair kvs k v).length ≠ lM
      · refine ⟨.leaf (insPair kvs k v), none, ?_, rfl, insPair_ne_nil _ _ _,
          fun _ => rfl, ?_⟩
        · rw [dfsIns]
          simp only [hins]
          rw [if_pos hlen]
          rfl
        · intro np h
          exact absurd h (by simp)
      · rw [not_not] at hlen
        have hm1 : 1 ≤ minSize lM := by rw [minSize]; omega
        have hmlt : minSize lM < lM := by rw [minSize]; omega
        have hms : sortedB (keysOf (insPair kvs k v) ++
            keysOf ([] : List (Nat × Nat))) = true := by
          rw [show keysOf ([] : List (Nat × Nat)) = [] from rfl, List.append_nil]
          exact sortedB_insPair v hs habs
        have hmv : moveTail (insPair kvs k v) [] (minSize lM) =
            ((insPair kvs k v).take (minSize lM),
             (insPair kvs k v).drop (minSize lM)) := by
          rw [moveTail_spec _ _ _ hms, List.append_nil]
        refine ⟨.leaf ((insPair kvs k v).take (minSize lM)),
          some (.leaf ((insPair kvs k v).drop (minSize lM))), ?_, rfl, ?_, ?_, ?_⟩
        · rw [dfsIns]
          simp only [hins]
          rw [if_neg (by omega), hmv]
          rfl
        · show (insPair kvs k v).take (minSize lM) ≠ []
          simp only [ne_eq, List.take_eq_nil_iff, not_or]
          exact ⟨by omega, insPair_ne_nil _ _ _⟩
        · intro h
          exact absurd h (by simp)
        · intro np h
          obtain rfl : BPage.leaf ((insPair kvs k v).drop (minSize lM)) = np := by
            simpa using h
          refine ⟨rfl, ?_, ?_⟩
          · show (insPair kvs k v).drop (minSize lM) ≠ []
            rw [ne_eq, List.drop_eq_nil_iff]
            rw [hlen]
            omega
          · show (insPair kvs k v).take (minSize lM) ++
              (insPair kvs k v).drop (minSize lM) = insPair kvs k v
            exact List.take_append_drop _ _
  | lM, iM, .node kcs, k, v, hlM, hiM, hsB, hs, habs => by
      rw [show toList (.node kcs) = toListL kcs from rfl] at hs habs
      simp only [structB, Bool.and_eq_true, Bool.not_eq_true'] at hsB
      obtain ⟨hnil, hsl⟩ := hsB
      have hkne : kcs ≠ [] := by
        intro h
        rw [h] at hnil
        simp at hnil
      have hks : sortedB (keysOf kcs) = true := node_keys_sorted hsl hs
      obtain ⟨hilt, hile, higt⟩ := childIdx_bounds hks hkne k
      obtain ⟨hkeyi, hcne, hcsB⟩ := structL_forall.mp hsl _ (getD_mem (0, default) hilt)
      have hkeyi2 : keyAt kcs (childIdx kcs k) =
          pageKey0 (kcs.getD (childIdx kcs k) (0, default)).2 := hkeyi
      obtain ⟨son, sp, heq, hsonB, hsonne, hnone, hsome⟩ :=
        dfsInsAt_spec lM iM kcs (childIdx kcs k) k v hlM hiM hilt hcsB
          (segment_sorted hs hilt) (segment_fresh habs hilt)
      have hPlt := keys_take_lt hsl hs hilt hile
      have hQgt := keys_drop_gt hsl hs higt
      have hdecomp := toListL_decomp hilt
      rcases sp with _ | np
      · have hlist : toList son =
            insPair (toList (kcs.getD (childIdx kcs k) (0, default)).2) k v :=
          hnone rfl
        have hhead : pageKey0 son = k ∨
            pageKey0 son = keyAt kcs (childIdx kcs k) := by
          have h1 : pageKey0 son = keyAt (toList son) 0 :=
            pageKey0_eq_head son hsonB hsonne
          rw [hlist] at h1
          rcases insPair_head_cases
              (toList (kcs.getD (childIdx kcs k) (0, default)).2) k v
            with h2 | ⟨h2a, h2b⟩
          · exact Or.inl (by rw [h1, h2])
          · refine Or.inr ?_
            rw [h1, h2b, hkeyi2, pageKey0_eq_head _ hcsB hcne]
        have hfix := insFix_spec hks hilt son hhead hile higt
        rw [hkeyi2] at hfix
        have hslC : structL (kcs.take (childIdx kcs k) ++
            (pageKey0 son, son) :: kcs.drop (childIdx kcs k + 1)) = true := by
          rw [structL_forall]
          intro x hx
          rcases List.mem_append.mp hx with hx | hx
          · exact structL_forall.mp hsl x (List.mem_of_mem_take hx)
          · rcases List.mem_cons.mp hx with rfl | hx
            · exact ⟨rfl, hsonne, hsonB⟩
            · exact structL_forall.mp hsl x (List.mem_of_mem_drop hx)
        have htol : toListL (kcs.take (childIdx kcs k) ++
            (pageKey0 son, son) :: kcs.drop (childIdx kcs k + 1)) =
            insPair (toListL kcs) k v := by
          rw [toListL_append]
          rw [show toListL ((pageKey0 son, son) ::
            kcs.drop (childIdx kcs k + 1)) =
            toList son ++ toListL (kcs.drop (childIdx kcs k + 1)) from rfl]
          rw [hlist, hdecomp, insPair_append_right v hQgt,
            insPair_append_left v hPlt]
          simp [List.append_assoc]
        refine ⟨.node (kcs.take (childIdx kcs k) ++
          (pageKey0 son, son) :: kcs.drop (childIdx kcs k + 1)), none,
          ?_, ?_, ?_, ?_, ?_⟩
        · rw [dfsIns]
          simp only [heq]
          rw [hfix]
          rfl
        · simp only [structB, Bool.and_eq_true, Bool.not_eq_true']
          exact ⟨by simp, hslC⟩
        · show toListL (kcs.take (childIdx kcs k) ++
            (pageKey0 son, son) :: kcs.drop (childIdx kcs k + 1)) ≠ []
          rw [htol]
          exact insPair_ne_nil _ _ _
        · intro _
          exact htol
        · intro np h
          exact absurd h (by simp)
      · obtain ⟨hnpB, hnpne, hconc⟩ := hsome np rfl
        have hsegsorted := segment_sorted hs hilt
        have hsegfresh := segment_fresh habs hilt
        have hsortedIns : sortedB (keysOf (insPair
            (toList (kcs.getD (childIdx kcs k) (0, default)).2) k v)) = true :=
          sortedB_insPair v hsegsorted hsegfresh
        have hsonk : pageKey0 son = keyAt (insPair
            (toList (kcs.getD (childIdx kcs k) (0, default)).2) k v) 0 := by
          rw [pageKey0_eq_head son hsonB hsonne, ← hconc,
            keyAt_append_left _ (List.length_pos.mpr hsonne)]
        have hhead : pageKey0 son = k ∨
            pageKey0 son = keyAt kcs (childIdx kcs k) := by
          rcases insPair_head_cases
              (toList (kcs.getD (childIdx kcs k) (0, default)).2) k v
            with h2 | ⟨h2a, h2b⟩
          · exact Or.inl (by rw [hsonk, h2])
          · refine Or.inr ?_
            rw [hsonk, h2b, hkeyi2, pageKey0_eq_head _ hcsB hcne]
        have hfix := insFix_spec hks hilt son hhead hile higt
        rw [hkeyi2] at hfix
        have hnkmem : pageKey0 np ∈ keysOf (insPair
            (toList (kcs.getD (childIdx kcs k) (0, default)).2) k v) := by
          rw [← hconc, keysOf_append]
          exact List.mem_append_right _ (pageKey0_mem hnpB hnpne)
        have hsonlt : pageKey0 son < pageKey0 np := by
          have hsrt : sortedB (keysOf (toList son) ++ keysOf (toList np)) = true := by
            rw [← keysOf_append, hconc]
            exact hsortedIns
          exact sorted_cross hsrt (pageKey0_mem hsonB hsonne)
            (pageKey0_mem hnpB hnpne)
        have hnk_cases := mem_keysOf_insPair.mp hnkmem
        have htake_son : ∀ a ∈ keysOf (kcs.take (childIdx kcs k)),
            a < pageKey0 son := by
          intro a ha
          obtain ⟨j, hji, hjlen, hja⟩ := mem_keysOf_take ha
          have h1 : keyAt kcs j < keyAt kcs (childIdx kcs k) :=
            keyAt_lt_keyAt hks hji hilt
          rcases hhead with h2 | h2
          · rcases hile with h3 | h3
            · omega
            · rw [h2]
              omega
          · rw [h2]
            omega
        have hdrop_son : ∀ a ∈ keysOf (kcs.drop (childIdx kcs k + 1)),
            pageKey0 son < a := by
          intro a ha
          obtain ⟨j, hji, hjlen, hja⟩ := mem_keysOf_drop ha
          have h1 : keyAt kcs (childIdx kcs k) < keyAt kcs j :=
            keyAt_lt_keyAt hks (by omega) hjlen
          rcases hhead with h2 | h2
          · rw [h2]
            have := higt j (by omega) hjlen
            omega
          · rw [h2]
            omega
        have htake_nk : ∀ a ∈ keysOf (kcs.take (childIdx kcs k)),
            a < pageKey0 np := by
          intro a ha
          obtain ⟨j, hji, hjlen, hja⟩ := mem_keysOf_take ha
          rcases hnk_cases with h2 | h2
          · have h3 : keyAt kcs j < keyAt kcs (childIdx kcs k) :=
              keyAt_lt_keyAt hks hji hilt
            rcases hile with h4 | h4
            · omega
            · rw [h2]
              omega
          · have := stored_lt_of_mem_later hsl hs hji hilt h2
            omega
        have hdrop_nk : ∀ a ∈ keysOf (kcs.drop (childIdx kcs k + 1)),
            pageKey0 np < a := by
          intro a ha
          obtain ⟨j, hji, hjlen, hja⟩ := mem_keysOf_drop ha
          rcases hnk_cases with h2 | h2
          · rw [h2]
            have := higt j (by omega) hjlen
            omega
          · have := mem_lt_stored_later hsl hs
              (by omega : childIdx kcs k < j) hjlen h2
            omega
        have hCkeys : keysOf (kcs.take (childIdx kcs k) ++
            (pageKey0 son, son) :: kcs.drop (childIdx kcs k + 1)) =
            (keysOf kcs).take (childIdx kcs k) ++
            pageKey0 son :: (keysOf kcs).drop (childIdx kcs k + 1) := by
          rw [keysOf_append, keysOf_take_eq]
          rw [show keysOf ((pageKey0 son, son) ::
            kcs.drop (childIdx kcs k + 1)) =
            pageKey0 son :: keysOf (kcs.drop (childIdx kcs k + 1)) from rfl,
            keysOf_drop_eq]
        have hCsorted : sortedB (keysOf (kcs.take (childIdx kcs k) ++
            (pageKey0 son, son) :: kcs.drop (childIdx kcs k + 1))) = true := by
          rw [hCkeys]
          refine sortedB_replace_mid ?_ hks ?_ ?_
          · simp only [keysOf, List.length_map]
            exact hilt
          · intro b hb
            rw [← keysOf_take_eq] at hb
            exact htake_son b hb
          · intro b hb
            rw [← keysOf_drop_eq] at hb
            exact hdrop_son b hb
        have hnkC : pageKey0 np ∉ keysOf (kcs.take (childIdx kcs k) ++
            (pageKey0 son, son) :: kcs.drop (childIdx kcs k + 1)) := by
          rw [hCkeys]
          intro h
          rcases List.mem_append.mp h with h | h
          · rw [← keysOf_take_eq] at h
            have := htake_nk _ h
            omega
          · rcases List.mem_cons.mp h with h | h
            · omega
            · rw [← keysOf_drop_eq] at h
              have := hdrop_nk _ h
              omega
        have hslD : structL (kcs.take (childIdx kcs k) ++
            (pageKey0 son, son) :: (pageKey0 np, np) ::
            kcs.drop (childIdx kcs k + 1)) = true := by
          rw [structL_forall]
          intro x hx
          rcases List.mem_append.mp hx with hx | hx
          · exact structL_forall.mp hsl x (List.mem_of_mem_take hx)
          · rcases List.mem_cons.mp hx with rfl | hx
            · exact ⟨rfl, hsonne, hsonB⟩
            · rcases List.mem_cons.mp hx with rfl | hx
              · exact ⟨rfl, hnpne, hnpB⟩
              · exact structL_forall.mp hsl x (List.mem_of_mem_drop hx)
        have hinsC : insPair (kcs.take (childIdx kcs k) ++
            (pageKey0 son, son) :: kcs.drop (childIdx kcs k + 1))
            (pageKey0 np) np =
            kcs.take (childIdx kcs k) ++ (pageKey0 son, son) ::
            (pageKey0 np, np) :: kcs.drop (childIdx kcs k + 1) := by
          rw [insPair_append_left np htake_nk]
          rw [show insPair ((pageKey0 son, son) ::
            kcs.drop (childIdx kcs k + 1)) (pageKey0 np) np =
            (pageKey0 son, son) ::
            insPair (kcs.drop (childIdx kcs k + 1)) (pageKey0 np) np from by
              rw [insPair, if_neg (by omega)]]
          rw [insPair_front np hdrop_nk]
        have htolD : toListL (kcs.take (childIdx kcs k) ++
            (pageKey0 son, son) :: (pageKey0 np, np) ::
            kcs.drop (childIdx kcs k + 1)) = insPair (toListL kcs) k v := by
          rw [toListL_append]
          rw [show toListL ((pageKey0 son, son) :: (pageKey0 np, np) ::
            kcs.drop (childIdx kcs k + 1)) = toList son ++ (toList np ++
            toListL (kcs.drop (childIdx kcs k + 1))) from rfl]
          rw [hdecomp, insPair_append_right v hQgt, insPair_append_left v hPlt,
            ← hconc]
          simp [List.append_assoc]
        have hClen : (kcs.take (childIdx kcs k) ++
            (pageKey0 son, son) :: kcs.drop (childIdx kcs k + 1)).length =
            kcs.length := by
          simp only [List.length_append, List.length_take, List.length_cons,
            List.length_drop]
          omega
        by_cases hCl : kcs.length ≠ iM
        · have hins2 : pageInsD (kcs.take (childIdx kcs k) ++
              (pageKey0 son, son) :: kcs.drop (childIdx kcs k + 1))
              (pageKey0 np) np =
              kcs.take (childIdx kcs k) ++ (pageKey0 son, son) ::
              (pageKey0 np, np) :: kcs.drop (childIdx kcs k + 1) := by
            rw [pageInsD, pageIns_eq hCsorted, if_neg hnkC, Option.getD_some, hinsC]
          refine ⟨.node (kcs.take (childIdx kcs k) ++ (pageKey0 son, son) ::
            (pageKey0 np, np) :: kcs.drop (childIdx kcs k + 1)), none,
            ?_, ?_, ?_, ?_, ?_⟩
          · rw [dfsIns]
            simp only [heq]
            rw [hfix, if_pos (by rw [hClen]; exact hCl), hins2]
            rfl
          · simp only [structB, Bool.and_eq_true, Bool.not_eq_true']
            exact ⟨by simp, hslD⟩
          · show toListL (kcs.take (childIdx kcs k) ++ (pageKey0 son, son) ::
              (pageKey0 np, np) :: kcs.drop (childIdx kcs k + 1)) ≠ []
            rw [htolD]
            exact insPair_ne_nil _ _ _
          · intro _
            exact htolD
          · intro np2 h
            exact absurd h (by simp)
        · rw [not_not] at hCl
          have hCne : kcs.take (childIdx kcs k) ++
              (pageKey0 son, son) :: kcs.drop (childIdx kcs k + 1) ≠ [] := by
            simp
          obtain ⟨hsplit_concat, hsplit_ne1, hsplit_ne2⟩ :=
            internalSplit_spec iM (kcs.take (childIdx kcs k) ++
              (pageKey0 son, son) :: kcs.drop (childIdx kcs k + 1))
              (pageKey0 np) np hCsorted hnkC hCne
          have h1ne := hsplit_ne1 (by rw [minSize]; omega)
          have hHD : (internalSplit iM (kcs.take (childIdx kcs k) ++
              (pageKey0 son, son) :: kcs.drop (childIdx kcs k + 1))
              (pageKey0 np) np).1 ++
              (internalSplit iM (kcs.take (childIdx kcs k) ++
              (pageKey0 son, son) :: kcs.drop (childIdx kcs k + 1))
              (pageKey0 np) np).2 =
              kcs.take (childIdx kcs k) ++ (pageKey0 son, son) ::
              (pageKey0 np, np) :: kcs.drop (childIdx kcs k + 1) := by
            rw [hsplit_concat, hinsC]
          have hslH1 : structL (internalSplit iM (kcs.take (childIdx kcs k) ++
              (pageKey0 son, son) :: kcs.drop (childIdx kcs k + 1))
              (pageKey0 np) np).1 = true := by
            rw [structL_forall]
            intro x hx
            refine structL_forall.mp hslD x ?_
            rw [← hHD]
            exact List.mem_append_left _ hx
          have hslH2 : structL (internalSplit iM (kcs.take (childIdx kcs k) ++
              (pageKey0 son, son) :: kcs.drop (childIdx kcs k + 1))
              (pageKey0 np) np).2 = true := by
            rw [structL_forall]
            intro x hx
            refine structL_forall.mp hslD x ?_
            rw [← hHD]
            exact List.mem_append_right _ hx
          refine ⟨.node (internalSplit iM (kcs.take (childIdx kcs k) ++
            (pageKey0 son, son) :: kcs.drop (childIdx kcs k + 1))
            (pageKey0 np) np).1,
            some (.node (internalSplit iM (kcs.take (childIdx kcs k) ++
            (pageKey0 son, son) :: kcs.drop (childIdx kcs k + 1))
            (pageKey0 np) np).2), ?_, ?_, ?_, ?_, ?_⟩
          · rw [dfsIns]
            simp only [heq]
            rw [hfix, if_neg (by rw [hClen]; omega)]
            rfl
          · simp only [structB, Bool.and_eq_true, Bool.not_eq_true']
            refine ⟨?_, hslH1⟩
            simpa [List.isEmpty_iff] using h1ne
          · show toListL (internalSplit iM (kcs.take (childIdx kcs k) ++
              (pageKey0 son, son) :: kcs.drop (childIdx kcs k + 1))
              (pageKey0 np) np).1 ≠ []
            exact toListL_ne_nil hslH1 h1ne
          · intro h
            exact absurd h (by simp)
          · intro np2 h
            obtain rfl : BPage.node (internalSplit iM (kcs.take (childIdx kcs k) ++
                (pageKey0 son, son) :: kcs.drop (childIdx kcs k + 1))
                (pageKey0 np) np).2 = np2 := by
              simpa using h
            refine ⟨?_, ?_, ?_⟩
            · simp only [structB, Bool.and_eq_true, Bool.not_eq_true']
              refine ⟨?_, hslH2⟩
              simpa [List.isEmpty_iff] using hsplit_ne2
            · show toListL (internalSplit iM (kcs.take (childIdx kcs k) ++
                (pageKey0 son, son) :: kcs.drop (childIdx kcs k + 1))
                (pageKey0 np) np).2 ≠ []
              exact toListL_ne_nil hslH2 hsplit_ne2
            · show toListL (internalSplit iM (kcs.take (childIdx kcs k) ++
                (pageKey0 son, son) :: kcs.drop (childIdx kcs k + 1))
                (pageKey0 np) np).1 ++
                toListL (internalSplit iM (kcs.take (childIdx kcs k) ++
                (pageKey0 son, son) :: kcs.drop (childIdx kcs k + 1))
                (pageKey0 np) np).2 = insPair (toListL kcs) k v
              rw [← toListL_append, hHD, htolD]

/-- The indexed recursive call of `DfsInsert`, with the same conclusion
about the selected child. -/
theorem dfsInsAt_spec : ∀ (lM iM : Nat) (kcs : List (Nat × BPage)) (i k v : Nat),
    2 ≤ lM → 2 ≤ iM → i < kcs.length →
    structB (kcs.getD i (0, default)).2 = true →
    sortedB (keysOf (toList (kcs.getD i (0, default)).2)) = true →
    k ∉ keysOf (toList (kcs.getD i (0, default)).2) →
    ∃ c2 sp, dfsInsAt lM iM kcs i k v =
      some (c2, sp, pageKey0 (kcs.getD i (0, default)).2) ∧
      structB c2 = true ∧ toList c2 ≠ [] ∧
      (sp = none → toList c2 =
        insPair (toList (kcs.getD i (0, default)).2) k v) ∧
      (∀ np, sp = some np → structB np = true ∧ toList np ≠ [] ∧
        toList c2 ++ toList np =
          insPair (toList (kcs.getD i (0, default)).2) k v)
  | lM, iM, [], i, k, v, _, _, hi, _, _, _ => by simp at hi
  | lM, iM, kc :: rest, 0, k, v, hlM, hiM, _, hsB, hs, habs => by
      rw [dfsInsAt]
      have h := dfsIns_spec lM iM kc.2 k v hlM hiM (by simpa using hsB)
        (by simpa using hs) (by simpa using habs)
      simpa using h
  | lM, iM, kc :: rest, i + 1, k, v, hlM, hiM, hi, hsB, hs, habs => by
      rw [dfsInsAt]
      have h := dfsInsAt_spec lM iM rest i k v hlM hiM (by simpa using hi)
        (by simpa using hsB) (by simpa using hs) (by simpa using habs)
      simpa using h
end

/-- Claim C1: for every tree state satisfying the search well-formedness
invariant (structure plus globally sorted keys — the invariant of every
reachable state) with both `max_size`s at least 2, if `insert(k, v)` of a
key not already present returns `true` then an immediately following
`get_value(k)` succeeds and returns exactly `v`; the insert does return
`true`. -/
theorem insert_then_get (lM iM : Nat) (t : BPage) (k v : Nat)
    (hlM : 2 ≤ lM) (hiM : 2 ≤ iM) (hwf : wfB t = true)
    (habs : k ∉ keysOf (toList t)) :
    (insertOp lM iM t k v).1 = true ∧
    getValue (insertOp lM iM t k v).2 k = some v := by
  rw [wfB, Bool.and_eq_true] at hwf
  obtain ⟨hsB, hs⟩ := hwf
  obtain ⟨c2, sp, heq, hc2B, hc2ne, hnone, hsome⟩ :=
    dfsIns_spec lM iM t k v hlM hiM hsB hs habs
  rcases sp with _ | np
  · have hlist := hnone rfl
    have hres : insertOp lM iM t k v = (true, c2) := by
      rw [insertOp]
      simp only [heq]
    rw [hres]
    refine ⟨rfl, ?_⟩
    refine getValue_mem hc2B ?_ ?_
    · rw [hlist]
      exact sortedB_insPair v hs habs
    · rw [hlist]
      exact mem_insPair_iff.mpr (Or.inl rfl)
  · obtain ⟨hnpB, hnpne, hconc⟩ := hsome np rfl
    have h1 : pageInsD ([] : List (Nat × BPage)) (pageKey0 c2) c2 =
        [(pageKey0 c2, c2)] := rfl
    have hab : pageKey0 c2 < pageKey0 np := by
      have hsrt : sortedB (keysOf (toList c2) ++ keysOf (toList np)) = true := by
        rw [← keysOf_append, hconc]
        exact sortedB_insPair v hs habs
      exact sorted_cross hsrt (pageKey0_mem hc2B hc2ne) (pageKey0_mem hnpB hnpne)
    have h2 : pageIns [(pageKey0 c2, c2)] (pageKey0 np) np =
        some [(pageKey0 c2, c2), (pageKey0 np, np)] := by
      rw [pageIns, if_neg (by simp), if_pos (by simpa [keyAt] using hab)]
      rfl
    have hres : insertOp lM iM t k v =
        (true, .node [(pageKey0 c2, c2), (pageKey0 np, np)]) := by
      rw [insertOp]
      simp only [heq]
      rw [h1, pageInsD, h2, Option.getD_some]
    rw [hres]
    refine ⟨rfl, ?_⟩
    have hslR : structL [(pageKey0 c2, c2), (pageKey0 np, np)] = true := by
      rw [structL_forall]
      intro x hx
      simp only [List.mem_cons, List.not_mem_nil, or_false] at hx
      rcases hx with rfl | rfl
      · exact ⟨rfl, hc2ne, hc2B⟩
      · exact ⟨rfl, hnpne, hnpB⟩
    have hrootB : structB (.node [(pageKey0 c2, c2), (pageKey0 np, np)]) = true := by
      simp only [structB, Bool.and_eq_true, Bool.not_eq_true']
      exact ⟨by simp, hslR⟩
    have hroottol : toList (.node [(pageKey0 c2, c2), (pageKey0 np, np)]) =
        insPair (toList t) k v := by
      show toList c2 ++ (toList np ++ []) = insPair (toList t) k v
      rw [List.append_nil, hconc]
    refine getValue_mem hrootB ?_ ?_
    · rw [hroottol]
      exact sortedB_insPair v hs habs
    · rw [hroottol]
      exact mem_insPair_iff.mpr (Or.inl rfl)

/-- Witness for C1: inserting key 1 (value 10) into the empty tree with
both max sizes 3. -/
theorem insert_then_get_witness :
    2 ≤ 3 ∧ wfB (.leaf []) = true ∧ 1 ∉ keysOf (toList (.leaf [])) ∧
    ((insertOp 3 3 (.leaf []) 1 10).1 = true ∧
     getValue (insertOp 3 3 (.leaf []) 1 10).2 1 = some 10) :=
  ⟨by decide, by decide, by decide,
    insert_then_get 3 3 (.leaf []) 1 10 (by decide) (by decide) (by decide)
      (by decide)⟩

/-! ## Remove of an absent key -/

theorem pageRmD_absent {α : Type} [Inhabited α] {es : List (Nat × α)} {k : Nat}
    (hs : sortedB (keysOf es) = true) (habs : k ∉ keysOf es) :
    pageRmD es k = es := by
  rw [pageRmD, pageRm_eq hs, if_neg habs, Option.getD_none]

theorem set_getD_eta {α β : Type} (l : List (α × β)) (i : Nat) (d : α × β) :
    l.set i ((l.getD i d).1, (l.getD i d).2) = l := set_getD_self l i d

/-! ## Height and uniform-depth facts -/

theorem unifL_forall {kcs : List (Nat × BPage)} {h : Nat} :
    unifL kcs h = true ↔ ∀ kc ∈ kcs, hgt kc.2 = h ∧ unifB kc.2 = true := by
  induction kcs with
  | nil => simp [unifL]
  | cons kc rest ih =>
      simp only [unifL, Bool.and_eq_true, beq_iff_eq, List.mem_cons, ih]
      constructor
      · rintro ⟨⟨h1, h2⟩, h3⟩ x (rfl | hx)
        · exact ⟨h1, h2⟩
        · exact h3 x hx
      · intro hall
        obtain ⟨h1, h2⟩ := hall kc (Or.inl rfl)
        exact ⟨⟨h1, h2⟩, fun x hx => hall x (Or.inr hx)⟩

theorem hgtL_of_unifL {kcs : List (Nat × BPage)} {h : Nat} (hne : kcs ≠ [])
    (hu : unifL kcs h = true) : hgtL kcs = h := by
  rcases kcs with _ | ⟨kc, rest⟩
  · exact absurd rfl hne
  · exact (unifL_forall.mp hu kc (List.mem_cons_self _ _)).1

theorem unifB_node {kcs : List (Nat × BPage)} {h : Nat} (hne : kcs ≠ [])
    (hu : unifL kcs h = true) :
    unifB (.node kcs) = true ∧ hgt (.node kcs) = 1 + h := by
  have hh := hgtL_of_unifL hne hu
  constructor
  · show unifL kcs (hgtL kcs) = true
    rw [hh]
    exact hu
  · show 1 + hgtL kcs = 1 + h
    rw [hh]

theorem hgt_zero_leaf {p : BPage} (h : hgt p = 0) : ∃ kvs, p = .leaf kvs := by
  cases p with
  | leaf kvs => exact ⟨kvs, rfl⟩
  | node kcs =>
      rw [show hgt (.node kcs) = 1 + hgtL kcs from rfl] at h
      omega

theorem hgt_succ_node {p : BPage} {n : Nat} (h : hgt p = 1 + n) :
    ∃ kcs, p = .node kcs := by
  cases p with
  | leaf kvs =>
      rw [show hgt (.leaf kvs) = 0 from rfl] at h
      omega
  | node kcs => exact ⟨kcs, rfl⟩

theorem structB_node_elim {kcs : List (Nat × BPage)}
    (h : structB (.node kcs) = true) : kcs ≠ [] ∧ structL kcs = true := by
  rw [show structB (.node kcs) = (!kcs.isEmpty && structL kcs) from rfl,
    Bool.and_eq_true, Bool.not_eq_true'] at h
  refine ⟨?_, h.2⟩
  intro hcon
  rw [hcon] at h
  simp at h

theorem structB_node_intro {kcs : List (Nat × BPage)} (hne : kcs ≠ [])
    (hsl : structL kcs = true) : structB (.node kcs) = true := by
  rcases kcs with _ | ⟨kc, rest⟩
  · exact absurd rfl hne
  · show (!(kc :: rest).isEmpty && structL (kc :: rest)) = true
    rw [hsl]
    rfl

theorem structL_of_mem {kcs1 kcs2 : List (Nat × BPage)}
    (hsub : ∀ kc ∈ kcs1, kc ∈ kcs2) (hsl : structL kcs2 = true) :
    structL kcs1 = true :=
  structL_forall.mpr (fun kc hkc => structL_forall.mp hsl kc (hsub kc hkc))

theorem unifL_of_mem {kcs1 kcs2 : List (Nat × BPage)} {h : Nat}
    (hsub : ∀ kc ∈ kcs1, kc ∈ kcs2) (hu : unifL kcs2 h = true) :
    unifL kcs1 h = true :=
  unifL_forall.mpr (fun kc hkc => unifL_forall.mp hu kc (hsub kc hkc))

theorem structL_append_of {A B : List (Nat × BPage)} (ha : structL A = true)
    (hb : structL B = true) : structL (A ++ B) = true := by
  refine structL_forall.mpr ?_
  intro kc hkc
  rcases List.mem_append.mp hkc with h | h
  · exact structL_forall.mp ha kc h
  · exact structL_forall.mp hb kc h

theorem unifL_append_of {A B : List (Nat × BPage)} {h : Nat}
    (ha : unifL A h = true) (hb : unifL B h = true) :
    unifL (A ++ B) h = true := by
  refine unifL_forall.mpr ?_
  intro kc hkc
  rcases List.mem_append.mp hkc with h1 | h1
  · exact unifL_forall.mp ha kc h1
  · exact unifL_forall.mp hb kc h1

/-! ## Extra `List.set`, `take`/`drop` bookkeeping -/

theorem getD_set_ne {α : Type} (l : List α) (i j : Nat) (x d : α)
    (hne : i ≠ j) : (l.set i x).getD j d = l.getD j d := by
  by_cases hj : j < l.length
  · rw [List.getD_eq_getElem _ _ (by simpa using hj), List.getD_eq_getElem _ _ hj,
      List.getElem_set_ne (by omega)]
  · rw [List.getD_eq_default _ _ (by simpa using hj),
      List.getD_eq_default _ _ (by omega)]

theorem set_keep_snd (l : List (Nat × BPage)) (j : Nat) (y : BPage)
    (hy : y = (l.getD j (0, default)).2) :
    l.set j ((l.getD j (0, default)).1, y) = l := by
  rw [hy]
  exact set_getD_eta l j (0, default)

theorem take_set_of_ge {α : Type} : ∀ (l : List α) (i n : Nat) (x : α), n ≤ i →
    (l.set i x).take n = l.take n
  | [], _, _, _, _ => rfl
  | e :: rest, i, 0, x, _ => rfl
  | e :: rest, 0, n + 1, x, h => by omega
  | e :: rest, i + 1, n + 1, x, h => by
      simp only [List.set_cons_succ, List.take_succ_cons, List.cons.injEq, true_and]
      exact take_set_of_ge rest i n x (by omega)

theorem drop_set_of_lt {α : Type} : ∀ (l : List α) (i n : Nat) (x : α), i < n →
    (l.set i x).drop n = l.drop n
  | [], _, _, _, _ => rfl
  | e :: rest, i, 0, x, h => by omega
  | e :: rest, 0, n + 1, x, _ => rfl
  | e :: rest, i + 1, n + 1, x, h => by
      simp only [List.set_cons_succ, List.drop_succ_cons]
      exact drop_set_of_lt rest i n x (by omega)

theorem drop_set_self {α : Type} : ∀ (l : List α) (j : Nat) (x : α), j < l.length →
    (l.set j x).drop j = x :: l.drop (j + 1)
  | [], _, _, h => by simp at h
  | e :: rest, 0, x, _ => rfl
  | e :: rest, j + 1, x, h => by
      simp only [List.set_cons_succ, List.drop_succ_cons]
      exact drop_set_self rest j x (by simpa using h)

theorem take_set_comm {α : Type} : ∀ (l : List α) (j n : Nat) (x : α),
    (l.set j x).take n = (l.take n).set j x
  | [], _, _, _ => by simp
  | e :: rest, 0, 0, x => rfl
  | e :: rest, 0, n + 1, x => rfl
  | e :: rest, j + 1, 0, x => rfl
  | e :: rest, j + 1, n + 1, x => by
      simp only [List.set_cons_succ, List.take_succ_cons, List.cons.injEq, true_and]
      exact take_set_comm rest j n x

theorem set_eq_take_cons_drop {α : Type} : ∀ (l : List α) (i : Nat) (x : α),
    i < l.length → l.set i x = l.take i ++ x :: l.drop (i + 1)
  | [], i, x, h => by simp at h
  | e :: rest, 0, x, _ => rfl
  | e :: rest, i + 1, x, h => by
      simp only [List.set_cons_succ, List.take_succ_cons, List.drop_succ_cons,
        List.cons_append, List.cons.injEq, true_and]
      exact set_eq_take_cons_drop rest i x (by simpa using h)

theorem drop_append_add {α : Type} (X Y : List α) (m : Nat) :
    (X ++ Y).drop (X.length + m) = Y.drop m := by
  induction X with
  | nil => simp
  | cons e rest ih =>
      have he : rest.length + 1 + m = (rest.length + m) + 1 := by omega
      simp only [List.cons_append, List.length_cons, he, List.drop_succ_cons]
      exact ih

theorem take_append_add {α : Type} (X Y : List α) (m : Nat) :
    (X ++ Y).take (X.length + m) = X ++ Y.take m := by
  induction X with
  | nil => simp
  | cons e rest ih =>
      have he : rest.length + 1 + m = (rest.length + m) + 1 := by omega
      simp only [List.cons_append, List.length_cons, he, List.take_succ_cons]
      rw [ih]

theorem take_append_exact2 {α : Type} (X Y : List α) {n : Nat}
    (h : X.length = n) : (X ++ Y).take n = X := by
  subst h
  simp

theorem drop_append_exact2 {α : Type} (X Y : List α) {n : Nat}
    (h : X.length = n) : (X ++ Y).drop n = Y := by
  subst h
  simp

theorem take_append_succ {α : Type} (X : List α) (e : α) (Q : List α) {n : Nat}
    (h : X.length + 1 = n) : (X ++ e :: Q).take n = X ++ [e] := by
  subst h
  exact take_append_add X (e :: Q) 1

theorem drop_append_succ {α : Type} (X : List α) (e : α) (Q : List α) {n : Nat}
    (h : X.length + 1 = n) : (X ++ e :: Q).drop n = Q := by
  subst h
  exact drop_append_add X (e :: Q) 1

theorem keyAt_append_mid {α : Type} [Inhabited α] (X : List (Nat × α))
    (e : Nat × α) (Q : List (Nat × α)) {n : Nat} (h : X.length = n) :
    keyAt (X ++ e :: Q) n = e.1 := by
  subst h
  rw [keyAt, List.getD_append_right _ _ _ _ (le_refl _)]
  simp

theorem dropLast_append_last_pair {α : Type} [Inhabited α] {es : List (Nat × α)}
    (hne : es ≠ []) :
    es.dropLast ++ [(keyAt es (es.length - 1), valueAt es (es.length - 1))] = es := by
  have hlt : es.length - 1 < es.length := by
    have := List.length_pos.mpr hne
    omega
  have hpair : (keyAt es (es.length - 1), valueAt es (es.length - 1)) =
      es.getD (es.length - 1) (0, default) := rfl
  have hlast : es.getD (es.length - 1) (0, default) = es.getLast hne := by
    rw [List.getD_eq_getElem _ _ hlt, List.getLast_eq_getElem]
  rw [hpair, hlast]
  exact List.dropLast_append_getLast hne

theorem take_one_pair {α : Type} [Inhabited α] {es : List (Nat × α)}
    (hne : es ≠ []) : es.take 1 = [(keyAt es 0, valueAt es 0)] := by
  rcases es with _ | ⟨e, rest⟩
  · exact absurd rfl hne
  · rfl

theorem keyAt_dropLast_zero {α : Type} [Inhabited α] {es : List (Nat × α)}
    (h2 : 2 ≤ es.length) : keyAt es.dropLast 0 = keyAt es 0 := by
  rw [List.dropLast_eq_take, keyAt, keyAt, getD_take _ _ (by omega)]

/-! ## Sorted insertion/removal at a known position -/

theorem pageRmD_sorted_at {α : Type} [Inhabited α] {A : List (Nat × α)}
    (hs : sortedB (keysOf A) = true) {j : Nat} (hj : j < A.length) :
    pageRmD A (keyAt A j) = A.take j ++ A.drop (j + 1) := by
  rw [pageRmD, pageRm_eq hs, if_pos (keyAt_mem hj), Option.getD_some,
    rmPair_eq_rmAt (keyAt A j) A j hj
      (by
        intro i hi
        have := keyAt_lt_keyAt hs hi hj
        omega)
      rfl,
    rmAt]

theorem pageInsD_sorted_at {α : Type} [Inhabited α] {A : List (Nat × α)}
    (hs : sortedB (keysOf A) = true) {x : Nat} (v : α) (j : Nat)
    (hlt : ∀ a ∈ keysOf (A.take j), a < x)
    (hxg : ∀ a ∈ keysOf (A.drop j), x < a) :
    pageInsD A x v = A.take j ++ (x, v) :: A.drop j := by
  have habs : x ∉ keysOf A := by
    intro hmem
    rw [← List.take_append_drop j A, keysOf_append] at hmem
    rcases List.mem_append.mp hmem with h | h
    · have := hlt _ h
      omega
    · have := hxg _ h
      omega
  have h2 : insPair A x v = A.take j ++ (x, v) :: A.drop j := by
    conv_lhs => rw [← List.take_append_drop j A]
    rw [insPair_append_left v hlt, insPair_front v hxg]
  rw [pageInsD, pageIns_eq hs, if_neg habs, Option.getD_some, h2]

theorem sortedB_ins_mid {α : Type} {X Y : List (Nat × α)} {x : Nat} {v : α}
    (hs : sortedB (keysOf (X ++ Y)) = true)
    (hlt : ∀ a ∈ keysOf X, a < x) (hxg : ∀ a ∈ keysOf Y, x < a) :
    sortedB (keysOf (X ++ (x, v) :: Y)) = true := by
  rw [keysOf_append] at hs
  rw [keysOf_append, show keysOf ((x, v) :: Y) = x :: keysOf Y from rfl]
  obtain ⟨h1, h2, h3⟩ := sortedB_append.mp hs
  refine sortedB_append.mpr ⟨h1, ?_, ?_⟩
  · rw [sortedB_cons]
    refine ⟨?_, h2⟩
    intro b hb
    exact hxg b (List.mem_of_mem_head? hb)
  · intro a ha b hb
    rcases List.mem_cons.mp hb with rfl | hb
    · exact hlt a ha
    · exact h3 a ha b hb

theorem keys_take_stored_lt {α : Type} [Inhabited α] {kcs : List (Nat × α)}
    (hks : sortedB (keysOf kcs) = true) {i : Nat} (hi : i < kcs.length)
    {a : Nat} (ha : a ∈ keysOf (kcs.take i)) : a < keyAt kcs i := by
  obtain ⟨j, hji, hjlen, hja⟩ := mem_keysOf_take ha
  have := keyAt_lt_keyAt hks hji hi
  omega

theorem keys_drop_stored_gt {α : Type} [Inhabited α] {kcs : List (Nat × α)}
    (hks : sortedB (keysOf kcs) = true) {i m : Nat} (him : i < m)
    {a : Nat} (ha : a ∈ keysOf (kcs.drop m)) : keyAt kcs i < a := by
  obtain ⟨j, hjm, hjlen, hja⟩ := mem_keysOf_drop ha
  have := keyAt_lt_keyAt hks (show i < j by omega) hjlen
  omega

/-! ## The tail-moving loop with a fixed pivot -/

/-- `moveTail` when the destination splits into a part strictly below the
source and a part strictly above it: the moved tail is threaded between
the two. -/
theorem moveTail_spec_mid {α : Type} [Inhabited α] (src A B : List (Nat × α))
    (m : Nat) (hs : sortedB (keysOf A ++ keysOf src ++ keysOf B) = true) :
    moveTail src (A ++ B) m = (src.take m, A ++ (src.drop m ++ B)) := by
  rw [moveTail]
  by_cases hc : m < src.length
  · rw [if_pos hc]
    have hne : src ≠ [] := by
      intro h
      rw [h] at hc
      simp at hc
    have hlt : src.length - 1 < src.length := by omega
    have hsrc : src.dropLast ++
        [(keyAt src (src.length - 1), valueAt src (src.length - 1))] = src :=
      dropLast_append_last_pair hne
    have hkmem : keyAt src (src.length - 1) ∈ keysOf src := keyAt_mem hlt
    have hAlt : ∀ a ∈ keysOf A, a < keyAt src (src.length - 1) := by
      intro a ha
      have h2 : sortedB (keysOf A ++ (keysOf src ++ keysOf B)) = true := by
        simpa [List.append_assoc] using hs
      exact sorted_cross h2 ha (List.mem_append_left _ hkmem)
    have hBgt : ∀ b ∈ keysOf B, keyAt src (src.length - 1) < b := by
      intro b hb
      exact sorted_cross hs (List.mem_append_right _ hkmem) hb
    have hABs : sortedB (keysOf (A ++ B)) = true := by
      rw [keysOf_append]
      refine sortedB_of_sublist ?_ hs
      rw [List.append_assoc]
      exact (List.Sublist.refl _).append (List.sublist_append_right _ _)
    have habs : keyAt src (src.length - 1) ∉ keysOf (A ++ B) := by
      rw [keysOf_append]
      intro h
      rcases List.mem_append.mp h with h | h
      · have := hAlt _ h
        omega
      · have := hBgt _ h
        omega
    have hins : pageIns (A ++ B) (keyAt src (src.length - 1))
        (valueAt src (src.length - 1)) =
        some (A ++ (keyAt src (src.length - 1),
          valueAt src (src.length - 1)) :: B) := by
      rw [pageIns_eq hABs, if_neg habs, insPair_append_left _ hAlt,
        insPair_front _ hBgt]
    rw [hins]
    simp only [Option.getD_some]
    have hs2 : sortedB (keysOf A ++ keysOf src.dropLast ++
        keysOf ((keyAt src (src.length - 1),
          valueAt src (src.length - 1)) :: B)) = true := by
      rw [show keysOf ((keyAt src (src.length - 1),
          valueAt src (src.length - 1)) :: B) =
        keyAt src (src.length - 1) :: keysOf B from rfl]
      rw [← hsrc, keysOf_append] at hs
      simpa [List.append_assoc] using hs
    rw [moveTail_spec_mid src.dropLast A
      ((keyAt src (src.length - 1), valueAt src (src.length - 1)) :: B) m hs2]
    have hdl : src.dropLast = src.take (src.length - 1) := List.dropLast_eq_take src
    have h1 : src.dropLast.take m = src.take m := by
      rw [hdl, List.take_take]
      congr 1
      omega
    have h2 : src.dropLast.drop m ++
        (keyAt src (src.length - 1), valueAt src (src.length - 1)) :: B =
        src.drop m ++ B := by
      conv_rhs => rw [← hsrc]
      rw [List.drop_append_of_le_length (by rw [hdl]; simp [List.length_take]; omega)]
      simp [List.append_assoc]
    rw [h1, h2]
  · rw [if_neg hc]
    rw [List.take_of_length_le (by omega), List.drop_eq_nil_of_le (by omega)]
    simp
termination_by src.length
decreasing_by simp [List.length_dropLast]; omega

/-- `moveTail` into a destination whose keys all lie strictly below the
source appends the moved tail, in order, behind the destination. -/
theorem moveTail_spec_right {α : Type} [Inhabited α] (src dst : List (Nat × α))
    (m : Nat) (hs : sortedB (keysOf dst ++ keysOf src) = true) :
    moveTail src dst m = (src.take m, dst ++ src.drop m) := by
  have h := moveTail_spec_mid src dst [] m (by simpa [keysOf] using hs)
  simpa using h

/-! ## Closed forms of the in-place child updates -/

theorem keysOf_set_keep {α : Type} [Inhabited α] (l : List (Nat × α)) (j : Nat)
    (a : Nat) (x : α) (ha : a = keyAt l j) :
    keysOf (l.set j (a, x)) = keysOf l := by
  rw [ha]
  exact keysOf_set_snd (0, default) l j x

theorem updateChildren_keep (kcs : List (Nat × BPage)) (i : Nat) (son : BPage)
    (ls rs : Option BPage)
    (hls : ∀ lp, ls = some lp → 1 ≤ i ∧ lp = (kcs.getD (i - 1) (0, default)).2)
    (hrs : ∀ rp, rs = some rp → rp = (kcs.getD (i + 1) (0, default)).2) :
    updateChildren kcs i son ls rs =
      kcs.set i ((kcs.getD i (0, default)).1, son) := by
  rcases ls with _ | lp
  · rcases rs with _ | rp
    · rfl
    · have hrp := hrs rp rfl
      subst hrp
      refine set_keep_snd _ (i + 1) _ ?_
      rw [getD_set_ne kcs i (i + 1) _ _ (by omega)]
  · obtain ⟨hi1, hlp⟩ := hls lp rfl
    subst hlp
    rcases rs with _ | rp
    · refine set_keep_snd _ (i - 1) _ ?_
      rw [getD_set_ne kcs i (i - 1) _ _ (by omega)]
    · have hrp := hrs rp rfl
      subst hrp
      refine Eq.trans (set_keep_snd _ (i + 1) _ ?_) (set_keep_snd _ (i - 1) _ ?_)
      · rw [getD_set_ne _ (i - 1) (i + 1) _ _ (by omega),
          getD_set_ne kcs i (i + 1) _ _ (by omega)]
      · rw [getD_set_ne kcs i (i - 1) _ _ (by omega)]

theorem updateChildren_orig (kcs : List (Nat × BPage)) (i : Nat) (son : BPage) :
    updateChildren kcs i son
      (if 1 ≤ i then some (valueAt kcs (i - 1)) else none)
      (if i + 1 < kcs.length then some (valueAt kcs (i + 1)) else none) =
      kcs.set i ((kcs.getD i (0, default)).1, son) := by
  refine updateChildren_keep kcs i son _ _ ?_ ?_
  · intro lp hlp
    by_cases h : 1 ≤ i
    · rw [if_pos h] at hlp
      injection hlp with h2
      exact ⟨h, h2.symm⟩
    · rw [if_neg h] at hlp
      exact absurd hlp (by simp)
  · intro rp hrp
    by_cases h : i + 1 < kcs.length
    · rw [if_pos h] at hrp
      injection hrp with h2
      exact h2.symm
    · rw [if_neg h] at hrp
      exact absurd hrp (by simp)

theorem updateChildren_left (kcs : List (Nat × BPage)) (i : Nat) (son L2 : BPage)
    (rs : Option BPage) (hi1 : 1 ≤ i)
    (hrs : ∀ rp, rs = some rp → rp = (kcs.getD (i + 1) (0, default)).2) :
    updateChildren kcs i son (some L2) rs =
      (kcs.set i ((kcs.getD i (0, default)).1, son)).set (i - 1)
        ((kcs.getD (i - 1) (0, default)).1, L2) := by
  rcases rs with _ | rp
  · show (kcs.set i ((kcs.getD i (0, default)).1, son)).set (i - 1)
        (((kcs.set i ((kcs.getD i (0, default)).1, son)).getD (i - 1)
          (0, default)).1, L2) = _
    rw [getD_set_ne kcs i (i - 1) _ _ (by omega)]
  · have hrp := hrs rp rfl
    subst hrp
    refine Eq.trans (set_keep_snd _ (i + 1) _ ?_) ?_
    · rw [getD_set_ne _ (i - 1) (i + 1) _ _ (by omega),
        getD_set_ne kcs i (i + 1) _ _ (by omega)]
    · have e : ((kcs.set i ((kcs.getD i (0, default)).1, son)).getD (i - 1)
          (0, default)).1 = (kcs.getD (i - 1) (0, default)).1 := by
        rw [getD_set_ne kcs i (i - 1) _ _ (by omega)]
      rw [e]

theorem updateChildren_right (kcs : List (Nat × BPage)) (i : Nat) (son R2 : BPage)
    (ls : Option BPage)
    (hls : ∀ lp, ls = some lp → 1 ≤ i ∧ lp = (kcs.getD (i - 1) (0, default)).2) :
    updateChildren kcs i son ls (some R2) =
      (kcs.set i ((kcs.getD i (0, default)).1, son)).set (i + 1)
        ((kcs.getD (i + 1) (0, default)).1, R2) := by
  rcases ls with _ | lp
  · show (kcs.set i ((kcs.getD i (0, default)).1, son)).set (i + 1)
        (((kcs.set i ((kcs.getD i (0, default)).1, son)).getD (i + 1)
          (0, default)).1, R2) = _
    rw [getD_set_ne kcs i (i + 1) _ _ (by omega)]
  · obtain ⟨hi1, hlp⟩ := hls lp rfl
    subst hlp
    have hb : (kcs.set i ((kcs.getD i (0, default)).1, son)).set (i - 1)
        (((kcs.set i ((kcs.getD i (0, default)).1, son)).getD (i - 1)
          (0, default)).1, (kcs.getD (i - 1) (0, default)).2) =
        kcs.set i ((kcs.getD i (0, default)).1, son) := by
      refine set_keep_snd _ (i - 1) _ ?_
      rw [getD_set_ne kcs i (i - 1) _ _ (by omega)]
    show ((kcs.set i ((kcs.getD i (0, default)).1, son)).set (i - 1)
        (((kcs.set i ((kcs.getD i (0, default)).1, son)).getD (i - 1)
          (0, default)).1, (kcs.getD (i - 1) (0, default)).2)).set (i + 1)
        ((((kcs.set i ((kcs.getD i (0, default)).1, son)).set (i - 1)
          (((kcs.set i ((kcs.getD i (0, default)).1, son)).getD (i - 1)
            (0, default)).1, (kcs.getD (i - 1) (0, default)).2)).getD (i + 1)
          (0, default)).1, R2) = _
    rw [hb, getD_set_ne kcs i (i + 1) _ _ (by omega)]

/-! ## The leaf layer of `DfsRemove` for an absent key -/

theorem leafRmStep_shape (lM : Nat) (kvs : List (Nat × Nat)) (ls rs : Option BPage)
    (k : Nat) (hs : sortedB (keysOf kvs) = true) (hne : kvs ≠ [])
    (habs : k ∉ keysOf kvs)
    (hl : ∀ L, ls = some L → hgt L = 0 ∧ toList L ≠ [] ∧
      sortedB (keysOf (toList L) ++ keysOf kvs) = true)
    (hr : ∀ R, rs = some R → hgt R = 0 ∧ toList R ≠ [] ∧
      sortedB (keysOf kvs ++ keysOf (toList R)) = true) :
    rmShape (.leaf kvs) ls rs (leafRmStep lM kvs ls rs k) := by
  have hrm : pageRmD kvs k = kvs := pageRmD_absent hs habs
  have h0 : 0 < kvs.length := List.length_pos.mpr hne
  by_cases h1 : minSize lM ≤ kvs.length ∨ (ls.isNone = true ∧ rs.isNone = true)
  · rw [leafRmStep, hrm, if_pos h1]
    left
    exact ⟨.leaf kvs, rfl, rfl, rfl, rfl, rfl, rfl⟩
  · have hmin : kvs.length < minSize lM := by
      rcases Nat.lt_or_ge kvs.length (minSize lM) with h | h
      · exact h
      · exact absurd (Or.inl h) h1
    by_cases h2 : ls.isSome = true ∧
        (minSize lM : Int) ≤ ((leafKVs (ls.getD default)).length : Int) - 1
    · obtain ⟨L, hLeq⟩ := Option.isSome_iff_exists.mp h2.1
      obtain ⟨hLh, hLne, hLs⟩ := hl L hLeq
      obtain ⟨Lk, rfl⟩ := hgt_zero_leaf hLh
      subst hLeq
      have hLs2 : sortedB (keysOf Lk ++ keysOf kvs) = true := hLs
      have hLkne : Lk ≠ [] := hLne
      have hLklen : 2 ≤ Lk.length := by
        have h22 := h2.2
        simp only [Option.getD_some, leafKVs] at h22
        have := List.length_pos.mpr hLkne
        omega
      have hlastmem : keyAt Lk (Lk.length - 1) ∈ keysOf Lk :=
        keyAt_mem (by omega)
      have hgtkvs : ∀ a ∈ keysOf kvs, keyAt Lk (Lk.length - 1) < a := by
        intro a ha
        exact sorted_cross hLs2 hlastmem ha
      have hins : pageInsD kvs (keyAt Lk (Lk.length - 1))
          (valueAt Lk (Lk.length - 1)) =
          (keyAt Lk (Lk.length - 1), valueAt Lk (Lk.length - 1)) :: kvs := by
        have h3 := pageInsD_sorted_at hs (valueAt Lk (Lk.length - 1)) 0
          (by intro a ha; simp [keysOf] at ha)
          (by intro a ha; exact hgtkvs a (by simpa using ha))
        simpa using h3
      rw [leafRmStep, hrm, if_neg h1, if_pos h2]
      simp only [Option.getD_some, leafKVs]
      rw [hins]
      right
      left
      refine ⟨.leaf ((keyAt Lk (Lk.length - 1), valueAt Lk (Lk.length - 1)) :: kvs),
        .leaf Lk.dropLast, Lk.dropLast,
        [(keyAt Lk (Lk.length - 1), valueAt Lk (Lk.length - 1))], .leaf Lk,
        rfl, rfl, ?_, ?_, ?_, rfl, rfl, rfl, rfl, rfl, rfl, rfl, rfl, rfl, ?_⟩
      · show Lk = Lk.dropLast ++
          [(keyAt Lk (Lk.length - 1), valueAt Lk (Lk.length - 1))]
        exact (dropLast_append_last_pair hLkne).symm
      · intro hcon
        have hlen := congrArg List.length hcon
        rw [List.length_dropLast] at hlen
        simp at hlen
        omega
      · simp
      · show keyAt Lk.dropLast 0 = keyAt Lk 0
        exact keyAt_dropLast_zero hLklen
    · by_cases h3 : rs.isSome = true ∧
          (minSize lM : Int) ≤ ((leafKVs (rs.getD default)).length : Int) - 1
      · obtain ⟨R, hReq⟩ := Option.isSome_iff_exists.mp h3.1
        obtain ⟨hRh, hRne, hRs⟩ := hr R hReq
        obtain ⟨Rk, rfl⟩ := hgt_zero_leaf hRh
        subst hReq
        have hRs2 : sortedB (keysOf kvs ++ keysOf Rk) = true := hRs
        have hRkne : Rk ≠ [] := hRne
        have hRklen : 2 ≤ Rk.length := by
          have h32 := h3.2
          simp only [Option.getD_some, leafKVs] at h32
          have := List.length_pos.mpr hRkne
          omega
        have hheadmem : keyAt Rk 0 ∈ keysOf Rk := keyAt_mem (by omega)
        have hltk : ∀ a ∈ keysOf kvs, a < keyAt Rk 0 := by
          intro a ha
          exact sorted_cross hRs2 ha hheadmem
        have hins : pageInsD kvs (keyAt Rk 0) (valueAt Rk 0) =
            kvs ++ [(keyAt Rk 0, valueAt Rk 0)] := by
          have h4 := pageInsD_sorted_at hs (valueAt Rk 0) kvs.length
            (by
              intro a ha
              rw [List.take_of_length_le (le_refl _)] at ha
              exact hltk a ha)
            (by
              intro a ha
              rw [List.drop_eq_nil_of_le (le_refl _)] at ha
              simp [keysOf] at ha)
          rwa [List.take_of_length_le (le_refl _),
            List.drop_eq_nil_of_le (le_refl _)] at h4
        have hRks : sortedB (keysOf Rk) = true := (sortedB_append.mp hRs2).2.1
        have hRrm : pageRmD Rk (keyAt Rk 0) = Rk.drop 1 := by
          have h5 := pageRmD_sorted_at hRks (show 0 < Rk.length by omega)
          simpa using h5
        rw [leafRmStep, hrm, if_neg h1, if_neg h2, if_pos h3]
        simp only [Option.getD_some, leafKVs]
        rw [hins, hRrm, keyAt_append_left [(keyAt Rk 0, valueAt Rk 0)] h0]
        right
        right
        left
        refine ⟨.leaf (kvs ++ [(keyAt Rk 0, valueAt Rk 0)]), .leaf (Rk.drop 1),
          [(keyAt Rk 0, valueAt Rk 0)], Rk.drop 1, .leaf Rk, rfl, rfl, ?_, ?_, ?_,
          rfl, rfl, rfl, rfl, rfl, rfl, rfl, rfl, ?_, rfl⟩
        · show Rk = [(keyAt Rk 0, valueAt Rk 0)] ++ Rk.drop 1
          rw [← take_one_pair hRkne]
          exact (List.take_append_drop 1 Rk).symm
        · simp
        · intro hcon
          have hlen := congrArg List.length hcon
          rw [List.length_drop] at hlen
          simp at hlen
          omega
        · show keyAt (kvs ++ [(keyAt Rk 0, valueAt Rk 0)]) 0 = keyAt kvs 0
          exact keyAt_append_left _ h0
      · by_cases h4 : ls.isSome = true
        · obtain ⟨L, hLeq⟩ := Option.isSome_iff_exists.mp h4
          obtain ⟨hLh, hLne, hLs⟩ := hl L hLeq
          obtain ⟨Lk, rfl⟩ := hgt_zero_leaf hLh
          subst hLeq
          have hLs2 : sortedB (keysOf Lk ++ keysOf kvs) = true := hLs
          have hLkne : Lk ≠ [] := hLne
          have hL0 : 0 < Lk.length := List.length_pos.mpr hLkne
          have hmv := moveTail_spec_right kvs Lk 0 hLs2
          have hmv1 : (moveTail kvs Lk 0).1 = [] := by rw [hmv]; rfl
          have hmv2 : (moveTail kvs Lk 0).2 = Lk ++ kvs := by rw [hmv]; rfl
          rw [leafRmStep, hrm, if_neg h1, if_neg h2, if_neg h3, if_pos h4]
          simp only [Option.getD_some, leafKVs]
          rw [hmv1, hmv2, keyAt_append_left kvs hL0]
          right
          right
          right
          left
          exact ⟨.leaf [], .leaf (Lk ++ kvs), .leaf Lk, .leaf (Lk ++ kvs),
            SibTag.sleft, rfl, rfl, rfl, rfl, rfl, rfl, rfl,
            keyAt_append_left kvs hL0⟩
        · by_cases h5 : rs.isSome = true
          · obtain ⟨R, hReq⟩ := Option.isSome_iff_exists.mp h5
            obtain ⟨hRh, hRne, hRs⟩ := hr R hReq
            obtain ⟨Rk, rfl⟩ := hgt_zero_leaf hRh
            subst hReq
            have hRs2 : sortedB (keysOf kvs ++ keysOf Rk) = true := hRs
            have hmv := moveTail_spec_right Rk kvs 0 hRs2
            have hmv1 : (moveTail Rk kvs 0).1 = [] := by rw [hmv]; rfl
            have hmv2 : (moveTail Rk kvs 0).2 = kvs ++ Rk := by rw [hmv]; rfl
            rw [leafRmStep, hrm, if_neg h1, if_neg h2, if_neg h3, if_neg h4,
              if_pos h5]
            simp only [Option.getD_some, leafKVs]
            rw [hmv1, hmv2, keyAt_append_left Rk h0]
            right
            right
            right
            right
            exact ⟨.leaf (kvs ++ Rk), .leaf [], .leaf Rk, rfl, rfl, rfl, rfl,
              rfl, rfl, keyAt_append_left Rk h0⟩
          · exfalso
            rcases ls with _ | L
            · rcases rs with _ | R
              · exact h1 (Or.inr ⟨rfl, rfl⟩)
              · exact h5 rfl
            · exact h4 rfl


/-! ## Auxiliary flatten decomposition -/

theorem toListL_drop_cons {kcs : List (Nat × BPage)} {i : Nat}
    (h : i < kcs.length) :
    toListL (kcs.drop i) =
      toList (kcs.getD i (0, default)).2 ++ toListL (kcs.drop (i + 1)) := by
  rw [List.drop_eq_getElem_cons h,
    show toListL (kcs[i] :: kcs.drop (i + 1)) =
      toList kcs[i].2 ++ toListL (kcs.drop (i + 1)) from rfl,
    List.getD_eq_getElem _ _ h]

/-! ## The parent fix-up preserves contents, structure and uniformity -/

theorem fixup_pres (kcs : List (Nat × BPage)) (i h : Nat)
    (son : BPage) (l2 r2 : Option BPage) (dels : List Nat)
    (adds : List (Nat × SibTag))
    (hi : i < kcs.length) (hsl : structL kcs = true)
    (hs : sortedB (keysOf (toListL kcs)) = true) (hu : unifL kcs h = true)
    (hshape : rmShape (kcs.getD i (0, default)).2
      (if 1 ≤ i then some (valueAt kcs (i - 1)) else none)
      (if i + 1 < kcs.length then some (valueAt kcs (i + 1)) else none)
      (son, l2, r2, dels, adds)) :
    toListL (applyAdds (applyDels (updateChildren kcs i son l2 r2) dels) adds
        son l2 r2) = toListL kcs ∧
    structL (applyAdds (applyDels (updateChildren kcs i son l2 r2) dels) adds
        son l2 r2) = true ∧
    unifL (applyAdds (applyDels (updateChildren kcs i son l2 r2) dels) adds
        son l2 r2) h = true ∧
    applyAdds (applyDels (updateChildren kcs i son l2 r2) dels) adds son l2 r2 ≠
      [] := by
  have hks : sortedB (keysOf kcs) = true := node_keys_sorted hsl hs
  obtain ⟨hkeyi, hcne, hcsB⟩ := structL_forall.mp hsl _ (getD_mem (0, default) hi)
  obtain ⟨hch, hcu⟩ := unifL_forall.mp hu _ (getD_mem (0, default) hi)
  have hlentake : (kcs.take i).length = i := by
    rw [List.length_take]
    exact Nat.min_eq_left (le_of_lt hi)
  rcases hshape with ⟨son0, heq, hson, hsonB, hsonU, hsonH, hsonK⟩ | hB | hC | hD | hE
  · -- shape 1: the child was replaced in place, contents unchanged
    simp only [Prod.mk.injEq] at heq
    obtain ⟨rfl, rfl, rfl, rfl, rfl⟩ := heq
    rw [updateChildren_orig kcs i son]
    simp only [applyDels, applyAdds, List.foldl_cons, List.foldl_nil,
      resolveTag, Option.getD_some]
    have hZkeys : keysOf (kcs.set i ((kcs.getD i (0, default)).1, son)) =
        keysOf kcs := keysOf_set_keep kcs i _ son rfl
    have hZs : sortedB (keysOf (kcs.set i ((kcs.getD i (0, default)).1, son))) =
        true := by
      rw [hZkeys]
      exact hks
    have hZlen : i < (kcs.set i ((kcs.getD i (0, default)).1, son)).length := by
      rw [List.length_set]
      exact hi
    have hkZ : keyAt (kcs.set i ((kcs.getD i (0, default)).1, son)) i =
        pageKey0 (kcs.getD i (0, default)).2 := by
      rw [keyAt_congr_keys hZkeys i]
      exact hkeyi
    have hrmZ : pageRmD (kcs.set i ((kcs.getD i (0, default)).1, son))
        (pageKey0 (kcs.getD i (0, default)).2) =
        kcs.take i ++ kcs.drop (i + 1) := by
      rw [← hkZ, pageRmD_sorted_at hZs hZlen, take_set_eq, drop_succ_set_eq]
    rw [hrmZ]
    have htlt : ∀ a ∈ keysOf (kcs.take i),
        a < pageKey0 (kcs.getD i (0, default)).2 := by
      intro a ha
      have h1 := keys_take_stored_lt hks hi ha
      rw [show keyAt kcs i = pageKey0 (kcs.getD i (0, default)).2 from hkeyi] at h1
      exact h1
    have hdgt : ∀ a ∈ keysOf (kcs.drop (i + 1)),
        pageKey0 (kcs.getD i (0, default)).2 < a := by
      intro a ha
      have h1 := keys_drop_stored_gt hks (show i < i + 1 by omega) ha
      rw [show keyAt kcs i = pageKey0 (kcs.getD i (0, default)).2 from hkeyi] at h1
      exact h1
    have hBs : sortedB (keysOf (kcs.take i ++ kcs.drop (i + 1))) = true :=
      sortedB_rm_mid hks i
    have hins : pageInsD (kcs.take i ++ kcs.drop (i + 1))
        (pageKey0 (kcs.getD i (0, default)).2) son =
        kcs.take i ++ (pageKey0 (kcs.getD i (0, default)).2, son) ::
          kcs.drop (i + 1) := by
      have h2 := pageInsD_sorted_at hBs son i
        (by
          intro a ha
          rw [take_append_exact2 _ _ hlentake] at ha
          exact htlt a ha)
        (by
          intro a ha
          rw [drop_append_exact2 _ _ hlentake] at ha
          exact hdgt a ha)
      rwa [take_append_exact2 _ _ hlentake, drop_append_exact2 _ _ hlentake] at h2
    rw [hins]
    refine ⟨?_, ?_, ?_, by simp⟩
    · rw [toListL_append,
        show toListL ((pageKey0 (kcs.getD i (0, default)).2, son) ::
          kcs.drop (i + 1)) = toList son ++ toListL (kcs.drop (i + 1)) from rfl,
        hson, toListL_decomp hi, List.append_assoc]
    · refine structL_forall.mpr ?_
      intro kc hkc
      rcases List.mem_append.mp hkc with hkc | hkc
      · exact structL_forall.mp hsl _ (List.mem_of_mem_take hkc)
      · rcases List.mem_cons.mp hkc with rfl | hkc
        · exact ⟨hsonK.symm, by rw [hson]; exact hcne, hsonB⟩
        · exact structL_forall.mp hsl _ (List.mem_of_mem_drop hkc)
    · refine unifL_forall.mpr ?_
      intro kc hkc
      rcases List.mem_append.mp hkc with hkc | hkc
      · exact unifL_forall.mp hu _ (List.mem_of_mem_take hkc)
      · rcases List.mem_cons.mp hkc with rfl | hkc
        · exact ⟨by rw [hsonH]; exact hch, hsonU⟩
        · exact unifL_forall.mp hu _ (List.mem_of_mem_drop hkc)
  · -- shape 2: borrow from the left sibling
    obtain ⟨son0, L2, B1, B2, L, hLeq, heq, hLsplit, hB1ne, hB2ne, hL2t, hsont,
      hsonB, hsonU, hsonH, hL2B, hL2U, hL2H, hsonK, hL2K⟩ := hB
    simp only [Prod.mk.injEq] at heq
    obtain ⟨rfl, rfl, rfl, rfl, rfl⟩ := heq
    have hi1 : 1 ≤ i := by
      by_cases h1 : 1 ≤ i
      · exact h1
      · rw [if_neg h1] at hLeq
        exact absurd hLeq (by simp)
    rw [if_pos hi1] at hLeq
    have hLval : L = (kcs.getD (i - 1) (0, default)).2 := by
      injection hLeq with h2
      exact h2.symm
    subst hLval
    have hprevlen : i - 1 < kcs.length := by omega
    obtain ⟨hkeyp, hpne, hpsB⟩ :=
      structL_forall.mp hsl _ (getD_mem (0, default) hprevlen)
    obtain ⟨hph, hpu⟩ := unifL_forall.mp hu _ (getD_mem (0, default) hprevlen)
    rw [updateChildren_left kcs i son L2 _ hi1
      (by
        intro rp hrp
        by_cases h2 : i + 1 < kcs.length
        · rw [if_pos h2] at hrp
          injection hrp with h3
          exact h3.symm
        · rw [if_neg h2] at hrp
          exact absurd hrp (by simp))]
    simp only [applyDels, applyAdds, List.foldl_cons, List.foldl_nil,
      resolveTag, Option.getD_some]
    have hWkeys : keysOf ((kcs.set i ((kcs.getD i (0, default)).1, son)).set (i - 1)
        ((kcs.getD (i - 1) (0, default)).1, L2)) = keysOf kcs := by
      rw [keysOf_set_keep _ (i - 1) _ L2
          (by
            show (kcs.getD (i - 1) (0, default)).1 =
              ((kcs.set i ((kcs.getD i (0, default)).1, son)).getD (i - 1)
                (0, default)).1
            rw [getD_set_ne kcs i (i - 1) _ _ (by omega)])]
      exact keysOf_set_keep kcs i _ son rfl
    have hWs : sortedB (keysOf
        ((kcs.set i ((kcs.getD i (0, default)).1, son)).set (i - 1)
          ((kcs.getD (i - 1) (0, default)).1, L2))) = true := by
      rw [hWkeys]
      exact hks
    have hWlen : i < ((kcs.set i ((kcs.getD i (0, default)).1, son)).set (i - 1)
        ((kcs.getD (i - 1) (0, default)).1, L2)).length := by
      rw [List.length_set, List.length_set]
      exact hi
    have hkW : keyAt ((kcs.set i ((kcs.getD i (0, default)).1, son)).set (i - 1)
        ((kcs.getD (i - 1) (0, default)).1, L2)) i =
        pageKey0 (kcs.getD i (0, default)).2 := by
      rw [keyAt_congr_keys hWkeys i]
      exact hkeyi
    have hWtake : ((kcs.set i ((kcs.getD i (0, default)).1, son)).set (i - 1)
        ((kcs.getD (i - 1) (0, default)).1, L2)).take i =
        kcs.take (i - 1) ++ [((kcs.getD (i - 1) (0, default)).1, L2)] := by
      rw [take_set_comm, take_set_eq,
        set_eq_take_cons_drop _ _ _ (show i - 1 < (kcs.take i).length by
          rw [hlentake]
          omega),
        List.take_take, Nat.min_eq_left (show i - 1 ≤ i by omega),
        List.drop_eq_nil_of_le (by rw [hlentake]; omega)]
    have hWdrop : ((kcs.set i ((kcs.getD i (0, default)).1, son)).set (i - 1)
        ((kcs.getD (i - 1) (0, default)).1, L2)).drop (i + 1) =
        kcs.drop (i + 1) := by
      rw [drop_set_of_lt _ _ _ _ (by omega), drop_succ_set_eq]
    have hrmW : pageRmD ((kcs.set i ((kcs.getD i (0, default)).1, son)).set (i - 1)
        ((kcs.getD (i - 1) (0, default)).1, L2))
        (pageKey0 (kcs.getD i (0, default)).2) =
        (kcs.take (i - 1) ++ [((kcs.getD (i - 1) (0, default)).1, L2)]) ++
          kcs.drop (i + 1) := by
      rw [← hkW, pageRmD_sorted_at hWs hWlen, hWtake, hWdrop]
    rw [hrmW]
    have hBs : sortedB (keysOf ((kcs.take (i - 1) ++
        [((kcs.getD (i - 1) (0, default)).1, L2)]) ++ kcs.drop (i + 1))) = true := by
      have h2 := sortedB_rm_mid hWs i
      rwa [hWtake, hWdrop] at h2
    have hlen1 : (kcs.take (i - 1) ++
        [((kcs.getD (i - 1) (0, default)).1, L2)]).length = i := by
      rw [List.length_append, List.length_take,
        Nat.min_eq_left (show i - 1 ≤ kcs.length by omega), List.length_singleton]
      omega
    have hsKmem : pageKey0 son ∈
        keysOf (toList (kcs.getD (i - 1) (0, default)).2) := by
      rw [hLsplit, keysOf_append]
      refine List.mem_append_right _ ?_
      rw [hsonK]
      exact keyAt_mem (List.length_pos.mpr hB2ne)
    have hXlt : ∀ a ∈ keysOf (kcs.take (i - 1) ++
        [((kcs.getD (i - 1) (0, default)).1, L2)]), a < pageKey0 son := by
      intro a ha
      rw [keysOf_append] at ha
      rcases List.mem_append.mp ha with ha | ha
      · obtain ⟨j, hji, hjlen, hja⟩ := mem_keysOf_take ha
        have h2 := stored_lt_of_mem_later hsl hs (show j < i - 1 by omega)
          hprevlen hsKmem
        omega
      · have ha2 : a = (kcs.getD (i - 1) (0, default)).1 := by
          simpa [keysOf] using ha
        subst ha2
        rw [hkeyp]
        have hsegs : sortedB (keysOf
            (toList (kcs.getD (i - 1) (0, default)).2)) = true :=
          segment_sorted hs hprevlen
        rw [hLsplit, keysOf_append] at hsegs
        have hpk : pageKey0 (kcs.getD (i - 1) (0, default)).2 ∈ keysOf B1 := by
          rw [pageKey0_eq_head _ hpsB hpne, hLsplit,
            show keyAt (B1 ++ B2) 0 = keyAt B1 0 from
              keyAt_append_left _ (List.length_pos.mpr hB1ne)]
          exact keyAt_mem (List.length_pos.mpr hB1ne)
        rw [hsonK]
        exact sorted_cross hsegs hpk (keyAt_mem (List.length_pos.mpr hB2ne))
    have hQgt : ∀ a ∈ keysOf (kcs.drop (i + 1)), pageKey0 son < a := by
      intro a ha
      obtain ⟨j, hjm, hjlen, hja⟩ := mem_keysOf_drop ha
      have h2 := mem_lt_stored_later hsl hs (show i - 1 < j by omega) hjlen hsKmem
      omega
    have hins : pageInsD ((kcs.take (i - 1) ++
        [((kcs.getD (i - 1) (0, default)).1, L2)]) ++ kcs.drop (i + 1))
        (pageKey0 son) son =
        (kcs.take (i - 1) ++ [((kcs.getD (i - 1) (0, default)).1, L2)]) ++
          (pageKey0 son, son) :: kcs.drop (i + 1) := by
      have h2 := pageInsD_sorted_at hBs son i
        (by
          intro a ha
          rw [take_append_exact2 _ _ hlen1] at ha
          exact hXlt a ha)
        (by
          intro a ha
          rw [drop_append_exact2 _ _ hlen1] at ha
          exact hQgt a ha)
      rwa [take_append_exact2 _ _ hlen1, drop_append_exact2 _ _ hlen1] at h2
    rw [hins]
    refine ⟨?_, ?_, ?_, by simp⟩
    · rw [toListL_append, toListL_append,
        show toListL [((kcs.getD (i - 1) (0, default)).1, L2)] =
          toList L2 ++ toListL [] from rfl,
        show toListL ([] : List (Nat × BPage)) = [] from rfl, List.append_nil,
        show toListL ((pageKey0 son, son) :: kcs.drop (i + 1)) =
          toList son ++ toListL (kcs.drop (i + 1)) from rfl,
        hL2t, hsont]
      have hdec := toListL_decomp hprevlen
      rw [show i - 1 + 1 = i from by omega, toListL_drop_cons hi] at hdec
      rw [hdec, hLsplit]
      simp only [List.append_assoc]
    · refine structL_forall.mpr ?_
      intro kc hkc
      rcases List.mem_append.mp hkc with hkc | hkc
      · rcases List.mem_append.mp hkc with hkc | hkc
        · exact structL_forall.mp hsl _ (List.mem_of_mem_take hkc)
        · have hkc2 : kc = ((kcs.getD (i - 1) (0, default)).1, L2) := by
            simpa using hkc
          subst hkc2
          refine ⟨?_, by rw [hL2t]; exact hB1ne, hL2B⟩
          show (kcs.getD (i - 1) (0, default)).1 = pageKey0 L2
          rw [hkeyp]
          exact hL2K.symm
      · rcases List.mem_cons.mp hkc with rfl | hkc
        · refine ⟨rfl, ?_, hsonB⟩
          rw [hsont]
          intro hcon
          exact hB2ne (List.append_eq_nil.mp hcon).1
        · exact structL_forall.mp hsl _ (List.mem_of_mem_drop hkc)
    · refine unifL_forall.mpr ?_
      intro kc hkc
      rcases List.mem_append.mp hkc with hkc | hkc
      · rcases List.mem_append.mp hkc with hkc | hkc
        · exact unifL_forall.mp hu _ (List.mem_of_mem_take hkc)
        · have hkc2 : kc = ((kcs.getD (i - 1) (0, default)).1, L2) := by
            simpa using hkc
          subst hkc2
          refine ⟨?_, hL2U⟩
          show hgt L2 = h
          rw [hL2H]
          exact hch
      · rcases List.mem_cons.mp hkc with rfl | hkc
        · exact ⟨by rw [hsonH]; exact hch, hsonU⟩
        · exact unifL_forall.mp hu _ (List.mem_of_mem_drop hkc)
  · -- shape 3: borrow from the right sibling
    obtain ⟨son0, R2, B1, B2, R, hReq, heq, hRsplit, hB1ne, hB2ne, hR2t, hsont,
      hsonB, hsonU, hsonH, hR2B, hR2U, hR2H, hsonK, hR2K⟩ := hC
    simp only [Prod.mk.injEq] at heq
    obtain ⟨rfl, rfl, rfl, rfl, rfl⟩ := heq
    have hi2 : i + 1 < kcs.length := by
      by_cases h2 : i + 1 < kcs.length
      · exact h2
      · rw [if_neg h2] at hReq
        exact absurd hReq (by simp)
    rw [if_pos hi2] at hReq
    have hRval : R = (kcs.getD (i + 1) (0, default)).2 := by
      injection hReq with h2
      exact h2.symm
    subst hRval
    obtain ⟨hkeyn, hnne, hnsB⟩ :=
      structL_forall.mp hsl _ (getD_mem (0, default) hi2)
    rw [updateChildren_right kcs i son R2 _
      (by
        intro lp hlp
        by_cases h2 : 1 ≤ i
        · rw [if_pos h2] at hlp
          injection hlp with h3
          exact ⟨h2, h3.symm⟩
        · rw [if_neg h2] at hlp
          exact absurd hlp (by simp))]
    simp only [applyDels, applyAdds, List.foldl_cons, List.foldl_nil,
      resolveTag, Option.getD_some]
    have hWkeys : keysOf ((kcs.set i ((kcs.getD i (0, default)).1, son)).set (i + 1)
        ((kcs.getD (i + 1) (0, default)).1, R2)) = keysOf kcs := by
      rw [keysOf_set_keep _ (i + 1) _ R2
          (by
            show (kcs.getD (i + 1) (0, default)).1 =
              ((kcs.set i ((kcs.getD i (0, default)).1, son)).getD (i + 1)
                (0, default)).1
            rw [getD_set_ne kcs i (i + 1) _ _ (by omega)])]
      exact keysOf_set_keep kcs i _ son rfl
    have hWs : sortedB (keysOf
        ((kcs.set i ((kcs.getD i (0, default)).1, son)).set (i + 1)
          ((kcs.getD (i + 1) (0, default)).1, R2))) = true := by
      rw [hWkeys]
      exact hks
    have hWlen : i < ((kcs.set i ((kcs.getD i (0, default)).1, son)).set (i + 1)
        ((kcs.getD (i + 1) (0, default)).1, R2)).length := by
      rw [List.length_set, List.length_set]
      exact hi
    have hkW : keyAt ((kcs.set i ((kcs.getD i (0, default)).1, son)).set (i + 1)
        ((kcs.getD (i + 1) (0, default)).1, R2)) i =
        pageKey0 (kcs.getD i (0, default)).2 := by
      rw [keyAt_congr_keys hWkeys i]
      exact hkeyi
    have hWtake : ((kcs.set i ((kcs.getD i (0, default)).1, son)).set (i + 1)
        ((kcs.getD (i + 1) (0, default)).1, R2)).take i = kcs.take i := by
      rw [take_set_of_ge _ _ _ _ (by omega), take_set_eq]
    have hWdrop : ((kcs.set i ((kcs.getD i (0, default)).1, son)).set (i + 1)
        ((kcs.getD (i + 1) (0, default)).1, R2)).drop (i + 1) =
        ((kcs.getD (i + 1) (0, default)).1, R2) :: kcs.drop (i + 2) := by
      rw [drop_set_self _ _ _ (by rw [List.length_set]; omega),
        drop_set_of_lt _ _ _ _ (by omega)]
    have hW1 : pageRmD ((kcs.set i ((kcs.getD i (0, default)).1, son)).set (i + 1)
        ((kcs.getD (i + 1) (0, default)).1, R2))
        (pageKey0 (kcs.getD i (0, default)).2) =
        kcs.take i ++ ((kcs.getD (i + 1) (0, default)).1, R2) ::
          kcs.drop (i + 2) := by
      rw [← hkW, pageRmD_sorted_at hWs hWlen, hWtake, hWdrop]
    rw [hW1]
    have hW1s : sortedB (keysOf (kcs.take i ++
        ((kcs.getD (i + 1) (0, default)).1, R2) :: kcs.drop (i + 2))) = true := by
      have h2 := sortedB_rm_mid hWs i
      rwa [hWtake, hWdrop] at h2
    have hkW1 : keyAt (kcs.take i ++
        ((kcs.getD (i + 1) (0, default)).1, R2) :: kcs.drop (i + 2)) i =
        pageKey0 (kcs.getD (i + 1) (0, default)).2 := by
      rw [keyAt_append_mid _ _ _ hlentake]
      exact hkeyn
    have hW1len : i < (kcs.take i ++
        ((kcs.getD (i + 1) (0, default)).1, R2) :: kcs.drop (i + 2)).length := by
      rw [List.length_append, hlentake, List.length_cons]
      omega
    have hW2 : pageRmD (kcs.take i ++
        ((kcs.getD (i + 1) (0, default)).1, R2) :: kcs.drop (i + 2))
        (pageKey0 (kcs.getD (i + 1) (0, default)).2) =
        kcs.take i ++ kcs.drop (i + 2) := by
      rw [← hkW1, pageRmD_sorted_at hW1s hW1len,
        take_append_exact2 _ _ hlentake,
        drop_append_succ _ _ _ (by rw [hlentake])]
    rw [hW2]
    have hW2s : sortedB (keysOf (kcs.take i ++ kcs.drop (i + 2))) = true := by
      have h2 := sortedB_rm_mid hW1s i
      rwa [take_append_exact2 _ _ hlentake,
        drop_append_succ _ _ _ (by rw [hlentake])] at h2
    have htlt : ∀ a ∈ keysOf (kcs.take i),
        a < pageKey0 (kcs.getD i (0, default)).2 := by
      intro a ha
      have h1 := keys_take_stored_lt hks hi ha
      rw [show keyAt kcs i = pageKey0 (kcs.getD i (0, default)).2 from hkeyi] at h1
      exact h1
    have hd2gt : ∀ a ∈ keysOf (kcs.drop (i + 2)),
        pageKey0 (kcs.getD i (0, default)).2 < a := by
      intro a ha
      have h1 := keys_drop_stored_gt hks (show i < i + 2 by omega) ha
      rw [show keyAt kcs i = pageKey0 (kcs.getD i (0, default)).2 from hkeyi] at h1
      exact h1
    have hins1 : pageInsD (kcs.take i ++ kcs.drop (i + 2))
        (pageKey0 (kcs.getD i (0, default)).2) son =
        kcs.take i ++ (pageKey0 (kcs.getD i (0, default)).2, son) ::
          kcs.drop (i + 2) := by
      have h2 := pageInsD_sorted_at hW2s son i
        (by
          intro a ha
          rw [take_append_exact2 _ _ hlentake] at ha
          exact htlt a ha)
        (by
          intro a ha
          rw [drop_append_exact2 _ _ hlentake] at ha
          exact hd2gt a ha)
      rwa [take_append_exact2 _ _ hlentake, drop_append_exact2 _ _ hlentake] at h2
    rw [hins1]
    have hC1assoc : kcs.take i ++
        (pageKey0 (kcs.getD i (0, default)).2, son) :: kcs.drop (i + 2) =
        (kcs.take i ++ [(pageKey0 (kcs.getD i (0, default)).2, son)]) ++
          kcs.drop (i + 2) := by
      rw [List.append_assoc]
      rfl
    have hlenX2 : (kcs.take i ++
        [(pageKey0 (kcs.getD i (0, default)).2, son)]).length = i + 1 := by
      rw [List.length_append, hlentake, List.length_singleton]
    have hsK2mem : pageKey0 R2 ∈
        keysOf (toList (kcs.getD (i + 1) (0, default)).2) := by
      rw [hRsplit, keysOf_append]
      refine List.mem_append_right _ ?_
      rw [hR2K]
      exact keyAt_mem (List.length_pos.mpr hB2ne)
    have hC1s : sortedB (keysOf ((kcs.take i ++
        [(pageKey0 (kcs.getD i (0, default)).2, son)]) ++
        kcs.drop (i + 2))) = true := by
      have h2 : sortedB (keysOf (kcs.take i ++
          (pageKey0 (kcs.getD i (0, default)).2, son) :: kcs.drop (i + 2))) =
          true := sortedB_ins_mid hW2s htlt hd2gt
      rwa [hC1assoc] at h2
    have hXlt2 : ∀ a ∈ keysOf (kcs.take i ++
        [(pageKey0 (kcs.getD i (0, default)).2, son)]), a < pageKey0 R2 := by
      intro a ha
      rw [keysOf_append] at ha
      rcases List.mem_append.mp ha with ha | ha
      · obtain ⟨j, hji, hjlen, hja⟩ := mem_keysOf_take ha
        have h2 := stored_lt_of_mem_later hsl hs (show j < i + 1 by omega)
          hi2 hsK2mem
        omega
      · have ha2 : a = pageKey0 (kcs.getD i (0, default)).2 := by
          simpa [keysOf] using ha
        subst ha2
        have h2 := stored_lt_of_mem_later hsl hs (show i < i + 1 by omega)
          hi2 hsK2mem
        rw [show keyAt kcs i = pageKey0 (kcs.getD i (0, default)).2 from
          hkeyi] at h2
        exact h2
    have hQgt2 : ∀ a ∈ keysOf (kcs.drop (i + 2)), pageKey0 R2 < a := by
      intro a ha
      obtain ⟨j, hjm, hjlen, hja⟩ := mem_keysOf_drop ha
      have h2 := mem_lt_stored_later hsl hs (show i + 1 < j by omega) hjlen hsK2mem
      omega
    have hins2 : pageInsD ((kcs.take i ++
        [(pageKey0 (kcs.getD i (0, default)).2, son)]) ++ kcs.drop (i + 2))
        (pageKey0 R2) R2 =
        (kcs.take i ++ [(pageKey0 (kcs.getD i (0, default)).2, son)]) ++
          (pageKey0 R2, R2) :: kcs.drop (i + 2) := by
      have h2 := pageInsD_sorted_at hC1s R2 (i + 1)
        (by
          intro a ha
          rw [take_append_exact2 _ _ hlenX2] at ha
          exact hXlt2 a ha)
        (by
          intro a ha
          rw [drop_append_exact2 _ _ hlenX2] at ha
          exact hQgt2 a ha)
      rwa [take_append_exact2 _ _ hlenX2, drop_append_exact2 _ _ hlenX2] at h2
    rw [hC1assoc, hins2]
    refine ⟨?_, ?_, ?_, by simp⟩
    · rw [toListL_append, toListL_append,
        show toListL [(pageKey0 (kcs.getD i (0, default)).2, son)] =
          toList son ++ toListL [] from rfl,
        show toListL ([] : List (Nat × BPage)) = [] from rfl, List.append_nil,
        show toListL ((pageKey0 R2, R2) :: kcs.drop (i + 2)) =
          toList R2 ++ toListL (kcs.drop (i + 2)) from rfl,
        hsont, hR2t]
      have hdec := toListL_decomp hi
      rw [toListL_drop_cons hi2] at hdec
      rw [hdec, hRsplit]
      simp only [List.append_assoc]
    · refine structL_forall.mpr ?_
      intro kc hkc
      rcases List.mem_append.mp hkc with hkc | hkc
      · rcases List.mem_append.mp hkc with hkc | hkc
        · exact structL_forall.mp hsl _ (List.mem_of_mem_take hkc)
        · have hkc2 : kc = (pageKey0 (kcs.getD i (0, default)).2, son) := by
            simpa using hkc
          subst hkc2
          refine ⟨hsonK.symm, ?_, hsonB⟩
          rw [hsont]
          intro hcon
          exact hcne (List.append_eq_nil.mp hcon).1
      · rcases List.mem_cons.mp hkc with rfl | hkc
        · exact ⟨rfl, by rw [hR2t]; exact hB2ne, hR2B⟩
        · exact structL_forall.mp hsl _ (List.mem_of_mem_drop hkc)
    · refine unifL_forall.mpr ?_
      intro kc hkc
      rcases List.mem_append.mp hkc with hkc | hkc
      · rcases List.mem_append.mp hkc with hkc | hkc
        · exact unifL_forall.mp hu _ (List.mem_of_mem_take hkc)
        · have hkc2 : kc = (pageKey0 (kcs.getD i (0, default)).2, son) := by
            simpa using hkc
          subst hkc2
          exact ⟨by rw [hsonH]; exact hch, hsonU⟩
      · rcases List.mem_cons.mp hkc with rfl | hkc
        · refine ⟨?_, hR2U⟩
          show hgt R2 = h
          rw [hR2H]
          exact hch
        · exact unifL_forall.mp hu _ (List.mem_of_mem_drop hkc)
  · -- shape 4: merge with the left sibling
    obtain ⟨son0, l2p, L, M, tg, hLeq, heq, hMres, hMt, hMB, hMU, hMH, hMK⟩ := hD
    simp only [Prod.mk.injEq] at heq
    obtain ⟨rfl, rfl, rfl, rfl, rfl⟩ := heq
    have hi1 : 1 ≤ i := by
      by_cases h1 : 1 ≤ i
      · exact h1
      · rw [if_neg h1] at hLeq
        exact absurd hLeq (by simp)
    rw [if_pos hi1] at hLeq
    have hLval : L = (kcs.getD (i - 1) (0, default)).2 := by
      injection hLeq with h2
      exact h2.symm
    subst hLval
    have hprevlen : i - 1 < kcs.length := by omega
    obtain ⟨hkeyp, hpne, hpsB⟩ :=
      structL_forall.mp hsl _ (getD_mem (0, default) hprevlen)
    rw [updateChildren_left kcs i son l2p _ hi1
      (by
        intro rp hrp
        by_cases h2 : i + 1 < kcs.length
        · rw [if_pos h2] at hrp
          injection hrp with h3
          exact h3.symm
        · rw [if_neg h2] at hrp
          exact absurd hrp (by simp))]
    simp only [applyDels, applyAdds, List.foldl_cons, List.foldl_nil]
    rw [hMres]
    have hWkeys : keysOf ((kcs.set i ((kcs.getD i (0, default)).1, son)).set (i - 1)
        ((kcs.getD (i - 1) (0, default)).1, l2p)) = keysOf kcs := by
      rw [keysOf_set_keep _ (i - 1) _ l2p
          (by
            show (kcs.getD (i - 1) (0, default)).1 =
              ((kcs.set i ((kcs.getD i (0, default)).1, son)).getD (i - 1)
                (0, default)).1
            rw [getD_set_ne kcs i (i - 1) _ _ (by omega)])]
      exact keysOf_set_keep kcs i _ son rfl
    have hWs : sortedB (keysOf
        ((kcs.set i ((kcs.getD i (0, default)).1, son)).set (i - 1)
          ((kcs.getD (i - 1) (0, default)).1, l2p))) = true := by
      rw [hWkeys]
      exact hks
    have hWlen : i < ((kcs.set i ((kcs.getD i (0, default)).1, son)).set (i - 1)
        ((kcs.getD (i - 1) (0, default)).1, l2p)).length := by
      rw [List.length_set, List.length_set]
      exact hi
    have hkW : keyAt ((kcs.set i ((kcs.getD i (0, default)).1, son)).set (i - 1)
        ((kcs.getD (i - 1) (0, default)).1, l2p)) i =
        pageKey0 (kcs.getD i (0, default)).2 := by
      rw [keyAt_congr_keys hWkeys i]
      exact hkeyi
    have hWtake : ((kcs.set i ((kcs.getD i (0, default)).1, son)).set (i - 1)
        ((kcs.getD (i - 1) (0, default)).1, l2p)).take i =
        kcs.take (i - 1) ++ [((kcs.getD (i - 1) (0, default)).1, l2p)] := by
      rw [take_set_comm, take_set_eq,
        set_eq_take_cons_drop _ _ _ (show i - 1 < (kcs.take i).length by
          rw [hlentake]
          omega),
        List.take_take, Nat.min_eq_left (show i - 1 ≤ i by omega),
        List.drop_eq_nil_of_le (by rw [hlentake]; omega)]
    have hWdrop : ((kcs.set i ((kcs.getD i (0, default)).1, son)).set (i - 1)
        ((kcs.getD (i - 1) (0, default)).1, l2p)).drop (i + 1) =
        kcs.drop (i + 1) := by
      rw [drop_set_of_lt _ _ _ _ (by omega), drop_succ_set_eq]
    have hrmW : pageRmD ((kcs.set i ((kcs.getD i (0, default)).1, son)).set (i - 1)
        ((kcs.getD (i - 1) (0, default)).1, l2p))
        (pageKey0 (kcs.getD i (0, default)).2) =
        (kcs.take (i - 1) ++ [((kcs.getD (i - 1) (0, default)).1, l2p)]) ++
          kcs.drop (i + 1) := by
      rw [← hkW, pageRmD_sorted_at hWs hWlen, hWtake, hWdrop]
    rw [hrmW]
    have hassoc : (kcs.take (i - 1) ++
        [((kcs.getD (i - 1) (0, default)).1, l2p)]) ++ kcs.drop (i + 1) =
        kcs.take (i - 1) ++ ((kcs.getD (i - 1) (0, default)).1, l2p) ::
          kcs.drop (i + 1) := by
      rw [List.append_assoc]
      rfl
    rw [hassoc]
    have hlenP : (kcs.take (i - 1)).length = i - 1 := by
      rw [List.length_take]
      exact Nat.min_eq_left (by omega)
    have hW1s : sortedB (keysOf (kcs.take (i - 1) ++
        ((kcs.getD (i - 1) (0, default)).1, l2p) :: kcs.drop (i + 1))) = true := by
      have h2 := sortedB_rm_mid hWs i
      rw [hWtake, hWdrop] at h2
      rwa [hassoc] at h2
    have hkW1 : keyAt (kcs.take (i - 1) ++
        ((kcs.getD (i - 1) (0, default)).1, l2p) :: kcs.drop (i + 1)) (i - 1) =
        pageKey0 (kcs.getD (i - 1) (0, default)).2 := by
      rw [keyAt_append_mid _ _ _ hlenP]
      exact hkeyp
    have hW1len : i - 1 < (kcs.take (i - 1) ++
        ((kcs.getD (i - 1) (0, default)).1, l2p) :: kcs.drop (i + 1)).length := by
      rw [List.length_append, hlenP, List.length_cons]
      omega
    have hW2 : pageRmD (kcs.take (i - 1) ++
        ((kcs.getD (i - 1) (0, default)).1, l2p) :: kcs.drop (i + 1))
        (pageKey0 (kcs.getD (i - 1) (0, default)).2) =
        kcs.take (i - 1) ++ kcs.drop (i + 1) := by
      rw [← hkW1, pageRmD_sorted_at hW1s hW1len,
        take_append_exact2 _ _ hlenP,
        drop_append_succ _ _ _ (by rw [hlenP])]
    rw [hW2]
    have hW2s : sortedB (keysOf (kcs.take (i - 1) ++ kcs.drop (i + 1))) = true := by
      have h2 := sortedB_rm_mid hW1s (i - 1)
      rwa [take_append_exact2 _ _ hlenP,
        drop_append_succ _ _ _ (by rw [hlenP])] at h2
    have htltp : ∀ a ∈ keysOf (kcs.take (i - 1)),
        a < pageKey0 (kcs.getD (i - 1) (0, default)).2 := by
      intro a ha
      have h1 := keys_take_stored_lt hks hprevlen ha
      rw [show keyAt kcs (i - 1) = pageKey0 (kcs.getD (i - 1) (0, default)).2 from
        hkeyp] at h1
      exact h1
    have hdgtp : ∀ a ∈ keysOf (kcs.drop (i + 1)),
        pageKey0 (kcs.getD (i - 1) (0, default)).2 < a := by
      intro a ha
      have h1 := keys_drop_stored_gt hks (show i - 1 < i + 1 by omega) ha
      rw [show keyAt kcs (i - 1) = pageKey0 (kcs.getD (i - 1) (0, default)).2 from
        hkeyp] at h1
      exact h1
    have hins : pageInsD (kcs.take (i - 1) ++ kcs.drop (i + 1))
        (pageKey0 (kcs.getD (i - 1) (0, default)).2) M =
        kcs.take (i - 1) ++ (pageKey0 (kcs.getD (i - 1) (0, default)).2, M) ::
          kcs.drop (i + 1) := by
      have h2 := pageInsD_sorted_at hW2s M (i - 1)
        (by
          intro a ha
          rw [take_append_exact2 _ _ hlenP] at ha
          exact htltp a ha)
        (by
          intro a ha
          rw [drop_append_exact2 _ _ hlenP] at ha
          exact hdgtp a ha)
      rwa [take_append_exact2 _ _ hlenP, drop_append_exact2 _ _ hlenP] at h2
    rw [hins]
    refine ⟨?_, ?_, ?_, by simp⟩
    · rw [toListL_append,
        show toListL ((pageKey0 (kcs.getD (i - 1) (0, default)).2, M) ::
          kcs.drop (i + 1)) = toList M ++ toListL (kcs.drop (i + 1)) from rfl,
        hMt]
      have hdec := toListL_decomp hprevlen
      rw [show i - 1 + 1 = i from by omega, toListL_drop_cons hi] at hdec
      rw [hdec]
      simp only [List.append_assoc]
    · refine structL_forall.mpr ?_
      intro kc hkc
      rcases List.mem_append.mp hkc with hkc | hkc
      · exact structL_forall.mp hsl _ (List.mem_of_mem_take hkc)
      · rcases List.mem_cons.mp hkc with rfl | hkc
        · refine ⟨hMK.symm, ?_, hMB⟩
          rw [hMt]
          intro hcon
          exact hpne (List.append_eq_nil.mp hcon).1
        · exact structL_forall.mp hsl _ (List.mem_of_mem_drop hkc)
    · refine unifL_forall.mpr ?_
      intro kc hkc
      rcases List.mem_append.mp hkc with hkc | hkc
      · exact unifL_forall.mp hu _ (List.mem_of_mem_take hkc)
      · rcases List.mem_cons.mp hkc with rfl | hkc
        · exact ⟨by rw [hMH]; exact hch, hMU⟩
        · exact unifL_forall.mp hu _ (List.mem_of_mem_drop hkc)
  · -- shape 5: absorb the right sibling
    obtain ⟨son0, r2p, R, hReq, heq, hsont, hsonB, hsonU, hsonH, hsonK⟩ := hE
    simp only [Prod.mk.injEq] at heq
    obtain ⟨rfl, rfl, rfl, rfl, rfl⟩ := heq
    have hi2 : i + 1 < kcs.length := by
      by_cases h2 : i + 1 < kcs.length
      · exact h2
      · rw [if_neg h2] at hReq
        exact absurd hReq (by simp)
    rw [if_pos hi2] at hReq
    have hRval : R = (kcs.getD (i + 1) (0, default)).2 := by
      injection hReq with h2
      exact h2.symm
    subst hRval
    obtain ⟨hkeyn, hnne, hnsB⟩ :=
      structL_forall.mp hsl _ (getD_mem (0, default) hi2)
    rw [updateChildren_right kcs i son r2p _
      (by
        intro lp hlp
        by_cases h2 : 1 ≤ i
        · rw [if_pos h2] at hlp
          injection hlp with h3
          exact ⟨h2, h3.symm⟩
        · rw [if_neg h2] at hlp
          exact absurd hlp (by simp))]
    simp only [applyDels, applyAdds, List.foldl_cons, List.foldl_nil,
      resolveTag, Option.getD_some]
    have hWkeys : keysOf ((kcs.set i ((kcs.getD i (0, default)).1, son)).set (i + 1)
        ((kcs.getD (i + 1) (0, default)).1, r2p)) = keysOf kcs := by
      rw [keysOf_set_keep _ (i + 1) _ r2p
          (by
            show (kcs.getD (i + 1) (0, default)).1 =
              ((kcs.set i ((kcs.getD i (0, default)).1, son)).getD (i + 1)
                (0, default)).1
            rw [getD_set_ne kcs i (i + 1) _ _ (by omega)])]
      exact keysOf_set_keep kcs i _ son rfl
    have hWs : sortedB (keysOf
        ((kcs.set i ((kcs.getD i (0, default)).1, son)).set (i + 1)
          ((kcs.getD (i + 1) (0, default)).1, r2p))) = true := by
      rw [hWkeys]
      exact hks
    have hWlen : i < ((kcs.set i ((kcs.getD i (0, default)).1, son)).set (i + 1)
        ((kcs.getD (i + 1) (0, default)).1, r2p)).length := by
      rw [List.length_set, List.length_set]
      exact hi
    have hkW : keyAt ((kcs.set i ((kcs.getD i (0, default)).1, son)).set (i + 1)
        ((kcs.getD (i + 1) (0, default)).1, r2p)) i =
        pageKey0 (kcs.getD i (0, default)).2 := by
      rw [keyAt_congr_keys hWkeys i]
      exact hkeyi
    have hWtake : ((kcs.set i ((kcs.getD i (0, default)).1, son)).set (i + 1)
        ((kcs.getD (i + 1) (0, default)).1, r2p)).take i = kcs.take i := by
      rw [take_set_of_ge _ _ _ _ (by omega), take_set_eq]
    have hWdrop : ((kcs.set i ((kcs.getD i (0, default)).1, son)).set (i + 1)
        ((kcs.getD (i + 1) (0, default)).1, r2p)).drop (i + 1) =
        ((kcs.getD (i + 1) (0, default)).1, r2p) :: kcs.drop (i + 2) := by
      rw [drop_set_self _ _ _ (by rw [List.length_set]; omega),
        drop_set_of_lt _ _ _ _ (by omega)]
    have hW1 : pageRmD ((kcs.set i ((kcs.getD i (0, default)).1, son)).set (i + 1)
        ((kcs.getD (i + 1) (0, default)).1, r2p))
        (pageKey0 (kcs.getD i (0, default)).2) =
        kcs.take i ++ ((kcs.getD (i + 1) (0, default)).1, r2p) ::
          kcs.drop (i + 2) := by
      rw [← hkW, pageRmD_sorted_at hWs hWlen, hWtake, hWdrop]
    rw [hW1]
    have hW1s : sortedB (keysOf (kcs.take i ++
        ((kcs.getD (i + 1) (0, default)).1, r2p) :: kcs.drop (i + 2))) = true := by
      have h2 := sortedB_rm_mid hWs i
      rwa [hWtake, hWdrop] at h2
    have hkW1 : keyAt (kcs.take i ++
        ((kcs.getD (i + 1) (0, default)).1, r2p) :: kcs.drop (i + 2)) i =
        pageKey0 (kcs.getD (i + 1) (0, default)).2 := by
      rw [keyAt_append_mid _ _ _ hlentake]
      exact hkeyn
    have hW1len : i < (kcs.take i ++
        ((kcs.getD (i + 1) (0, default)).1, r2p) :: kcs.drop (i + 2)).length := by
      rw [List.length_append, hlentake, List.length_cons]
      omega
    have hW2 : pageRmD (kcs.take i ++
        ((kcs.getD (i + 1) (0, default)).1, r2p) :: kcs.drop (i + 2))
        (pageKey0 (kcs.getD (i + 1) (0, default)).2) =
        kcs.take i ++ kcs.drop (i + 2) := by
      rw [← hkW1, pageRmD_sorted_at hW1s hW1len,
        take_append_exact2 _ _ hlentake,
        drop_append_succ _ _ _ (by rw [hlentake])]
    rw [hW2]
    have hW2s : sortedB (keysOf (kcs.take i ++ kcs.drop (i + 2))) = true := by
      have h2 := sortedB_rm_mid hW1s i
      rwa [take_append_exact2 _ _ hlentake,
        drop_append_succ _ _ _ (by rw [hlentake])] at h2
    have htlt : ∀ a ∈ keysOf (kcs.take i),
        a < pageKey0 (kcs.getD i (0, default)).2 := by
      intro a ha
      have h1 := keys_take_stored_lt hks hi ha
      rw [show keyAt kcs i = pageKey0 (kcs.getD i (0, default)).2 from hkeyi] at h1
      exact h1
    have hd2gt : ∀ a ∈ keysOf (kcs.drop (i + 2)),
        pageKey0 (kcs.getD i (0, default)).2 < a := by
      intro a ha
      have h1 := keys_drop_stored_gt hks (show i < i + 2 by omega) ha
      rw [show keyAt kcs i = pageKey0 (kcs.getD i (0, default)).2 from hkeyi] at h1
      exact h1
    have hins : pageInsD (kcs.take i ++ kcs.drop (i + 2))
        (pageKey0 (kcs.getD i (0, default)).2) son =
        kcs.take i ++ (pageKey0 (kcs.getD i (0, default)).2, son) ::
          kcs.drop (i + 2) := by
      have h2 := pageInsD_sorted_at hW2s son i
        (by
          intro a ha
          rw [take_append_exact2 _ _ hlentake] at ha
          exact htlt a ha)
        (by
          intro a ha
          rw [drop_append_exact2 _ _ hlentake] at ha
          exact hd2gt a ha)
      rwa [take_append_exact2 _ _ hlentake, drop_append_exact2 _ _ hlentake] at h2
    rw [hins]
    refine ⟨?_, ?_, ?_, by simp⟩
    · rw [toListL_append,
        show toListL ((pageKey0 (kcs.getD i (0, default)).2, son) ::
          kcs.drop (i + 2)) = toList son ++ toListL (kcs.drop (i + 2)) from rfl,
        hsont]
      have hdec := toListL_decomp hi
      rw [toListL_drop_cons hi2] at hdec
      rw [hdec]
      simp only [List.append_assoc]
    · refine structL_forall.mpr ?_
      intro kc hkc
      rcases List.mem_append.mp hkc with hkc | hkc
      · exact structL_forall.mp hsl _ (List.mem_of_mem_take hkc)
      · rcases List.mem_cons.mp hkc with rfl | hkc
        · refine ⟨hsonK.symm, ?_, hsonB⟩
          rw [hsont]
          intro hcon
          exact hcne (List.append_eq_nil.mp hcon).1
        · exact structL_forall.mp hsl _ (List.mem_of_mem_drop hkc)
    · refine unifL_forall.mpr ?_
      intro kc hkc
      rcases List.mem_append.mp hkc with hkc | hkc
      · exact unifL_forall.mp hu _ (List.mem_of_mem_take hkc)
      · rcases List.mem_cons.mp hkc with rfl | hkc
        · exact ⟨by rw [hsonH]; exact hch, hsonU⟩
        · exact unifL_forall.mp hu _ (List.mem_of_mem_drop hkc)


/-! ## The internal-page underflow layer of `DfsRemove` -/

theorem toListL_singleton (e : Nat × BPage) : toListL [e] = toList e.2 := by
  show toList e.2 ++ toListL [] = toList e.2
  rw [show toListL ([] : List (Nat × BPage)) = [] from rfl, List.append_nil]

theorem head_key_eq_of_flatten {kcs k2 : List (Nat × BPage)}
    (hsl : structL kcs = true) (hkne : kcs ≠ [])
    (hk2sl : structL k2 = true) (hk2ne : k2 ≠ [])
    (ht : toListL k2 = toListL kcs) : keyAt k2 0 = keyAt kcs 0 := by
  rw [pageKey0_eq_headL k2 hk2sl hk2ne, pageKey0_eq_headL kcs hsl hkne, ht]

theorem nodeRmFinish_shape (iM : Nat) (kcs k2 : List (Nat × BPage)) (h : Nat)
    (ls rs : Option BPage)
    (hsl : structL kcs = true) (hs : sortedB (keysOf (toListL kcs)) = true)
    (hu : unifL kcs h = true) (hkne : kcs ≠ [])
    (hk2t : toListL k2 = toListL kcs) (hk2sl : structL k2 = true)
    (hk2u : unifL k2 h = true) (hk2ne : k2 ≠ [])
    (hl : ∀ L, ls = some L → structB L = true ∧ unifB L = true ∧
      hgt L = 1 + h ∧ toList L ≠ [] ∧
      sortedB (keysOf (toList L) ++ keysOf (toListL kcs)) = true)
    (hr : ∀ R, rs = some R → structB R = true ∧ unifB R = true ∧
      hgt R = 1 + h ∧ toList R ≠ [] ∧
      sortedB (keysOf (toListL kcs) ++ keysOf (toList R)) = true) :
    rmShape (.node kcs) ls rs (nodeRmFinish iM k2 (keyAt kcs 0) ls rs) := by
  have hk2s : sortedB (keysOf (toListL k2)) = true := by
    rw [hk2t]
    exact hs
  have hk2ks : sortedB (keysOf k2) = true := node_keys_sorted hk2sl hk2s
  have hk20 : 0 < k2.length := List.length_pos.mpr hk2ne
  have hkk : keyAt k2 0 = keyAt kcs 0 :=
    head_key_eq_of_flatten hsl hkne hk2sl hk2ne hk2t
  have hkcsU := unifB_node hkne hu
  by_cases h1 : minSize iM ≤ k2.length ∨ (ls.isNone = true ∧ rs.isNone = true)
  · rw [nodeRmFinish, if_pos h1, hkk]
    left
    refine ⟨.node k2, rfl, ?_, ?_, ?_, ?_, ?_⟩
    · exact hk2t
    · exact structB_node_intro hk2ne hk2sl
    · exact (unifB_node hk2ne hk2u).1
    · rw [(unifB_node hk2ne hk2u).2, hkcsU.2]
    · exact hkk
  · have hminpos : k2.length < minSize iM := by
      rcases Nat.lt_or_ge k2.length (minSize iM) with h2 | h2
      · exact h2
      · exact absurd (Or.inl h2) h1
    by_cases h2 : ls.isSome = true ∧
        (minSize iM : Int) ≤ ((nodeKCs (ls.getD default)).length : Int) - 1
    · -- borrow the left sibling's last child
      obtain ⟨L, hLeq⟩ := Option.isSome_iff_exists.mp h2.1
      obtain ⟨hLsB, hLu, hLh, hLne, hLs⟩ := hl L hLeq
      obtain ⟨LK, rfl⟩ := hgt_succ_node hLh
      subst hLeq
      obtain ⟨hLKne, hLKsl⟩ := structB_node_elim hLsB
      have hLKh : hgtL LK = h := by
        have h3 : 1 + hgtL LK = 1 + h := hLh
        omega
      have hLKu : unifL LK h = true := by
        have h3 : unifL LK (hgtL LK) = true := hLu
        rwa [hLKh] at h3
      have hLs2 : sortedB (keysOf (toListL LK) ++ keysOf (toListL kcs)) = true :=
        hLs
      have hLKs : sortedB (keysOf (toListL LK)) = true :=
        (sortedB_append.mp hLs2).1
      have hLKks : sortedB (keysOf LK) = true := node_keys_sorted hLKsl hLKs
      have hLKlen : 2 ≤ LK.length := by
        have h22 := h2.2
        simp only [Option.getD_some, nodeKCs] at h22
        have := List.length_pos.mpr hLKne
        omega
      have hlastlt : LK.length - 1 < LK.length := by omega
      obtain ⟨hlk, hlcne, hlcsB⟩ :=
        structL_forall.mp hLKsl _ (getD_mem (0, default) hlastlt)
      obtain ⟨hlch, hlcu⟩ := unifL_forall.mp hLKu _ (getD_mem (0, default) hlastlt)
      have hlkmem : keyAt LK (LK.length - 1) ∈ keysOf (toListL LK) :=
        keysOf_stored_subset hLKsl (keyAt_mem hlastlt)
      have hgt2 : ∀ a ∈ keysOf k2, keyAt LK (LK.length - 1) < a := by
        intro a ha
        have ham : a ∈ keysOf (toListL kcs) := by
          rw [← hk2t]
          exact keysOf_stored_subset hk2sl ha
        exact sorted_cross hLs2 hlkmem ham
      have hins : pageInsD k2 (keyAt LK (LK.length - 1))
          (valueAt LK (LK.length - 1)) =
          (keyAt LK (LK.length - 1), valueAt LK (LK.length - 1)) :: k2 := by
        have h3 := pageInsD_sorted_at hk2ks (valueAt LK (LK.length - 1)) 0
          (by intro a ha; simp [keysOf] at ha)
          (by intro a ha; exact hgt2 a (by simpa using ha))
        simpa using h3
      have hdlne : LK.dropLast ≠ [] := by
        intro hcon
        have hlen := congrArg List.length hcon
        rw [List.length_dropLast] at hlen
        simp at hlen
        omega
      have hdlsl : structL LK.dropLast = true := by
        refine structL_of_mem ?_ hLKsl
        intro kc hkc
        rw [List.dropLast_eq_take] at hkc
        exact List.mem_of_mem_take hkc
      have hdlu : unifL LK.dropLast h = true := by
        refine unifL_of_mem ?_ hLKu
        intro kc hkc
        rw [List.dropLast_eq_take] at hkc
        exact List.mem_of_mem_take hkc
      have hconsU : unifL ((keyAt LK (LK.length - 1),
          valueAt LK (LK.length - 1)) :: k2) h = true := by
        refine unifL_forall.mpr ?_
        intro kc hkc
        rcases List.mem_cons.mp hkc with rfl | hkc
        · exact ⟨hlch, hlcu⟩
        · exact unifL_forall.mp hk2u kc hkc
      rw [nodeRmFinish, if_neg h1, if_pos h2]
      simp only [Option.getD_some, nodeKCs]
      rw [hins]
      right
      left
      refine ⟨.node ((keyAt LK (LK.length - 1), valueAt LK (LK.length - 1)) :: k2),
        .node LK.dropLast, toListL LK.dropLast,
        toList (valueAt LK (LK.length - 1)), .node LK,
        rfl, rfl, ?_, ?_, ?_, rfl, ?_, ?_, ?_, ?_, ?_, ?_, ?_, ?_, ?_⟩
      · show toListL LK = toListL LK.dropLast ++ toList (valueAt LK (LK.length - 1))
        conv_lhs => rw [← dropLast_append_last_pair hLKne]
        rw [toListL_append, toListL_singleton]
      · exact toListL_ne_nil hdlsl hdlne
      · exact hlcne
      · show toList (valueAt LK (LK.length - 1)) ++ toListL k2 =
          toList (valueAt LK (LK.length - 1)) ++ toListL kcs
        rw [hk2t]
      · refine structB_node_intro (by simp) ?_
        refine structL_forall.mpr ?_
        intro kc hkc
        rcases List.mem_cons.mp hkc with rfl | hkc
        · exact ⟨hlk, hlcne, hlcsB⟩
        · exact structL_forall.mp hk2sl kc hkc
      · exact (unifB_node (by simp) hconsU).1
      · rw [(unifB_node (by simp) hconsU).2, hkcsU.2]
      · exact structB_node_intro hdlne hdlsl
      · exact (unifB_node hdlne hdlu).1
      · rw [(unifB_node hdlne hdlu).2, hkcsU.2]
      · show keyAt ((keyAt LK (LK.length - 1), valueAt LK (LK.length - 1)) :: k2) 0 =
          keyAt (toList (valueAt LK (LK.length - 1))) 0
        rw [keyAt_cons_zero,
          show keyAt LK (LK.length - 1) =
            pageKey0 (valueAt LK (LK.length - 1)) from hlk]
        exact pageKey0_eq_head _ hlcsB hlcne
      · show keyAt LK.dropLast 0 = keyAt LK 0
        exact keyAt_dropLast_zero hLKlen
    · by_cases h3 : rs.isSome = true ∧
          (minSize iM : Int) ≤ ((nodeKCs (rs.getD default)).length : Int) - 1
      · -- borrow the right sibling's first child
        obtain ⟨R, hReq⟩ := Option.isSome_iff_exists.mp h3.1
        obtain ⟨hRsB, hRu, hRh, hRne, hRs⟩ := hr R hReq
        obtain ⟨RK, rfl⟩ := hgt_succ_node hRh
        subst hReq
        obtain ⟨hRKne, hRKsl⟩ := structB_node_elim hRsB
        have hRKh : hgtL RK = h := by
          have h4 : 1 + hgtL RK = 1 + h := hRh
          omega
        have hRKu : unifL RK h = true := by
          have h4 : unifL RK (hgtL RK) = true := hRu
          rwa [hRKh] at h4
        have hRs2 : sortedB (keysOf (toListL kcs) ++ keysOf (toListL RK)) = true :=
          hRs
        have hRKs : sortedB (keysOf (toListL RK)) = true :=
          (sortedB_append.mp hRs2).2.1
        have hRKks : sortedB (keysOf RK) = true := node_keys_sorted hRKsl hRKs
        have hRKlen : 2 ≤ RK.length := by
          have h32 := h3.2
          simp only [Option.getD_some, nodeKCs] at h32
          have := List.length_pos.mpr hRKne
          omega
        have h0RK : 0 < RK.length := by omega
        obtain ⟨hrk, hrcne, hrcsB⟩ :=
          structL_forall.mp hRKsl _ (getD_mem (0, default) h0RK)
        obtain ⟨hrch, hrcu⟩ := unifL_forall.mp hRKu _ (getD_mem (0, default) h0RK)
        have hrkmem : keyAt RK 0 ∈ keysOf (toListL RK) :=
          keysOf_stored_subset hRKsl (keyAt_mem h0RK)
        have hltk : ∀ a ∈ keysOf k2, a < keyAt RK 0 := by
          intro a ha
          have ham : a ∈ keysOf (toListL kcs) := by
            rw [← hk2t]
            exact keysOf_stored_subset hk2sl ha
          exact sorted_cross hRs2 ham hrkmem
        have hins : pageInsD k2 (keyAt RK 0) (valueAt RK 0) =
            k2 ++ [(keyAt RK 0, valueAt RK 0)] := by
          have h4 := pageInsD_sorted_at hk2ks (valueAt RK 0) k2.length
            (by
              intro a ha
              rw [List.take_of_length_le (le_refl _)] at ha
              exact hltk a ha)
            (by
              intro a ha
              rw [List.drop_eq_nil_of_le (le_refl _)] at ha
              simp [keysOf] at ha)
          rwa [List.take_of_length_le (le_refl _),
            List.drop_eq_nil_of_le (le_refl _)] at h4
        have hRrm : pageRmD RK (keyAt RK 0) = RK.drop 1 := by
          have h5 := pageRmD_sorted_at hRKks h0RK
          simpa using h5
        have hdropne : RK.drop 1 ≠ [] := by
          intro hcon
          have hlen := congrArg List.length hcon
          rw [List.length_drop] at hlen
          simp at hlen
          omega
        have hdropsl : structL (RK.drop 1) = true :=
          structL_of_mem (fun kc hkc => List.mem_of_mem_drop hkc) hRKsl
        have hdropu : unifL (RK.drop 1) h = true :=
          unifL_of_mem (fun kc hkc => List.mem_of_mem_drop hkc) hRKu
        have hsingSL : structL [(keyAt RK 0, valueAt RK 0)] = true := by
          refine structL_forall.mpr ?_
          intro kc hkc
          have hkc2 : kc = (keyAt RK 0, valueAt RK 0) := by simpa using hkc
          subst hkc2
          exact ⟨hrk, hrcne, hrcsB⟩
        have hsingU : unifL [(keyAt RK 0, valueAt RK 0)] h = true := by
          refine unifL_forall.mpr ?_
          intro kc hkc
          have hkc2 : kc = (keyAt RK 0, valueAt RK 0) := by simpa using hkc
          subst hkc2
          exact ⟨hrch, hrcu⟩
        rw [nodeRmFinish, if_neg h1, if_neg h2, if_pos h3]
        simp only [Option.getD_some, nodeKCs]
        rw [hins, hRrm, keyAt_append_left [(keyAt RK 0, valueAt RK 0)] hk20, hkk]
        right
        right
        left
        refine ⟨.node (k2 ++ [(keyAt RK 0, valueAt RK 0)]), .node (RK.drop 1),
          toList (valueAt RK 0), toListL (RK.drop 1), .node RK,
          rfl, rfl, ?_, ?_, ?_, rfl, ?_, ?_, ?_, ?_, ?_, ?_, ?_, ?_, ?_⟩
        · show toListL RK = toList (valueAt RK 0) ++ toListL (RK.drop 1)
          have hdec := toListL_drop_cons h0RK
          rw [List.drop_zero] at hdec
          exact hdec
        · exact hrcne
        · exact toListL_ne_nil hdropsl hdropne
        · show toListL (k2 ++ [(keyAt RK 0, valueAt RK 0)]) =
            toListL kcs ++ toList (valueAt RK 0)
          rw [toListL_append, toListL_singleton, hk2t]
        · exact structB_node_intro (by simp) (structL_append_of hk2sl hsingSL)
        · exact (unifB_node (by simp) (unifL_append_of hk2u hsingU)).1
        · rw [(unifB_node (by simp) (unifL_append_of hk2u hsingU)).2, hkcsU.2]
        · exact structB_node_intro hdropne hdropsl
        · exact (unifB_node hdropne hdropu).1
        · rw [(unifB_node hdropne hdropu).2, hkcsU.2]
        · show keyAt (k2 ++ [(keyAt RK 0, valueAt RK 0)]) 0 = keyAt kcs 0
          rw [keyAt_append_left _ hk20]
          exact hkk
        · show keyAt (RK.drop 1) 0 = keyAt (toListL (RK.drop 1)) 0
          exact pageKey0_eq_headL _ hdropsl hdropne
      · by_cases h4 : ls.isSome = true
        · -- merge: the left sibling's children are moved in front of this page
          obtain ⟨L, hLeq⟩ := Option.isSome_iff_exists.mp h4
          obtain ⟨hLsB, hLu, hLh, hLne, hLs⟩ := hl L hLeq
          obtain ⟨LK, rfl⟩ := hgt_succ_node hLh
          subst hLeq
          obtain ⟨hLKne, hLKsl⟩ := structB_node_elim hLsB
          have hLKh : hgtL LK = h := by
            have h5 : 1 + hgtL LK = 1 + h := hLh
            omega
          have hLKu : unifL LK h = true := by
            have h5 : unifL LK (hgtL LK) = true := hLu
            rwa [hLKh] at h5
          have hLs2 : sortedB (keysOf (toListL LK) ++ keysOf (toListL kcs)) =
              true := hLs
          have hLKs : sortedB (keysOf (toListL LK)) = true :=
            (sortedB_append.mp hLs2).1
          have hLKks : sortedB (keysOf LK) = true := node_keys_sorted hLKsl hLKs
          have hLK0 : 0 < LK.length := List.length_pos.mpr hLKne
          have hcross : sortedB (keysOf LK ++ keysOf k2) = true := by
            refine sortedB_append.mpr ⟨hLKks, hk2ks, ?_⟩
            intro a ha b hb
            have ham : a ∈ keysOf (toListL LK) := keysOf_stored_subset hLKsl ha
            have hbm : b ∈ keysOf (toListL kcs) := by
              rw [← hk2t]
              exact keysOf_stored_subset hk2sl hb
            exact sorted_cross hLs2 ham hbm
          have hmv := moveTail_spec LK k2 0 hcross
          have hmv1 : (moveTail LK k2 0).1 = [] := by rw [hmv]; rfl
          have hmv2 : (moveTail LK k2 0).2 = LK ++ k2 := by rw [hmv]; rfl
          have happne : LK ++ k2 ≠ [] := by
            intro hcon
            exact hLKne (List.append_eq_nil.mp hcon).1
          rw [nodeRmFinish, if_neg h1, if_neg h2, if_neg h3, if_pos h4]
          simp only [Option.getD_some, nodeKCs]
          rw [hmv1, hmv2, keyAt_append_left k2 hLK0]
          right
          right
          right
          left
          refine ⟨.node (LK ++ k2), .node [], .node LK, .node (LK ++ k2),
            SibTag.self, rfl, rfl, rfl, ?_, ?_, ?_, ?_, ?_⟩
          · show toListL (LK ++ k2) = toListL LK ++ toListL kcs
            rw [toListL_append, hk2t]
          · exact structB_node_intro happne (structL_append_of hLKsl hk2sl)
          · exact (unifB_node happne (unifL_append_of hLKu hk2u)).1
          · rw [(unifB_node happne (unifL_append_of hLKu hk2u)).2, hkcsU.2]
          · show keyAt (LK ++ k2) 0 = keyAt LK 0
            exact keyAt_append_left k2 hLK0
        · by_cases h5 : rs.isSome = true
          · -- absorb: the right sibling's children are appended to this page
            obtain ⟨R, hReq⟩ := Option.isSome_iff_exists.mp h5
            obtain ⟨hRsB, hRu, hRh, hRne, hRs⟩ := hr R hReq
            obtain ⟨RK, rfl⟩ := hgt_succ_node hRh
            subst hReq
            obtain ⟨hRKne, hRKsl⟩ := structB_node_elim hRsB
            have hRKh : hgtL RK = h := by
              have h6 : 1 + hgtL RK = 1 + h := hRh
              omega
            have hRKu : unifL RK h = true := by
              have h6 : unifL RK (hgtL RK) = true := hRu
              rwa [hRKh] at h6
            have hRs2 : sortedB (keysOf (toListL kcs) ++ keysOf (toListL RK)) =
                true := hRs
            have hRKs : sortedB (keysOf (toListL RK)) = true :=
              (sortedB_append.mp hRs2).2.1
            have hRKks : sortedB (keysOf RK) = true := node_keys_sorted hRKsl hRKs
            have hcross : sortedB (keysOf k2 ++ keysOf RK) = true := by
              refine sortedB_append.mpr ⟨hk2ks, hRKks, ?_⟩
              intro a ha b hb
              have ham : a ∈ keysOf (toListL kcs) := by
                rw [← hk2t]
                exact keysOf_stored_subset hk2sl ha
              have hbm : b ∈ keysOf (toListL RK) := keysOf_stored_subset hRKsl hb
              exact sorted_cross hRs2 ham hbm
            have hmv := moveTail_spec_right RK k2 0 hcross
            have hmv1 : (moveTail RK k2 0).1 = [] := by rw [hmv]; rfl
            have hmv2 : (moveTail RK k2 0).2 = k2 ++ RK := by rw [hmv]; rfl
            have happne : k2 ++ RK ≠ [] := by
              intro hcon
              exact hk2ne (List.append_eq_nil.mp hcon).1
            rw [nodeRmFinish, if_neg h1, if_neg h2, if_neg h3, if_neg h4,
              if_pos h5]
            simp only [Option.getD_some, nodeKCs]
            rw [hmv1, hmv2, keyAt_append_left RK hk20, hkk]
            right
            right
            right
            right
            refine ⟨.node (k2 ++ RK), .node [], .node RK, rfl, rfl, ?_, ?_, ?_,
              ?_, ?_⟩
            · show toListL (k2 ++ RK) = toListL kcs ++ toListL RK
              rw [toListL_append, hk2t]
            · exact structB_node_intro happne (structL_append_of hk2sl hRKsl)
            · exact (unifB_node happne (unifL_append_of hk2u hRKu)).1
            · rw [(unifB_node happne (unifL_append_of hk2u hRKu)).2, hkcsU.2]
            · show keyAt (k2 ++ RK) 0 = keyAt kcs 0
              rw [keyAt_append_left RK hk20]
              exact hkk
          · exfalso
            rcases ls with _ | L
            · rcases rs with _ | R
              · exact h1 (Or.inr ⟨rfl, rfl⟩)
              · exact h5 rfl
            · exact h4 rfl


theorem segments_adjacent_sorted {kcs : List (Nat × BPage)}
    (hs : sortedB (keysOf (toListL kcs)) = true) {i : Nat}
    (h : i + 1 < kcs.length) :
    sortedB (keysOf (toList (kcs.getD i (0, default)).2) ++
      keysOf (toList (kcs.getD (i + 1) (0, default)).2)) = true := by
  have hdec := toListL_decomp (show i < kcs.length by omega)
  rw [toListL_drop_cons h] at hdec
  rw [hdec, keysOf_append, keysOf_append, keysOf_append] at hs
  refine sortedB_of_sublist ?_ hs
  rw [List.append_assoc]
  refine List.Sublist.trans ?_ (List.sublist_append_right _ _)
  exact (List.Sublist.refl _).append (List.sublist_append_left _ _)


/-! ## `DfsRemove` of an absent key: shape of the result, by tree induction -/

mutual
theorem dfsRm_shape : ∀ (lM iM : Nat) (c : BPage) (ls rs : Option BPage) (k : Nat),
    structB c = true → sortedB (keysOf (toList c)) = true → unifB c = true →
    toList c ≠ [] →
    (∀ L, ls = some L → structB L = true ∧ unifB L = true ∧ hgt L = hgt c ∧
      toList L ≠ [] ∧ sortedB (keysOf (toList L) ++ keysOf (toList c)) = true) →
    (∀ R, rs = some R → structB R = true ∧ unifB R = true ∧ hgt R = hgt c ∧
      toList R ≠ [] ∧ sortedB (keysOf (toList c) ++ keysOf (toList R)) = true) →
    k ∉ keysOf (toList c) →
    rmShape c ls rs (dfsRm lM iM c ls rs k)
  | lM, iM, .leaf kvs, ls, rs, k, _, hs, _, hne, hl, hr, habs => by
      rw [dfsRm]
      refine leafRmStep_shape lM kvs ls rs k hs hne habs ?_ ?_
      · intro L hL
        obtain ⟨_, hLu, hLh, hLne, hLs⟩ := hl L hL
        exact ⟨hLh, hLne, hLs⟩
      · intro R hR
        obtain ⟨_, hRu, hRh, hRne, hRs⟩ := hr R hR
        exact ⟨hRh, hRne, hRs⟩
  | lM, iM, .node kcs, ls, rs, k, hsB, hs, hcu, hne, hl, hr, habs => by
      obtain ⟨hkne, hsl⟩ := structB_node_elim hsB
      have hs2 : sortedB (keysOf (toListL kcs)) = true := hs
      have hu : unifL kcs (hgtL kcs) = true := hcu
      have hks : sortedB (keysOf kcs) = true := node_keys_sorted hsl hs2
      obtain ⟨hilt, hile, higt⟩ := childIdx_bounds hks hkne k
      obtain ⟨hkeyi, hcne, hcsB⟩ :=
        structL_forall.mp hsl _ (getD_mem (0, default) hilt)
      obtain ⟨hch, hcu2⟩ := unifL_forall.mp hu _ (getD_mem (0, default) hilt)
      have hlx : ∀ L, (if 1 ≤ childIdx kcs k then
          some (valueAt kcs (childIdx kcs k - 1)) else none) = some L →
          structB L = true ∧ unifB L = true ∧
          hgt L = hgt (kcs.getD (childIdx kcs k) (0, default)).2 ∧
          toList L ≠ [] ∧
          sortedB (keysOf (toList L) ++
            keysOf (toList (kcs.getD (childIdx kcs k) (0, default)).2)) = true := by
        intro L hL
        by_cases h1 : 1 ≤ childIdx kcs k
        · rw [if_pos h1] at hL
          injection hL with hL2
          have hLv : L = (kcs.getD (childIdx kcs k - 1) (0, default)).2 := hL2.symm
          subst hLv
          have hprev : childIdx kcs k - 1 < kcs.length := by omega
          obtain ⟨hkeyp, hpne, hpsB⟩ :=
            structL_forall.mp hsl _ (getD_mem (0, default) hprev)
          obtain ⟨hph, hpu⟩ := unifL_forall.mp hu _ (getD_mem (0, default) hprev)
          refine ⟨hpsB, hpu, hph.trans hch.symm, hpne, ?_⟩
          have hadj := segments_adjacent_sorted hs2
            (show childIdx kcs k - 1 + 1 < kcs.length from by omega)
          rwa [show childIdx kcs k - 1 + 1 = childIdx kcs k from by omega] at hadj
        · rw [if_neg h1] at hL
          exact absurd hL (by simp)
      have hrx : ∀ R, (if childIdx kcs k + 1 < kcs.length then
          some (valueAt kcs (childIdx kcs k + 1)) else none) = some R →
          structB R = true ∧ unifB R = true ∧
          hgt R = hgt (kcs.getD (childIdx kcs k) (0, default)).2 ∧
          toList R ≠ [] ∧
          sortedB (keysOf (toList (kcs.getD (childIdx kcs k) (0, default)).2) ++
            keysOf (toList R)) = true := by
        intro R hR
        by_cases h1 : childIdx kcs k + 1 < kcs.length
        · rw [if_pos h1] at hR
          injection hR with hR2
          have hRv : R = (kcs.getD (childIdx kcs k + 1) (0, default)).2 := hR2.symm
          subst hRv
          obtain ⟨hkeyn, hnne, hnsB⟩ :=
            structL_forall.mp hsl _ (getD_mem (0, default) h1)
          obtain ⟨hnh, hnu⟩ := unifL_forall.mp hu _ (getD_mem (0, default) h1)
          refine ⟨hnsB, hnu, hnh.trans hch.symm, hnne, ?_⟩
          exact segments_adjacent_sorted hs2 h1
        · rw [if_neg h1] at hR
          exact absurd hR (by simp)
      rcases hres : dfsRmAt lM iM kcs (childIdx kcs k)
        (if 1 ≤ childIdx kcs k then some (valueAt kcs (childIdx kcs k - 1))
         else none)
        (if childIdx kcs k + 1 < kcs.length then
           some (valueAt kcs (childIdx kcs k + 1)) else none) k
        with ⟨son, l2, r2, dels, adds⟩
      have hshape := dfsRmAt_shape lM iM kcs (childIdx kcs k) _ _ k hilt hcsB
        (segment_sorted hs2 hilt) hcu2 hcne hlx hrx (segment_fresh habs hilt)
      rw [hres] at hshape
      obtain ⟨hk2t, hk2sl, hk2u, hk2ne⟩ :=
        fixup_pres kcs (childIdx kcs k) (hgtL kcs) son l2 r2 dels adds hilt hsl
          hs2 hu hshape
      rw [dfsRm, hres, nodeRmStep]
      refine nodeRmFinish_shape iM kcs _ (hgtL kcs) ls rs hsl hs2 hu hkne hk2t
        hk2sl hk2u hk2ne ?_ ?_
      · intro L hL
        obtain ⟨hLsB, hLu, hLh, hLne, hLs⟩ := hl L hL
        exact ⟨hLsB, hLu, hLh, hLne, hLs⟩
      · intro R hR
        obtain ⟨hRsB, hRu, hRh, hRne, hRs⟩ := hr R hR
        exact ⟨hRsB, hRu, hRh, hRne, hRs⟩

theorem dfsRmAt_shape : ∀ (lM iM : Nat) (kcs : List (Nat × BPage)) (i : Nat)
    (ls rs : Option BPage) (k : Nat), i < kcs.length →
    structB (kcs.getD i (0, default)).2 = true →
    sortedB (keysOf (toList (kcs.getD i (0, default)).2)) = true →
    unifB (kcs.getD i (0, default)).2 = true →
    toList (kcs.getD i (0, default)).2 ≠ [] →
    (∀ L, ls = some L → structB L = true ∧ unifB L = true ∧
      hgt L = hgt (kcs.getD i (0, default)).2 ∧ toList L ≠ [] ∧
      sortedB (keysOf (toList L) ++
        keysOf (toList (kcs.getD i (0, default)).2)) = true) →
    (∀ R, rs = some R → structB R = true ∧ unifB R = true ∧
      hgt R = hgt (kcs.getD i (0, default)).2 ∧ toList R ≠ [] ∧
      sortedB (keysOf (toList (kcs.getD i (0, default)).2) ++
        keysOf (toList R)) = true) →
    k ∉ keysOf (toList (kcs.getD i (0, default)).2) →
    rmShape (kcs.getD i (0, default)).2 ls rs (dfsRmAt lM iM kcs i ls rs k)
  | lM, iM, [], i, ls, rs, k, hi, _, _, _, _, _, _, _ => by simp at hi
  | lM, iM, kc :: rest, 0, ls, rs, k, _, hsB, hs, hu, hne, hl, hr, habs => by
      rw [dfsRmAt]
      have h2 := dfsRm_shape lM iM kc.2 ls rs k (by simpa using hsB)
        (by simpa using hs) (by simpa using hu) (by simpa using hne)
        (by simpa using hl) (by simpa using hr) (by simpa using habs)
      simpa using h2
  | lM, iM, kc :: rest, i + 1, ls, rs, k, hi, hsB, hs, hu, hne, hl, hr, habs => by
      rw [dfsRmAt]
      have h2 := dfsRmAt_shape lM iM rest i ls rs k (by simpa using hi)
        (by simpa using hsB) (by simpa using hs) (by simpa using hu)
        (by simpa using hne) (by simpa using hl) (by simpa using hr)
        (by simpa using habs)
      simpa using h2
end


/-- Claim C7: removing a key that is not present from a well-formed tree of
uniform depth — the invariants every tree reachable by the API from the
initial empty root satisfies, including the under-occupied pages produced
by the split of C2 — leaves the flattened contents (the key set and every
remaining key's value) unchanged, whether the removal ends without
restructuring or triggers a borrow, merge or root collapse. -/
theorem remove_absent_keeps_contents (lM iM : Nat) (t : BPage) (k : Nat)
    (hwf : wfB t = true) (hunif : unifB t = true)
    (habs : k ∉ keysOf (toList t)) :
    toList (removeOp lM iM t k) = toList t := by
  rw [wfB, Bool.and_eq_true] at hwf
  obtain ⟨hsB, hs⟩ := hwf
  rw [removeOp]
  by_cases h0 : nodeSize t = 0
  · rw [if_pos h0]
  · rw [if_neg h0]
    have hne : toList t ≠ [] := by
      cases t with
      | leaf kvs =>
          show kvs ≠ []
          intro hcon
          rw [hcon] at h0
          exact h0 rfl
      | node kcs =>
          obtain ⟨hkne, hsl⟩ := structB_node_elim hsB
          exact toListL_ne_nil hsl hkne
    have hd := dfsRm_shape lM iM t none none k hsB hs hunif hne
      (by intro L hL; exact absurd hL (by simp))
      (by intro R hR; exact absurd hR (by simp)) habs
    rcases hd with ⟨son, hres, hson, _, _, _, _⟩ | h2 | h2 | h2 | h2
    · have hfst : (dfsRm lM iM t none none k).1 = son := by rw [hres]
      rw [hfst]
      cases son with
      | leaf kvs => exact hson
      | node kcs2 =>
          show toList (if kcs2.length = 1 then (kcs2.getD 0 (0, default)).2
            else .node kcs2) = toList t
          by_cases h1 : kcs2.length = 1
          · rw [if_pos h1]
            rcases kcs2 with _ | ⟨kc, rest⟩
            · simp at h1
            · have hr : rest = [] := by
                simp only [List.length_cons] at h1
                exact List.length_eq_zero.mp (by omega)
              subst hr
              rw [← hson,
                show toList (.node [kc]) = toList kc.2 ++ ([] : List (Nat × Nat))
                  from rfl, List.append_nil]
              rfl
          · rw [if_neg h1]
            exact hson
    · obtain ⟨_, _, _, _, _, hcon, -⟩ := h2
      exact Option.noConfusion hcon
    · obtain ⟨_, _, _, _, _, hcon, -⟩ := h2
      exact Option.noConfusion hcon
    · obtain ⟨_, _, _, _, _, hcon, -⟩ := h2
      exact Option.noConfusion hcon
    · obtain ⟨_, _, _, hcon, -⟩ := h2
      exact Option.noConfusion hcon

/-- Witness for C7: removing the absent key 5 from a two-leaf tree with
max sizes 4. -/
theorem remove_absent_keeps_contents_witness :
    wfB (.node [(1, .leaf [(1, 10), (2, 20)]),
      (3, .leaf [(3, 30), (4, 40)])]) = true ∧
    unifB (.node [(1, .leaf [(1, 10), (2, 20)]),
      (3, .leaf [(3, 30), (4, 40)])]) = true ∧
    5 ∉ keysOf (toList (.node [(1, .leaf [(1, 10), (2, 20)]),
      (3, .leaf [(3, 30), (4, 40)])])) ∧
    toList (removeOp 4 4 (.node [(1, .leaf [(1, 10), (2, 20)]),
      (3, .leaf [(3, 30), (4, 40)])]) 5) =
      toList (.node [(1, .leaf [(1, 10), (2, 20)]),
        (3, .leaf [(3, 30), (4, 40)])]) :=
  ⟨by decide, by decide, by decide,
    remove_absent_keeps_contents 4 4
      (.node [(1, .leaf [(1, 10), (2, 20)]), (3, .leaf [(3, 30), (4, 40)])]) 5
      (by decide) (by decide) (by decide)⟩


end BusTub
